import Mathlib

/-!
# Verification of the taxi-fleet simulation (repository IA)

Shallow embedding of the dispatch-and-routing core of the repository:
the spatial graph (`src/graph/graph.py`, `src/graph/position.py`,
`src/graph/node.py`), the event model (`src/events.py`), the vehicle
energy model (`src/vehicle/vehicle_types.py`), the unified cost function
(`src/algorithms/utils/cost_function.py`), the heuristics
(`src/algorithms/informed/heuristics.py`), the three search algorithms
(`uniform_cost.py`, `a_star.py`, `greedy.py`), the refuel helpers
(`src/refuel_helper.py`) and the assignment policy (`src/simulation.py`).

Modelling conventions:
* Python floats are modelled by `ℚ`; the sentinel `float('inf')` that the
  search algorithms return, and the `inf`-initialised best-cost
  accumulators, are modelled by `WithTop ℚ` (`⊤` = infinity).
* Python dictionaries keyed by the dense node ids `0..N-1` are modelled
  by lists indexed by position (`Graph.edges`); a lookup that would raise
  `KeyError` in Python is modelled by an `Option`-returning lookup, and a
  whole computation that would raise is modelled as returning `none`.
* `Position.distance_to` is `math.sqrt` of the squared distance.  Where the
  code only *compares* distances (`find_closest_node`,
  `find_nearest_station`) we compare squared distances, which agrees
  exactly with comparing real square roots because `Real.sqrt` is strictly
  monotone on nonnegative inputs.  The one place the *value* is used
  (`add_edge`'s default distance) uses `Rat.sqrt`, which coincides with the
  real square root whenever the squared distance is a perfect square; no
  theorem below depends on that value.
* Possibly diverging loops (the three searches, path reconstruction) are
  given an explicit fuel parameter; running out of fuel yields `none`.
-/

namespace IA

/- The rational arithmetic operations are `@[irreducible]` in Batteries,
which blocks the evaluation of concrete rational expressions inside
`decide`; restore the default reducibility for this file so witnesses and
counterexamples can be checked by `decide`. -/
attribute [local semireducible] Rat.inv Rat.mul Rat.add Rat.sub
  Rat.ofScientific

/-- `Position` from `src/graph/position.py`: immutable 2D coordinate. -/
structure Position where
  x : ℚ
  y : ℚ
deriving DecidableEq

/-- Squared Euclidean distance.  `Position.distance_to` in the source is
`math.sqrt` of this quantity; comparisons of `distance_to` values agree
with comparisons of `sq_distance_to` values by strict monotonicity of the
square root. -/
def Position.sq_distance_to (p q : Position) : ℚ :=
  (p.x - q.x) ^ 2 + (p.y - q.y) ^ 2

/-- `Position.distance_to`: the source computes
`math.sqrt((x1-x2)**2 + (y1-y2)**2)`.  `Rat.sqrt` agrees with the real
square root exactly when the squared distance is a perfect rational
square; no theorem in this file depends on its value elsewhere. -/
def Position.distance_to (p q : Position) : ℚ :=
  Rat.sqrt (p.sq_distance_to q)

/-- `Node` from `src/graph/node.py` (the `node_type` strings are
`"generic" | "pickup" | "charging" | "fuel" | "depot"`). -/
structure Node where
  id : ℕ
  position : Position
  node_type : String
deriving DecidableEq

/-- One entry of an adjacency list: the per-edge dictionary built by
`Graph.add_edge` in `src/graph/graph.py` (`target`, `distance`, `time`,
`open`) together with the keys added later by
`EventManager.apply_events_to_edges` (`base_time`, `weather`, `traffic`);
an absent key is `none`. -/
structure Edge where
  target : ℕ
  distance : ℚ
  time : ℚ
  isOpen : Bool
  base_time : Option ℚ
  weather : Option String
  traffic : Option String
deriving DecidableEq

/-- A fresh edge dictionary as created by `add_edge` (only the four
original keys present). -/
def Edge.mk4 (target : ℕ) (distance time : ℚ) (isOpen : Bool) : Edge :=
  ⟨target, distance, time, isOpen, none, none, none⟩

/-- `Graph` from `src/graph/graph.py`.  `self.edges` is a dict whose keys
are exactly the node ids `0..len(nodes)-1` (one entry appended per
`add_node`); we model it as a list indexed by node id.  `self.next_id`
always equals `len(self.nodes)`. -/
structure Graph where
  nodes : List Node
  edges : List (List Edge)
  directed : Bool
deriving DecidableEq

/-- `Graph(directed)` constructor. -/
def Graph.empty (directed : Bool) : Graph :=
  ⟨[], [], directed⟩

/-- `Graph.add_node`: appends a node with the next sequential id and an
empty adjacency list. -/
def Graph.add_node (g : Graph) (x y : ℚ) (node_type : String) : Graph :=
  { g with
    nodes := g.nodes ++ [⟨g.nodes.length, ⟨x, y⟩, node_type⟩],
    edges := g.edges ++ [[]] }

/-- `Graph.get_node`: bounds-checked lookup (`0 <= node_id < len(nodes)`). -/
def Graph.get_node (g : Graph) (node_id : ℕ) : Option Node :=
  g.nodes[node_id]?

/-- The adjacency list of `u`, or `[]` when `u` is not a key
(used where the source tolerates a missing key via `.get(node_from, [])`). -/
def Graph.edgesFrom (g : Graph) (u : ℕ) : List Edge :=
  g.edges.getD u []

/-- First stored edge from `u` to `v`, mirroring
`next((e for e in self.edges[node_id] if e["target"] == next_id), None)`. -/
def Graph.findEdge (g : Graph) (u v : ℕ) : Option Edge :=
  (g.edgesFrom u).find? (fun e => e.target == v)

/-- `Graph.calculate_path_metrics`: sums `distance` and `time` over
consecutive pairs; a pair with no connecting edge contributes zero. -/
def Graph.calculate_path_metrics (g : Graph) (path : List ℕ) : ℚ × ℚ :=
  if path.length < 2 then (0, 0)
  else pathMetricsAux g path
where
  /-- The `for i in range(len(path)-1)` loop. -/
  pathMetricsAux : Graph → List ℕ → ℚ × ℚ
  | _, [] => (0, 0)
  | _, [_] => (0, 0)
  | g, a :: b :: rest =>
    let tail := pathMetricsAux g (b :: rest)
    match g.findEdge a b with
    | some e => (e.distance + tail.1, e.time + tail.2)
    | none => tail

/-- `Graph.find_closest_node`: linear scan minimising Euclidean distance,
first-encountered node wins ties; returns `none` on an empty graph
(Python returns `None`).  Squared distances are compared (see header). -/
def Graph.find_closest_node (g : Graph) (position : Position) : Option Node :=
  (g.nodes.foldl
    (fun (acc : Option (Node × ℚ)) node =>
      let dist := node.position.sq_distance_to position
      match acc with
      | none => some (node, dist)
      | some (_, best) => if dist < best then some (node, dist) else acc)
    none).map Prod.fst

/-- `SCALE_FACTOR` in `Graph.add_edge`. -/
def SCALE_FACTOR : ℚ := 15

/-- `Graph.add_edge` (`src/graph/graph.py`).  Raising `ValueError` is
modelled by `Except.error`; node ids are naturals (a negative Python id
would likewise fail the `get_node` bounds check).  The `edges.set` calls
are performed sequentially exactly as the two `append`s in the source, so
a self-loop on an undirected graph receives both entries. -/
def Graph.add_edge (g : Graph) (id1 id2 : ℕ) (distance? : Option ℚ)
    (edge_speed : ℚ) (travel_time? : Option ℚ) (isOpen : Bool) :
    Except String Graph :=
  match g.get_node id1, g.get_node id2 with
  | some n1, some n2 =>
    let distance : ℚ :=
      match distance? with
      | some d => d
      | none => n1.position.distance_to n2.position
    let time_seconds : ℚ :=
      match travel_time? with
      | some t => t
      | none => ((distance * (1 / 1000)) / edge_speed) * 3600
    let scaled_distance := distance * SCALE_FACTOR
    let scaled_time_minutes := (time_seconds * SCALE_FACTOR) / 60
    let edge_info := Edge.mk4 id2 scaled_distance scaled_time_minutes isOpen
    let edges1 := g.edges.set id1 (g.edgesFrom id1 ++ [edge_info])
    let edges2 :=
      if g.directed then edges1
      else
        let reverse_info := Edge.mk4 id1 scaled_distance scaled_time_minutes isOpen
        edges1.set id2 (edges1.getD id2 [] ++ [reverse_info])
    Except.ok { g with edges := edges2 }
  | _, _ =>
    Except.error "Os nós devem existir antes de criar uma aresta"

/-- `Graph.get_edge_time`: current (event-adjusted) time of an edge, or
`none` when the edge does not exist. -/
def Graph.get_edge_time (g : Graph) (node1_id node2_id : ℕ) : Option ℚ :=
  if node1_id < g.edges.length then
    match g.findEdge node1_id node2_id with
    | some e => some e.time
    | none => none
  else none

/-! ## Event model (`src/events.py`) -/

/-- `WeatherCondition` enum. -/
inductive WeatherCondition
  | clear
  | rain
  | heavy_rain
  | fog
  | snow
deriving DecidableEq

/-- The `.value` string of the enum member. -/
def WeatherCondition.value : WeatherCondition → String
  | .clear => "clear"
  | .rain => "rain"
  | .heavy_rain => "heavy_rain"
  | .fog => "fog"
  | .snow => "snow"

/-- `WeatherCondition.get_time_multiplier`. -/
def WeatherCondition.get_time_multiplier : WeatherCondition → ℚ
  | .clear => 1
  | .rain => 3 / 2
  | .heavy_rain => 2
  | .fog => 5 / 2
  | .snow => 5

/-- `TrafficLevel` enum. -/
inductive TrafficLevel
  | clear
  | light
  | moderate
  | heavy
  | congested
deriving DecidableEq

/-- The `.value` string of the enum member. -/
def TrafficLevel.value : TrafficLevel → String
  | .clear => "clear"
  | .light => "light"
  | .moderate => "moderate"
  | .heavy => "heavy"
  | .congested => "congested"

/-- `TrafficLevel.get_time_multiplier`. -/
def TrafficLevel.get_time_multiplier : TrafficLevel → ℚ
  | .clear => 1
  | .light => 2
  | .moderate => 3
  | .heavy => 5
  | .congested => 8

/-- A weather-zone record `{"condition": .., "start_time": .., "end_time": ..}`. -/
structure WeatherZone where
  condition : WeatherCondition
  start_time : ℤ
  end_time : ℤ
deriving DecidableEq

/-- A traffic-zone record `{"level": .., "start_time": .., "end_time": ..}`. -/
structure TrafficZone where
  level : TrafficLevel
  start_time : ℤ
  end_time : ℤ
deriving DecidableEq

/-- `EventManager` (without the `graph` back-reference; the graph is passed
explicitly to the operations that mutate it).  The two zone dictionaries
are modelled as functions `node_id → Option zone`; `set_*_zone` overwrites
pointwise, which is exactly the last-write-wins dict semantics. -/
structure EventManager where
  weather_zones : ℕ → Option WeatherZone
  traffic_zones : ℕ → Option TrafficZone
  closed_roads : List (ℕ × ℕ)

/-- `EventManager(graph)` constructor: empty zones, no closed roads. -/
def EventManager.init : EventManager :=
  ⟨fun _ => none, fun _ => none, []⟩

/-- `EventManager.set_weather_zone`. -/
def EventManager.set_weather_zone (em : EventManager) (node_ids : List ℕ)
    (weather_condition : WeatherCondition) (start_time end_time : ℤ) :
    EventManager :=
  { em with
    weather_zones := fun n =>
      if n ∈ node_ids then some ⟨weather_condition, start_time, end_time⟩
      else em.weather_zones n }

/-- `EventManager.set_traffic_zone`. -/
def EventManager.set_traffic_zone (em : EventManager) (node_ids : List ℕ)
    (traffic_level : TrafficLevel) (start_time end_time : ℤ) :
    EventManager :=
  { em with
    traffic_zones := fun n =>
      if n ∈ node_ids then some ⟨traffic_level, start_time, end_time⟩
      else em.traffic_zones n }

/-- `EventManager.get_weather_at_node`. -/
def EventManager.get_weather_at_node (em : EventManager) (node_id : ℕ)
    (current_time : Option ℤ) : WeatherCondition :=
  match em.weather_zones node_id with
  | none => .clear
  | some zone =>
    match current_time with
    | none => zone.condition
    | some t =>
      if zone.start_time ≤ t ∧ t ≤ zone.end_time then zone.condition
      else .clear

/-- `EventManager.get_traffic_at_node`. -/
def EventManager.get_traffic_at_node (em : EventManager) (node_id : ℕ)
    (current_time : Option ℤ) : TrafficLevel :=
  match em.traffic_zones node_id with
  | none => .clear
  | some zone =>
    match current_time with
    | none => zone.level
    | some t =>
      if zone.start_time ≤ t ∧ t ≤ zone.end_time then zone.level
      else .clear

/-- `EventManager.get_weather_multiplier`. -/
def EventManager.get_weather_multiplier (em : EventManager) (node_id : ℕ)
    (current_time : Option ℤ) : ℚ :=
  (em.get_weather_at_node node_id current_time).get_time_multiplier

/-- `EventManager.get_traffic_multiplier`. -/
def EventManager.get_traffic_multiplier (em : EventManager) (node_id : ℕ)
    (current_time : Option ℤ) : ℚ :=
  (em.get_traffic_at_node node_id current_time).get_time_multiplier

/-- `EventManager.get_combined_multiplier`: product of the weather and
traffic multipliers. -/
def EventManager.get_combined_multiplier (em : EventManager) (node_id : ℕ)
    (current_time : Option ℤ) : ℚ :=
  em.get_weather_multiplier node_id current_time *
    em.get_traffic_multiplier node_id current_time

/-- One direction of `close_road`: closes every stored edge `u → v` and
reports whether at least one such edge was found (the `closed` flag).  A
`u` that is not a key of the dict leaves everything unchanged. -/
def closeDirected (edges : List (List Edge)) (u v : ℕ) :
    List (List Edge) × Bool :=
  let l := edges.getD u []
  (edges.set u
      (l.map fun e => if e.target = v then { e with isOpen := false } else e),
    l.any (fun e => e.target == v))

/-- `EventManager.close_road`: marks both directed edges closed (all
parallel copies), records the pair when anything was closed; silently does
nothing (a log line in the source) when neither direction exists. -/
def EventManager.close_road (em : EventManager) (g : Graph)
    (node_id1 node_id2 : ℕ) : Graph × EventManager :=
  let r1 := closeDirected g.edges node_id1 node_id2
  let r2 := closeDirected r1.1 node_id2 node_id1
  let g' := { g with edges := r2.1 }
  if r1.2 || r2.2 then
    (g', { em with closed_roads := em.closed_roads ++ [(node_id1, node_id2)] })
  else (g', em)

/-- The update `apply_events_to_edges` performs on one edge whose source
node has combined multiplier `mult`, weather `w` and traffic `tr`:
capture `base_time` on first application, recompute
`time = base_time * mult`, and record the weather/traffic tags. -/
def applyEdge (mult : ℚ) (w : WeatherCondition) (tr : TrafficLevel)
    (e : Edge) : Edge :=
  let base := e.base_time.getD e.time
  { e with
    base_time := some base,
    time := base * mult,
    weather := some (if mult = 1 then "clear" else w.value),
    traffic := some (if mult = 1 then "clear" else tr.value) }

/-- `EventManager.apply_events_to_edges`: for every node id (dict key) and
every outgoing edge, recompute `time` from the preserved `base_time` and
the source node's combined multiplier at `current_time`. -/
def EventManager.apply_events_to_edges (em : EventManager) (g : Graph)
    (current_time : Option ℤ) : Graph :=
  { g with
    edges := g.edges.enum.map fun p =>
      let node_id := p.1
      let mult := em.get_combined_multiplier node_id current_time
      p.2.map
        (applyEdge mult (em.get_weather_at_node node_id current_time)
          (em.get_traffic_at_node node_id current_time)) }

/-- `EventManager.is_road_open`. -/
def EventManager.is_road_open (em : EventManager) (node_id1 node_id2 : ℕ) :
    Bool :=
  !(em.closed_roads.contains (node_id1, node_id2)) &&
    !(em.closed_roads.contains (node_id2, node_id1))

/-! ## Vehicle energy model (`src/vehicle/vehicle_types.py`) -/

/-- `EMISSIONS_COMBUSTION_G_PER_KM` from `src/config.py`. -/
def EMISSIONS_COMBUSTION_G_PER_KM : ℚ := 120

/-- `EMISSIONS_HYBRID_G_PER_KM` from `src/config.py`. -/
def EMISSIONS_HYBRID_G_PER_KM : ℚ := 90

/-- `Eletric` (sic) vehicle type. -/
structure Eletric where
  battery_capacity : ℚ
  battery_consumption : ℚ
  current_battery : ℚ
  average_speed : ℚ
deriving DecidableEq

/-- `Eletric.consume`: depletes battery by `(consumption/100) * km`,
clamped at `0.0`; `distance` is in metres. -/
def Eletric.consume (v : Eletric) (distance : ℚ) : Eletric :=
  let distance_km := distance / 1000
  let wasted_battery := (v.battery_consumption / 100) * distance_km
  { v with current_battery := max 0 (v.current_battery - wasted_battery) }

/-- `Eletric.has_enough_battery`. -/
def Eletric.has_enough_battery (v : Eletric) (distance : ℚ) : Bool :=
  let distance_km := distance / 1000
  let needed_battery := (v.battery_consumption / 100) * distance_km
  needed_battery ≤ v.current_battery

/-- `Eletric.has_enough_energy`. -/
def Eletric.has_enough_energy (v : Eletric) (distance : ℚ) : Bool :=
  v.has_enough_battery distance

/-- `Eletric.battery_percentage`. -/
def Eletric.battery_percentage (v : Eletric) : ℚ :=
  v.current_battery / v.battery_capacity * 100

/-- `Combustion` vehicle type. -/
structure Combustion where
  fuel_capacity : ℚ
  fuel_consumption : ℚ
  current_fuel : ℚ
  average_speed : ℚ
deriving DecidableEq

/-- `Combustion.consume`: depletes fuel, clamped at `0.0`. -/
def Combustion.consume (v : Combustion) (distance : ℚ) : Combustion :=
  let distance_km := distance / 1000
  let wasted_fuel := (v.fuel_consumption / 100) * distance_km
  { v with current_fuel := max 0 (v.current_fuel - wasted_fuel) }

/-- `Combustion.has_enough_fuel`. -/
def Combustion.has_enough_fuel (v : Combustion) (distance : ℚ) : Bool :=
  let distance_km := distance / 1000
  let needed_fuel := (v.fuel_consumption / 100) * distance_km
  needed_fuel ≤ v.current_fuel

/-- `Combustion.has_enough_energy`. -/
def Combustion.has_enough_energy (v : Combustion) (distance : ℚ) : Bool :=
  v.has_enough_fuel distance

/-- `Combustion.fuel_percentage`. -/
def Combustion.fuel_percentage (v : Combustion) : ℚ :=
  v.current_fuel / v.fuel_capacity * 100

/-- `Combustion.calculate_emissions`. -/
def Combustion.calculate_emissions (_ : Combustion) (distance : ℚ) : ℚ :=
  EMISSIONS_COMBUSTION_G_PER_KM * (distance / 1000)

/-- `Hybrid` vehicle type (battery-first depletion order). -/
structure Hybrid where
  battery_capacity : ℚ
  battery_consumption : ℚ
  fuel_capacity : ℚ
  fuel_consumption : ℚ
  current_battery : ℚ
  current_fuel : ℚ
  average_speed : ℚ
deriving DecidableEq

/-- `Hybrid.consume`: uses battery first; when the battery cannot cover the
whole trip, the battery is zeroed and the remaining kilometres are charged
to fuel (clamped at `0.0`). -/
def Hybrid.consume (v : Hybrid) (distance : ℚ) : Hybrid :=
  let distance_km := distance / 1000
  let battery_consumption_per_km := v.battery_consumption / 100
  let fuel_consumption_per_km := v.fuel_consumption / 100
  let needed_battery := battery_consumption_per_km * distance_km
  if needed_battery ≤ v.current_battery then
    { v with current_battery := max 0 (v.current_battery - needed_battery) }
  else
    let battery_distance_km :=
      if 0 < battery_consumption_per_km then
        v.current_battery / battery_consumption_per_km
      else 0
    let remaining_distance_km := distance_km - battery_distance_km
    let needed_fuel := fuel_consumption_per_km * remaining_distance_km
    { v with
      current_battery := 0,
      current_fuel := max 0 (v.current_fuel - needed_fuel) }

/-- `Hybrid.has_enough_energy`: total achievable distance on current
battery plus current fuel covers `distance`. -/
def Hybrid.has_enough_energy (v : Hybrid) (distance : ℚ) : Bool :=
  let distance_km := distance / 1000
  let battery_consumption_per_km :=
    if 0 < v.battery_consumption then v.battery_consumption / 100 else 0
  let fuel_consumption_per_km :=
    if 0 < v.fuel_consumption then v.fuel_consumption / 100 else 0
  let battery_distance_km :=
    if 0 < battery_consumption_per_km then
      v.current_battery / battery_consumption_per_km
    else 0
  let fuel_distance_km :=
    if 0 < fuel_consumption_per_km then
      v.current_fuel / fuel_consumption_per_km
    else 0
  distance_km ≤ battery_distance_km + fuel_distance_km

/-- `Hybrid.battery_percentage`. -/
def Hybrid.battery_percentage (v : Hybrid) : ℚ :=
  v.current_battery / v.battery_capacity * 100

/-- `Hybrid.fuel_percentage`. -/
def Hybrid.fuel_percentage (v : Hybrid) : ℚ :=
  v.current_fuel / v.fuel_capacity * 100

/-- `Hybrid.calculate_emissions`: zero while the battery covers the trip,
otherwise `EMISSIONS_HYBRID_G_PER_KM` per kilometre of the fuel part. -/
def Hybrid.calculate_emissions (v : Hybrid) (distance : ℚ) : ℚ :=
  let distance_km := distance / 1000
  let battery_consumption_per_km :=
    if 0 < v.battery_consumption then v.battery_consumption / 100 else 0
  let battery_distance_km :=
    if 0 < battery_consumption_per_km then
      v.current_battery / battery_consumption_per_km
    else 0
  if distance_km ≤ battery_distance_km then 0
  else EMISSIONS_HYBRID_G_PER_KM * (distance_km - battery_distance_km)

/-- The closed variant set of `VehicleType` (the abstract base class with
its three concrete subclasses, dispatched by `isinstance`). -/
inductive VehicleType
  | eletric (v : Eletric)
  | combustion (v : Combustion)
  | hybrid (v : Hybrid)
deriving DecidableEq

/-- Polymorphic `consume`. -/
def VehicleType.consume : VehicleType → ℚ → VehicleType
  | .eletric v, d => .eletric (v.consume d)
  | .combustion v, d => .combustion (v.consume d)
  | .hybrid v, d => .hybrid (v.consume d)

/-- Polymorphic `has_enough_energy`. -/
def VehicleType.has_enough_energy : VehicleType → ℚ → Bool
  | .eletric v, d => v.has_enough_energy d
  | .combustion v, d => v.has_enough_energy d
  | .hybrid v, d => v.has_enough_energy d

/-! ## Unified cost function (`src/algorithms/utils/cost_function.py`) -/

/-- `PRECO_BATERIA` (src/config.py): €/kWh. -/
def PRECO_BATERIA : ℚ := 15 / 100

/-- `PRECO_COMBUSTIVEL` (src/config.py): €/litre. -/
def PRECO_COMBUSTIVEL : ℚ := 9 / 5

/-- `PESO_TEMPO`. -/
def PESO_TEMPO : ℚ := 35 / 100

/-- `PESO_CUSTO`. -/
def PESO_CUSTO : ℚ := 50 / 100

/-- `PESO_AMBIENTE`. -/
def PESO_AMBIENTE : ℚ := 15 / 100

/-- `TEMPO_BASE_MIN`. -/
def TEMPO_BASE_MIN : ℚ := 12 / 10

/-- `CUSTO_BASE_EUR`. -/
def CUSTO_BASE_EUR : ℚ := 15 / 100

/-- `EMISSOES_BASE_G`. -/
def EMISSOES_BASE_G : ℚ := 60

/-- The battery/fuel amounts `(energia_kwh, combustivel_l)` the hybrid
branch of `_calculate_operational_cost` charges for a `dist_km` trip:
battery covers `current_battery / (battery_consumption/100)` km, fuel the
remainder. -/
def hybridCostSplit (v : Hybrid) (dist_km : ℚ) : ℚ × ℚ :=
  let consumo_bateria_por_km := v.battery_consumption / 100
  let consumo_combustivel_por_km := v.fuel_consumption / 100
  let bateria_km :=
    if 0 < consumo_bateria_por_km then
      v.current_battery / consumo_bateria_por_km
    else 0
  if dist_km ≤ bateria_km then (consumo_bateria_por_km * dist_km, 0)
  else
    (consumo_bateria_por_km * bateria_km,
      consumo_combustivel_por_km * (dist_km - bateria_km))

/-- `_calculate_operational_cost`: operational cost in euros for
`dist_km` kilometres.  The hybrid branch charges exactly
`hybridCostSplit` priced at `PRECO_BATERIA` / `PRECO_COMBUSTIVEL`. -/
def calculateOperationalCost (dist_km : ℚ) :
    Option VehicleType → ℚ
  | none => dist_km * CUSTO_BASE_EUR
  | some (.eletric v) =>
    (v.battery_consumption / 100) * dist_km * PRECO_BATERIA
  | some (.combustion v) =>
    (v.fuel_consumption / 100) * dist_km * PRECO_COMBUSTIVEL
  | some (.hybrid v) =>
    let s := hybridCostSplit v dist_km
    s.1 * PRECO_BATERIA + s.2 * PRECO_COMBUSTIVEL

/-- `_calculate_emissions`: grams of CO₂ for `dist_km` kilometres. -/
def calculateEmissionsCost (dist_km : ℚ) : Option VehicleType → ℚ
  | none => 120 * dist_km
  | some (.eletric _) => 0
  | some (.combustion v) => (v.fuel_consumption / 100) * 2300 * dist_km
  | some (.hybrid v) =>
    let consumo_bateria_por_km := v.battery_consumption / 100
    let consumo_combustivel_por_km := v.fuel_consumption / 100
    let bateria_km :=
      if 0 < consumo_bateria_por_km then
        v.current_battery / consumo_bateria_por_km
      else 0
    if dist_km ≤ bateria_km then 0
    else consumo_combustivel_por_km * 2300 * (dist_km - bateria_km)

/-- `calculate_edge_cost`: weighted blend of normalised time, operational
cost and emissions, scaled by the raw edge distance.  The source guards
each normalisation by `if BASE > 0`, which is statically true for the
positive constants above, and its `event_multiplier` parameter is unused
by the body. -/
def calculate_edge_cost (distance time : ℚ)
    (vehicle_type : Option VehicleType) : ℚ :=
  let dist_km := distance / 1000
  let tempo_normalizado := time / TEMPO_BASE_MIN
  let custo_normalizado := calculateOperationalCost dist_km vehicle_type / CUSTO_BASE_EUR
  let ambiente_normalizado := calculateEmissionsCost dist_km vehicle_type / EMISSOES_BASE_G
  (PESO_TEMPO * tempo_normalizado + PESO_CUSTO * custo_normalizado +
      PESO_AMBIENTE * ambiente_normalizado) * distance

/-! ## Heuristics (`src/algorithms/informed/heuristics.py`) -/

/-- `DEFAULT_SPEED_KMH`. -/
def DEFAULT_SPEED_KMH : ℚ := 50

/-- `COST_PER_KM` (fallback €/km). -/
def COST_PER_KM : ℚ := 1 / 2

/-- `average_speed` of a vehicle type (every concrete class stores one). -/
def VehicleType.average_speed : VehicleType → ℚ
  | .eletric v => v.average_speed
  | .combustion v => v.average_speed
  | .hybrid v => v.average_speed

/-- `_heuristic_distance`. -/
def heuristicDistance (dist_meters : ℚ) : ℚ :=
  dist_meters

/-- `_heuristic_time`: travel-time estimate at the vehicle's average
speed, inflated by the combined event multiplier (and converted back to
metre-equivalents) when an event manager and node id are supplied. -/
def heuristicTime (dist_km speed_kmh : ℚ) (event_manager : Option EventManager)
    (node_id : Option ℕ) (current_time : Option ℤ) : ℚ :=
  let base_time := dist_km / speed_kmh * 60
  match event_manager, node_id with
  | some em, some nid =>
    let multiplier := em.get_combined_multiplier nid current_time
    let time_minutes := base_time * multiplier
    time_minutes * (speed_kmh * 1000 / 60)
  | _, _ => base_time

/-- `EURO_TO_METERS` inside `_heuristic_cost`. -/
def EURO_TO_METERS : ℚ := 200

/-- `_heuristic_cost`: operational cost in euros converted to
metre-equivalents. -/
def heuristicCost (dist_km : ℚ) (vehicle_type : Option VehicleType) : ℚ :=
  let custo_euros :=
    match vehicle_type with
    | none => dist_km * COST_PER_KM
    | some (.eletric v) =>
      (v.battery_consumption / 100) * dist_km * PRECO_BATERIA
    | some (.combustion v) =>
      (v.fuel_consumption / 100) * dist_km * PRECO_COMBUSTIVEL
    | some (.hybrid v) =>
      let s := hybridCostSplit v dist_km
      s.1 * PRECO_BATERIA + s.2 * PRECO_COMBUSTIVEL
  custo_euros * EURO_TO_METERS

/-- `CO2_TO_METERS` inside `_heuristic_environmental`. -/
def CO2_TO_METERS : ℚ := 6

/-- `_heuristic_environmental`: emission-based metre-equivalents, with the
raw distance as fallback for zero-emission states. -/
def heuristicEnvironmental (dist_meters dist_km : ℚ)
    (vehicle_type : Option VehicleType) : ℚ :=
  match vehicle_type with
  | none => 120 * dist_km * CO2_TO_METERS
  | some (.eletric _) => dist_meters
  | some (.combustion v) =>
    (v.fuel_consumption / 100) * 2300 * dist_km * CO2_TO_METERS
  | some (.hybrid v) =>
    let consumo_bateria_por_km := v.battery_consumption / 100
    let bateria_km :=
      if 0 < consumo_bateria_por_km then
        v.current_battery / consumo_bateria_por_km
      else 0
    if dist_km ≤ bateria_km then dist_meters
    else
      let consumo_combustivel_por_km := v.fuel_consumption / 100
      consumo_combustivel_por_km * 2300 * (dist_km - bateria_km) *
        CO2_TO_METERS

/-- The `TRAFFIC_PENALTIES` table of `_heuristic_traffic_avoidance`,
keyed on the traffic level's `.value` string. -/
def trafficPenalty : TrafficLevel → ℚ
  | .clear => 1
  | .light => 13 / 10
  | .moderate => 18 / 10
  | .heavy => 25 / 10
  | .congested => 4

/-- `PROPAGATION_FACTOR` inside `_heuristic_traffic_avoidance`. -/
def PROPAGATION_FACTOR : ℚ := 3 / 2

/-- `_heuristic_traffic_avoidance`: distance times a traffic penalty at
the destination node, with an extra propagation factor above the `1.3`
threshold. -/
def heuristicTrafficAvoidance (dist_meters : ℚ)
    (event_manager : Option EventManager) (node_id : Option ℕ)
    (current_time : Option ℤ) : ℚ :=
  match event_manager, node_id with
  | some em, some nid =>
    let penalty := trafficPenalty (em.get_traffic_at_node nid current_time)
    let penalty := if 13 / 10 < penalty then penalty * PROPAGATION_FACTOR else penalty
    dist_meters * penalty
  | _, _ => dist_meters

/-- `_heuristic_combined`: arithmetic mean of the five heuristics. -/
def heuristicCombined (dist_meters dist_km speed_kmh : ℚ)
    (vehicle_type : Option VehicleType) (event_manager : Option EventManager)
    (node_id : Option ℕ) (current_time : Option ℤ) : ℚ :=
  (heuristicDistance dist_meters +
      heuristicTime dist_km speed_kmh event_manager node_id current_time +
      heuristicCost dist_km vehicle_type +
      heuristicEnvironmental dist_meters dist_km vehicle_type +
      heuristicTrafficAvoidance dist_meters event_manager node_id
        current_time) / 5

/-- `calculate_heuristic`: dispatches on the `criterion` string, falling
back to the distance heuristic for unknown criteria.  `dist_meters` is
the Euclidean distance (`Rat.sqrt` model, see header). -/
def calculate_heuristic (pos1 pos2 : Position) (criterion : String)
    (vehicle_type : Option VehicleType) (event_manager : Option EventManager)
    (node_id : Option ℕ) (current_time : Option ℤ) : ℚ :=
  let dist_meters := pos1.distance_to pos2
  let dist_km := dist_meters / 1000
  let speed_kmh :=
    match vehicle_type with
    | some vt => vt.average_speed
    | none => DEFAULT_SPEED_KMH
  if criterion = "combined" then
    heuristicCombined dist_meters dist_km speed_kmh vehicle_type
      event_manager node_id current_time
  else if criterion = "distance" then heuristicDistance dist_meters
  else if criterion = "time" then
    heuristicTime dist_km speed_kmh event_manager node_id current_time
  else if criterion = "cost" then heuristicCost dist_km vehicle_type
  else if criterion = "environmental" then
    heuristicEnvironmental dist_meters dist_km vehicle_type
  else if criterion = "traffic_avoidance" then
    heuristicTrafficAvoidance dist_meters event_manager node_id current_time
  else heuristicDistance dist_meters

/-! ## Search algorithms

All three algorithms return `(distance, time, path)` where the first two
components are `WithTop ℚ` so that the `(float('inf'), float('inf'), [])`
no-path convention is representable as `(⊤, ⊤, [])`.

The Python `heapq` orders entries by the pushed tuples
`(priority, counter, ...)`; since the tie-break counters are pairwise
distinct, the pop order is exactly "least `(priority, counter)` in
lexicographic order", which is what `popMinBy` below selects (the list
order of the remaining entries is irrelevant to all further pops).

Each `while`-loop gets a fuel parameter; `none` models both a Python
exception (e.g. `KeyError` on a malformed graph) and running out of fuel.
The adequacy lemmas below show that on well-formed graphs sufficient fuel
exists. -/

/-- The search-result triple `(total_distance, total_time, path)`. -/
abbrev SearchResult := WithTop ℚ × WithTop ℚ × List ℕ

/-- Remove the least element of a list according to a strict comparison,
keeping the leftmost one among equals (the heap never contains equal keys
because counters are distinct). -/
def popMinBy (lt : α → α → Bool) : List α → Option (α × List α)
  | [] => none
  | x :: xs =>
    match popMinBy lt xs with
    | none => some (x, [])
    | some (m, rest) => if lt m x then some (m, x :: rest) else some (x, xs)

/-- A heap entry `(cost, counter, node, path)` of `uniform_cost_search`. -/
structure UcsEntry where
  cost : ℚ
  counter : ℕ
  node : Node
  path : List ℕ
deriving DecidableEq

/-- Lexicographic order on `(cost, counter)` — the `heapq` tuple order. -/
def ucsLt (a b : UcsEntry) : Bool :=
  a.cost < b.cost || (a.cost == b.cost && a.counter < b.counter)

/-- The `for edge in graph.edges[current.id]` body of
`uniform_cost_search`: skip closed edges, push unvisited neighbours with
accumulated unified cost; `none` models the `AttributeError` Python
raises when `get_node` returns `None` for an edge target. -/
def ucsScan (g : Graph) (vt : Option VehicleType) (visited : Finset ℕ)
    (cost : ℚ) (path : List ℕ) :
    List Edge → ℕ → List UcsEntry → Option (ℕ × List UcsEntry)
  | [], counter, acc => some (counter, acc)
  | e :: es, counter, acc =>
    if e.isOpen = false then ucsScan g vt visited cost path es counter acc
    else
      match g.get_node e.target with
      | none => none
      | some neighbor =>
        if neighbor.id ∈ visited then
          ucsScan g vt visited cost path es counter acc
        else
          let edge_cost := calculate_edge_cost e.distance e.time vt
          ucsScan g vt visited cost path es (counter + 1)
            (acc ++ [⟨cost + edge_cost, counter, neighbor,
              path ++ [neighbor.id]⟩])

/-- The `while open_set:` loop of `uniform_cost_search` with fuel. -/
def ucsLoop (g : Graph) (vt : Option VehicleType) (goalId : ℕ) :
    ℕ → List UcsEntry → ℕ → Finset ℕ → Option SearchResult
  | 0, _, _, _ => none
  | fuel + 1, open_set, counter, visited =>
    match popMinBy ucsLt open_set with
    | none => some (⊤, ⊤, [])
    | some (entry, rest) =>
      if entry.node.id = goalId then
        let m := g.calculate_path_metrics entry.path
        some ((m.1 : WithTop ℚ), (m.2 : WithTop ℚ), entry.path)
      else if entry.node.id ∈ visited then
        ucsLoop g vt goalId fuel rest counter visited
      else
        let visited' := insert entry.node.id visited
        match g.edges[entry.node.id]? with
        | none => none
        | some edges =>
          match ucsScan g vt visited' entry.cost entry.path edges counter
              rest with
          | none => none
          | some r => ucsLoop g vt goalId fuel r.2 r.1 visited'

/-- `uniform_cost_search` (`src/algorithms/uninformed/uniform_cost.py`).
`none` on an empty graph models the `AttributeError` on
`find_closest_node` returning `None`. -/
def uniform_cost_search (start goal : Position) (g : Graph)
    (vehicle_type : Option VehicleType) (fuel : ℕ) : Option SearchResult :=
  match g.find_closest_node start, g.find_closest_node goal with
  | some start_node, some goal_node =>
    ucsLoop g vehicle_type goal_node.id fuel
      [⟨0, 0, start_node, [start_node.id]⟩] 1 ∅
  | _, _ => none

/-- Lookup in the `came_from` dict, modelled as an association list with
newest binding first (`cfLookup` finds the latest write). -/
def cfLookup (cf : List (ℕ × Node)) (k : ℕ) : Option Node :=
  (cf.find? (fun p => p.1 == k)).map Prod.snd

/-- The `while current.id in came_from` path-reconstruction loop shared by
`a_star` and `greedy_bfs`.  The fuel `cf.length + 1` used at the call
sites is exhausted exactly when the Python loop would run forever (a
cyclic `came_from` chain); on an acyclic chain it reproduces the loop:
collect ids along the chain, append the start node's id, reverse. -/
def reconstructPath (cf : List (ℕ × Node)) (startId : ℕ) :
    ℕ → Node → List ℕ → Option (List ℕ)
  | 0, _, _ => none
  | fuel + 1, current, acc =>
    match cfLookup cf current.id with
    | some prev => reconstructPath cf startId fuel prev (acc ++ [current.id])
    | none => some ((acc ++ [startId]).reverse)

/-- A heap entry `(h, counter, node)` of `greedy_bfs`. -/
structure GreedyEntry where
  h : ℚ
  counter : ℕ
  node : Node
deriving DecidableEq

/-- Lexicographic `(h, counter)` order. -/
def greedyLt (a b : GreedyEntry) : Bool :=
  a.h < b.h || (a.h == b.h && a.counter < b.counter)

/-- The neighbour scan of `greedy_bfs`: for each open edge to an
unvisited neighbour, record `came_from[neighbor.id] = current` and push
`(h(neighbor), counter, neighbor)`. -/
def greedyScan (g : Graph) (criterion : String) (vt : Option VehicleType)
    (em : Option EventManager) (t : Option ℤ) (goal_pos : Position)
    (current : Node) (visited : Finset ℕ) :
    List Edge → ℕ → List GreedyEntry → List (ℕ × Node) →
    Option (ℕ × List GreedyEntry × List (ℕ × Node))
  | [], counter, acc, cf => some (counter, acc, cf)
  | e :: es, counter, acc, cf =>
    if e.isOpen = false then
      greedyScan g criterion vt em t goal_pos current visited es counter acc cf
    else
      match g.get_node e.target with
      | none => none
      | some neighbor =>
        if neighbor.id ∈ visited then
          greedyScan g criterion vt em t goal_pos current visited es counter
            acc cf
        else
          let h_score := calculate_heuristic neighbor.position goal_pos
            criterion vt em (some neighbor.id) t
          greedyScan g criterion vt em t goal_pos current visited es
            (counter + 1) (acc ++ [⟨h_score, counter, neighbor⟩])
            ((neighbor.id, current) :: cf)

/-- The `while open_set:` loop of `greedy_bfs` with fuel.  Note the
source adds the popped node to `visited` on every pop (it has no
"already visited" skip), and pushes only unvisited neighbours. -/
def greedyLoop (g : Graph) (criterion : String) (vt : Option VehicleType)
    (em : Option EventManager) (t : Option ℤ) (goal_pos : Position)
    (goalId startId : ℕ) :
    ℕ → List GreedyEntry → ℕ → Finset ℕ → List (ℕ × Node) →
    Option SearchResult
  | 0, _, _, _, _ => none
  | fuel + 1, open_set, counter, visited, cf =>
    match popMinBy greedyLt open_set with
    | none => some (⊤, ⊤, [])
    | some (entry, rest) =>
      if entry.node.id = goalId then
        match reconstructPath cf startId (cf.length + 1) entry.node [] with
        | none => none
        | some path =>
          let m := g.calculate_path_metrics path
          some ((m.1 : WithTop ℚ), (m.2 : WithTop ℚ), path)
      else
        let visited' := insert entry.node.id visited
        match g.edges[entry.node.id]? with
        | none => none
        | some edges =>
          match greedyScan g criterion vt em t goal_pos entry.node visited'
              edges counter rest cf with
          | none => none
          | some r =>
            greedyLoop g criterion vt em t goal_pos goalId startId fuel
              r.2.1 r.1 visited' r.2.2

/-- `greedy_bfs` (`src/algorithms/informed/greedy.py`). -/
def greedy_bfs (start goal : Position) (g : Graph) (criterion : String)
    (event_manager : Option EventManager) (current_time : Option ℤ)
    (vehicle_type : Option VehicleType) (fuel : ℕ) : Option SearchResult :=
  match g.find_closest_node start, g.find_closest_node goal with
  | some start_node, some goal_node =>
    let h_start := calculate_heuristic start_node.position goal_node.position
      criterion vehicle_type event_manager (some start_node.id) current_time
    greedyLoop g criterion vehicle_type event_manager current_time
      goal_node.position goal_node.id start_node.id fuel
      [⟨h_start, 0, start_node⟩] 1 ∅ []
  | _, _ => none

/-- A heap entry `(f_score, counter, node)` of `a_star`; `f` can be `⊤`
(Python pushes `float('inf')` when the tentative score is infinite —
which never happens because of the strict improvement guard, but the type
reflects the arithmetic). -/
structure AStarEntry where
  f : WithTop ℚ
  counter : ℕ
  node : Node
deriving DecidableEq

/-- Lexicographic `(f, counter)` order. -/
def astarLt (a b : AStarEntry) : Bool :=
  a.f < b.f || (a.f == b.f && a.counter < b.counter)

/-- Mutable state of the `a_star` loop: the frontier, the tie-break
counter, the `g_score` dict (total function, `⊤` = `float('inf')`; the
source initialises every node id's entry to `inf`) and the `came_from`
dict.  The `f_score` dict of the source is only read back immediately
after being written, so the pushed `f` values carry it. -/
structure AStarState where
  open_set : List AStarEntry
  counter : ℕ
  g_score : ℕ → WithTop ℚ
  came_from : List (ℕ × Node)

/-- Pointwise update of the `g_score` dict. -/
def gsUpdate (f : ℕ → WithTop ℚ) (k : ℕ) (v : WithTop ℚ) :
    ℕ → WithTop ℚ :=
  fun n => if n = k then v else f n

/-- The neighbour relaxation of `a_star`: for each open edge, when
`g_score[current] + edge_cost` strictly improves `g_score[neighbor]`,
record the predecessor, update `g_score` and push
`(tentative + h, counter, neighbor)`. -/
def astarScan (g : Graph) (criterion : String) (vt : Option VehicleType)
    (em : Option EventManager) (t : Option ℤ) (goal_pos : Position)
    (current : Node) :
    List Edge → AStarState → Option AStarState
  | [], st => some st
  | e :: es, st =>
    if e.isOpen = false then
      astarScan g criterion vt em t goal_pos current es st
    else
      match g.get_node e.target with
      | none => none
      | some neighbor =>
        let edge_cost := calculate_edge_cost e.distance e.time vt
        let tentative := st.g_score current.id + (edge_cost : WithTop ℚ)
        if tentative < st.g_score neighbor.id then
          let h_score := calculate_heuristic neighbor.position goal_pos
            criterion vt em (some neighbor.id) t
          astarScan g criterion vt em t goal_pos current es
            { open_set :=
                st.open_set ++ [⟨tentative + (h_score : WithTop ℚ),
                  st.counter, neighbor⟩],
              counter := st.counter + 1,
              g_score := gsUpdate st.g_score neighbor.id tentative,
              came_from := (neighbor.id, current) :: st.came_from }
        else astarScan g criterion vt em t goal_pos current es st

/-- The `while open_set:` loop of `a_star` with fuel. -/
def astarLoop (g : Graph) (criterion : String) (vt : Option VehicleType)
    (em : Option EventManager) (t : Option ℤ) (goal_pos : Position)
    (goalId startId : ℕ) : ℕ → AStarState → Option SearchResult
  | 0, _ => none
  | fuel + 1, st =>
    match popMinBy astarLt st.open_set with
    | none => some (⊤, ⊤, [])
    | some (entry, rest) =>
      if entry.node.id = goalId then
        match reconstructPath st.came_from startId (st.came_from.length + 1)
            entry.node [] with
        | none => none
        | some path =>
          let m := g.calculate_path_metrics path
          some ((m.1 : WithTop ℚ), (m.2 : WithTop ℚ), path)
      else
        match g.edges[entry.node.id]? with
        | none => none
        | some edges =>
          match astarScan g criterion vt em t goal_pos entry.node edges
              { st with open_set := rest } with
          | none => none
          | some st' =>
            astarLoop g criterion vt em t goal_pos goalId startId fuel st'

/-- `a_star` (`src/algorithms/informed/a_star.py`). -/
def a_star (start goal : Position) (g : Graph) (criterion : String)
    (event_manager : Option EventManager) (current_time : Option ℤ)
    (vehicle_type : Option VehicleType) (fuel : ℕ) : Option SearchResult :=
  match g.find_closest_node start, g.find_closest_node goal with
  | some start_node, some goal_node =>
    let h_start := calculate_heuristic start_node.position goal_node.position
      criterion vehicle_type event_manager (some start_node.id) current_time
    astarLoop g criterion vehicle_type event_manager current_time
      goal_node.position goal_node.id start_node.id fuel
      ⟨[⟨(0 : WithTop ℚ) + (h_start : WithTop ℚ), 0, start_node⟩], 1,
        gsUpdate (fun _ => ⊤) start_node.id 0, []⟩
  | _, _ => none

/-! ## Refuel helpers (`src/refuel_helper.py`, `src/refuel_config.py`)
and the assignment policy (`src/simulation.py`) -/

/-- `REFUEL_TIME` (minutes). -/
def REFUEL_TIME : ℚ := 6

/-- `RECHARGE_TIME` (minutes). -/
def RECHARGE_TIME : ℚ := 30

/-- `SAFETY_MARGIN`. -/
def SAFETY_MARGIN : ℚ := 15 / 100

/-- `Vehicle_Status` enum. -/
inductive Vehicle_Status
  | IDLE
  | TRAVELING
  | REFUELING
  | RECHARGING
deriving DecidableEq

/-- The fields of `Vehicle` (`src/vehicle/vehicle.py`) that the
assignment policy reads. -/
structure Vehicle where
  id : ℕ
  vehicle_type : VehicleType
  capacity : ℕ
  status : Vehicle_Status
  current_position : Position
deriving DecidableEq

/-- `Request` status values (`src/request.py`). -/
inductive RequestStatus
  | pending
  | assigned
  | picked_up
  | completed
deriving DecidableEq

/-- The fields of `Request` that the assignment policy reads. -/
structure Request where
  start_point : Position
  end_point : Position
  requested_time : ℤ
  passengers : ℕ
  eco_friendly : Bool
  status : RequestStatus
deriving DecidableEq

/-- `needs_refuel` for a finite total distance (metres): the vehicle's
energy check at `distance * (1 + SAFETY_MARGIN)`. -/
def needs_refuelFin (v : Vehicle) (distance : ℚ) : Bool :=
  match v.vehicle_type with
  | .eletric e => !(e.has_enough_battery (distance * (1 + SAFETY_MARGIN)))
  | .combustion c => !(c.has_enough_fuel (distance * (1 + SAFETY_MARGIN)))
  | .hybrid h => !(h.has_enough_energy (distance * (1 + SAFETY_MARGIN)))

/-- `needs_refuel` (`src/refuel_helper.py`).  The total distance can be
`float('inf')` when a leg is unreachable; then the needed amount is `inf`
(or `NaN` for a zero consumption rate) and Python's
`current >= inf`/`current >= NaN` is `False`, so `needs_refuel` is `True`
in every case. -/
def needs_refuel (v : Vehicle) (distance : WithTop ℚ) : Bool :=
  if distance = ⊤ then true
  else needs_refuelFin v (distance.untop' 0)

/-- `get_refuel_time`: dwell time by vehicle/station type; a hybrid at an
unspecified station refuels whichever side is lower (fuel wins ties in
favour of recharging, per the `<` comparison). -/
def get_refuel_time (v : Vehicle) (station_type : Option String) : ℚ :=
  match v.vehicle_type with
  | .eletric _ => RECHARGE_TIME
  | .combustion _ => REFUEL_TIME
  | .hybrid h =>
    if station_type = some "fuel" then REFUEL_TIME
    else if station_type = some "charging" then RECHARGE_TIME
    else if h.fuel_percentage < h.battery_percentage then REFUEL_TIME
    else RECHARGE_TIME

/-- `get_station_type_for_vehicle`: `"charging"` for electric, `"fuel"`
for combustion; a hybrid goes for fuel when both are below 30% or fuel is
the scarcer resource, otherwise charging.  (The percentages divide by the
capacities; a zero capacity would raise in Python and yields `0` in `ℚ` —
no theorem below exercises that corner.) -/
def get_station_type_for_vehicle (v : Vehicle) : String :=
  match v.vehicle_type with
  | .eletric _ => "charging"
  | .combustion _ => "fuel"
  | .hybrid h =>
    if h.fuel_percentage < 30 ∧ h.battery_percentage < 30 then "fuel"
    else if h.fuel_percentage < h.battery_percentage then "fuel"
    else "charging"

/-- `find_nearest_station`: linear scan over nodes of the requested
`node_type`, minimising Euclidean distance (squared-distance comparison,
see header), first-encountered wins ties. -/
def find_nearest_station (g : Graph) (position : Position)
    (station_type : String) : Option Node :=
  (g.nodes.foldl
    (fun (acc : Option (Node × ℚ)) node =>
      if node.node_type = station_type then
        let dist := position.sq_distance_to node.position
        match acc with
        | none => some (node, dist)
        | some (_, best) => if dist < best then some (node, dist) else acc
      else acc)
    none).map Prod.fst

/-- The pieces of `Simulation` that `assign_request_to_vehicle` uses: the
graph and the configured search algorithm.  The `search_algorithm`
wrapper's reflection (which optional arguments to forward) and its timing
statistics do not change the returned triple, so the search is modelled
as a function of the two positions and the candidate vehicle. -/
structure SimConfig where
  graph : Graph
  searchFn : Position → Position → Vehicle → SearchResult

/-- `Simulation.get_available_vehicles`: the IDLE ones. -/
def get_available_vehicles (vehicles : List Vehicle) : List Vehicle :=
  vehicles.filter (fun v => v.status == Vehicle_Status.IDLE)

/-- Is the vehicle type an instance of `Eletric`? -/
def VehicleType.isEletric : VehicleType → Bool
  | .eletric _ => true
  | _ => false

/-- `Simulation.get_available_vehicles_for_request`: IDLE vehicles,
restricted to electric ones when the request is eco-friendly. -/
def get_available_vehicles_for_request (vehicles : List Vehicle)
    (request : Request) : List Vehicle :=
  let available := get_available_vehicles vehicles
  if request.eco_friendly then
    available.filter (fun v => v.vehicle_type.isEletric)
  else available

/-- Everything the candidate loop of `assign_request_to_vehicle` computes
for one vehicle. -/
structure CandidateEval where
  total_time_cost : WithTop ℚ
  total_distance : WithTop ℚ
  time1 : WithTop ℚ
  time2 : WithTop ℚ
  path1 : List ℕ
  path2 : List ℕ
  refuel_needed : Bool
  refuel_station : Option Node
  refuel_path : Option (List ℕ)
  refuel_time : ℚ
  station_type : Option String

/-- The body of the candidate loop of `assign_request_to_vehicle`: two
search legs, the refuel decision on their summed distance and, when a
compatible station exists, the refuel-augmented first leg
(`station_time + refuel_time + time1_new`) and recomputed real distance. -/
def evalCandidate (cfg : SimConfig) (request : Request) (vehicle : Vehicle) :
    CandidateEval :=
  let r1 := cfg.searchFn vehicle.current_position request.start_point vehicle
  let r2 := cfg.searchFn request.start_point request.end_point vehicle
  let dist1 := r1.1
  let time1 := r1.2.1
  let path1 := r1.2.2
  let dist2 := r2.1
  let time2 := r2.2.1
  let path2 := r2.2.2
  let total_distance := dist1 + dist2
  let refuel_needed := needs_refuel vehicle total_distance
  if refuel_needed then
    let station_type := get_station_type_for_vehicle vehicle
    match find_nearest_station cfg.graph vehicle.current_position
        station_type with
    | some refuel_station =>
      let rs := cfg.searchFn vehicle.current_position refuel_station.position
        vehicle
      let rn := cfg.searchFn refuel_station.position request.start_point
        vehicle
      let refuel_time := get_refuel_time vehicle (some station_type)
      let time1' := rs.2.1 + (refuel_time : WithTop ℚ) + rn.2.1
      { total_time_cost := time1' + time2,
        total_distance := rs.1 + rn.1 + dist2,
        time1 := time1', time2 := time2,
        path1 := rn.2.2, path2 := path2,
        refuel_needed := true,
        refuel_station := some refuel_station,
        refuel_path := some rs.2.2,
        refuel_time := refuel_time,
        station_type := some station_type }
    | none =>
      { total_time_cost := time1 + time2,
        total_distance := total_distance,
        time1 := time1, time2 := time2, path1 := path1, path2 := path2,
        refuel_needed := true, refuel_station := none, refuel_path := none,
        refuel_time := 0, station_type := some station_type }
  else
    { total_time_cost := time1 + time2,
      total_distance := total_distance,
      time1 := time1, time2 := time2, path1 := path1, path2 := path2,
      refuel_needed := false, refuel_station := none, refuel_path := none,
      refuel_time := 0, station_type := none }

/-- The projected total time (`total_time_cost = time1 + time2`) the loop
compares across candidates — the quantity the best vehicle minimises. -/
def projectedTime (cfg : SimConfig) (request : Request) (vehicle : Vehicle) :
    WithTop ℚ :=
  (evalCandidate cfg request vehicle).total_time_cost

/-- One step of the best-candidate fold: skip vehicles with insufficient
capacity, otherwise keep the strictly cheaper (by total time) candidate;
`best_cost` starts at `float('inf')` (`⊤`). -/
def assignStep (cfg : SimConfig) (request : Request)
    (best : Option Vehicle × WithTop ℚ) (vehicle : Vehicle) :
    Option Vehicle × WithTop ℚ :=
  if vehicle.capacity < request.passengers then best
  else if projectedTime cfg request vehicle < best.2 then
    (some vehicle, projectedTime cfg request vehicle)
  else best

/-- `Simulation.assign_request_to_vehicle`, selection part: returns the
chosen vehicle (`best_vehicle`), or `none` when no candidate ever beat
`float('inf')`.  The early `return None` of the source fires only for an
eco-friendly request with no available vehicle; for a non-eco request the
loop over the empty list falls through to `best_vehicle = None` anyway. -/
def assign_request_to_vehicle (cfg : SimConfig) (request : Request)
    (vehicles : List Vehicle) : Option Vehicle :=
  let available := get_available_vehicles_for_request vehicles request
  if available.isEmpty ∧ request.eco_friendly then none
  else (available.foldl (assignStep cfg request) (none, ⊤)).1

/-- The effect of an assignment round on the request: `Vehicle.assign`
(called only when a best vehicle was found) sets
`request.status = 'assigned'`; otherwise the request keeps its status. -/
def processAssignment (cfg : SimConfig) (request : Request)
    (vehicles : List Vehicle) : Option Vehicle × Request :=
  match assign_request_to_vehicle cfg request vehicles with
  | some v => (some v, { request with status := RequestStatus.assigned })
  | none => (none, request)

/-! ## Structural predicates used by the theorems -/

/-- Well-formedness of a graph as maintained by `add_node`/`add_edge`:
one adjacency list per node, the node stored at index `i` has id `i`
(ids are dense and sequential), and every edge target is a valid id. -/
def Graph.WellFormed (g : Graph) : Prop :=
  g.edges.length = g.nodes.length ∧
  (∀ i, ∀ h : i < g.nodes.length, (g.nodes.get ⟨i, h⟩).id = i) ∧
  (∀ l ∈ g.edges, ∀ e ∈ l, e.target < g.nodes.length)

instance (g : Graph) : Decidable g.WellFormed := by
  unfold Graph.WellFormed
  infer_instance

/-- `openAdj g u v`: some stored edge from `u` to `v` is open — exactly
the steps a search algorithm is allowed to take. -/
def openAdj (g : Graph) (u v : ℕ) : Prop :=
  ∃ e ∈ g.edgesFrom u, e.isOpen = true ∧ e.target = v

instance (g : Graph) (u v : ℕ) : Decidable (openAdj g u v) :=
  inferInstanceAs
    (Decidable (∃ e ∈ g.edgesFrom u, e.isOpen = true ∧ e.target = v))

/-- Reachability along open edges. -/
def Reaches (g : Graph) : ℕ → ℕ → Prop :=
  Relation.ReflTransGen (openAdj g)

/-- A path is traversable: every consecutive pair is joined by an open
stored edge. -/
def PathOpen (g : Graph) (p : List ℕ) : Prop :=
  List.Chain' (openAdj g) p


/-- Mirror invariant, weight = `distance`: every stored edge `u → v` has a
stored mirror edge `v → u` with the same `distance`. -/
def MirrorDist (g : Graph) : Prop :=
  ∀ u, ∀ _ : u < g.edges.length, ∀ e ∈ g.edgesFrom u,
    ∃ e' ∈ g.edgesFrom e.target, e'.target = u ∧ e'.distance = e.distance

instance (g : Graph) : Decidable (MirrorDist g) := by
  unfold MirrorDist
  infer_instance

/-- Mirror invariant exactly as the specification words it: every stored
edge has a stored mirror edge with equal `distance` **and** equal
`time`. -/
def MirrorDistTime (g : Graph) : Prop :=
  ∀ u, ∀ _ : u < g.edges.length, ∀ e ∈ g.edgesFrom u,
    ∃ e' ∈ g.edgesFrom e.target, e'.target = u ∧ e'.distance = e.distance ∧
      e'.time = e.time

instance (g : Graph) : Decidable (MirrorDistTime g) := by
  unfold MirrorDistTime
  infer_instance

/-- Strengthened mirror invariant: the mirror also agrees on the
preserved `base_time` (the bookkeeping field `apply_events_to_edges`
captures).  It is the inductive form of [MirrorDistTime]: freshly added
edge pairs carry `base_time = none` on both sides, and the invariant is
what survives event application when the endpoint multipliers agree. -/
def MirrorFull (g : Graph) : Prop :=
  ∀ u, ∀ _ : u < g.edges.length, ∀ e ∈ g.edgesFrom u,
    ∃ e' ∈ g.edgesFrom e.target, e'.target = u ∧ e'.distance = e.distance ∧
      e'.time = e.time ∧ e'.base_time = e.base_time

instance (g : Graph) : Decidable (MirrorFull g) := by
  unfold MirrorFull
  infer_instance

/-! ## Concrete fixtures for counterexamples and witnesses -/

/-- A generic node for test graphs. -/
def mkNode (i : ℕ) (x y : ℚ) : Node :=
  ⟨i, ⟨x, y⟩, "generic"⟩

/-- The scenario graph of claim C8: nodes `{0,1,2}` on a line, stored
edges `0↔1` and `1↔2` with `distance = 1000` m and `time = 2` min, no
direct `0↔2` edge. -/
def scenarioGraph : Graph :=
  ⟨[mkNode 0 0 0, mkNode 1 1 0, mkNode 2 2 0],
    [[Edge.mk4 1 1000 2 true],
      [Edge.mk4 0 1000 2 true, Edge.mk4 2 1000 2 true],
      [Edge.mk4 1 1000 2 true]], false⟩

/-- A two-node undirected graph with one mirrored edge pair
(`distance = 100`, `time = 5`), used to refute the time half of the
mirror invariant under `apply_events_to_edges`. -/
def mirrorGraph : Graph :=
  ⟨[mkNode 0 0 0, mkNode 1 1 0],
    [[Edge.mk4 1 100 5 true], [Edge.mk4 0 100 5 true]], false⟩

/-- An event manager with a rain zone covering only node `0`, all day. -/
def rainAtZero : EventManager :=
  EventManager.init.set_weather_zone [0] WeatherCondition.rain 0 1440

/-- Two isolated nodes (no edges at all): the goal snapped from the
second position is unreachable from the first. -/
def isolatedGraph : Graph :=
  ⟨[mkNode 0 0 0, mkNode 1 10 0], [[], []], false⟩

/-- A search function in the shape `assign_request_to_vehicle` consumes,
backed by `uniform_cost_search` on `isolatedGraph` (the `getD` only
papers over the `none` that cannot occur on this nonempty graph). -/
def isolatedSearch : Position → Position → Vehicle → SearchResult :=
  fun s t _ => (uniform_cost_search s t isolatedGraph none 10).getD (⊤, ⊤, [])

/-- An IDLE combustion vehicle sitting at the origin of
`isolatedGraph`. -/
def strandedVehicle : Vehicle :=
  ⟨0, .combustion ⟨40, 10, 40, 50⟩, 4, .IDLE, ⟨0, 0⟩⟩

/-- A non-eco request from the unreachable node back to the origin. -/
def strandedRequest : Request :=
  ⟨⟨10, 0⟩, ⟨0, 0⟩, 480, 1, false, .pending⟩

/-- The simulation configuration for the unassignable scenario. -/
def strandedConfig : SimConfig :=
  ⟨isolatedGraph, isolatedSearch⟩

/-- A constant search function: both legs take 5 minutes over 5 metres. -/
def constSearch : Position → Position → Vehicle → SearchResult :=
  fun _ _ _ => ((5 : ℚ), (5 : ℚ), [])

/-- A simulation configuration whose searches always succeed. -/
def constConfig : SimConfig :=
  ⟨scenarioGraph, constSearch⟩

/-- An IDLE electric vehicle (battery 2 of 50 kWh, 20 kWh/100km). -/
def idleEletric : Vehicle :=
  ⟨1, .eletric ⟨50, 20, 2, 50⟩, 4, .IDLE, ⟨0, 0⟩⟩

/-- A second IDLE combustion vehicle, slower to reach the pickup. -/
def idleCombustion : Vehicle :=
  ⟨2, .combustion ⟨40, 10, 40, 50⟩, 4, .IDLE, ⟨5, 0⟩⟩

/-- An eco-friendly request. -/
def ecoRequest : Request :=
  ⟨⟨1, 0⟩, ⟨2, 0⟩, 480, 1, true, .pending⟩

/-- `scenarioGraph` after `add_edge 0 2` with `distance = 10` and
`travel_time = 60` (scaled to `150` m and `15` min by `SCALE_FACTOR`). -/
def scenarioGraphPlus : Graph :=
  Graph.mk scenarioGraph.nodes
    [[Edge.mk4 1 1000 2 true, Edge.mk4 2 150 15 true],
      [Edge.mk4 0 1000 2 true, Edge.mk4 2 1000 2 true],
      [Edge.mk4 1 1000 2 true, Edge.mk4 0 150 15 true]] false

/-- `scenarioGraphPlus` after `close_road 0 1` (the `Graph` part): the
line edge `0↔1` is closed in both directions, the added edge `0↔2`
stays open. -/
def closedScenario : Graph :=
  (EventManager.init.close_road scenarioGraphPlus 0 1).1

/-- Heap-entry invariant of `uniform_cost_search`: the carried path is a
chain of open stored edges and ends at the entry's node. -/
def UcsGood (g : Graph) (en : UcsEntry) : Prop :=
  PathOpen g en.path ∧ en.path.getLast? = some en.node.id

/-- The keys of a `came_from` association list. -/
def cfKeys (cf : List (ℕ × Node)) : List ℕ :=
  cf.map Prod.fst

/-- Invariant of the `came_from` dicts of `a_star` and `greedy_bfs`:
every binding `n ↦ p` records an open stored edge `p.id → n`, and every
recorded predecessor is the start node or itself has a binding (so a
terminating reconstruction walk can only stop at the start node). -/
def CameFromInv (g : Graph) (startId : ℕ) (cf : List (ℕ × Node)) : Prop :=
  ∀ np ∈ cf, openAdj g np.2.id np.1 ∧
    (np.2.id = startId ∨ np.2.id ∈ cfKeys cf)

/-- A frontier node is the start node or has a `came_from` binding. -/
def NodeOk (startId : ℕ) (cf : List (ℕ × Node)) (i : ℕ) : Prop :=
  i = startId ∨ i ∈ cfKeys cf

/-- Total number of stored edges — a bound on any adjacency list. -/
def totalEdges (g : Graph) : ℕ :=
  (g.edges.map List.length).sum

/-- Number of node ids not yet visited (part of the search termination
measures). -/
def unvisCard (g : Graph) (visited : Finset ℕ) : ℕ :=
  ((Finset.range g.nodes.length).filter (fun i => i ∉ visited)).card

/-- Number of frontier entries whose node is already visited (stale
duplicates) — the inner termination measure of `greedy_bfs`. -/
def staleLen (visited : Finset ℕ) (l : List GreedyEntry) : ℕ :=
  (l.filter (fun en => decide (en.node.id ∈ visited))).length

/-- A common denominator for all edge costs of the graph under a vehicle
type: the product of the denominators. -/
def costDen (g : Graph) (vt : Option VehicleType) : ℕ :=
  (g.edges.flatten.map
    (fun e => (calculate_edge_cost e.distance e.time vt).den)).prod

/-- `q` is a natural multiple of `1 / D`. -/
def QD (D : ℕ) (q : ℚ) : Prop :=
  ∃ n : ℕ, q * (D : ℚ) = (n : ℚ)

/-- All finite `g_score` values are natural multiples of `1 / D`. -/
def GsOk (D : ℕ) (gs : ℕ → WithTop ℚ) : Prop :=
  ∀ i, gs i = ⊤ ∨ ∃ v : ℚ, gs i = (v : WithTop ℚ) ∧ QD D v

/-- Count of `g_score` entries still infinite — the outer `a_star`
termination measure. -/
def topsCard (N : ℕ) (gs : ℕ → WithTop ℚ) : ℕ :=
  ((Finset.range N).filter (fun i => gs i = ⊤)).card

/-- Scaled numerator of one `g_score` value (`0` for `⊤`). -/
def numAt (D : ℕ) (q : WithTop ℚ) : ℕ :=
  ((q.untop' 0) * (D : ℚ)).num.toNat

/-- Sum of the scaled numerators over all node ids — the middle `a_star`
termination measure. -/
def numSum (N D : ℕ) (gs : ℕ → WithTop ℚ) : ℕ :=
  (Finset.range N).sum (fun i => numAt D (gs i))

/-- Strict lexicographic order on pairs of naturals, used to combine the
`a_star` termination measures. -/
def LexLtN (a b : ℕ × ℕ) : Prop :=
  a.1 < b.1 ∨ (a.1 = b.1 ∧ a.2 < b.2)

/-!
# Theorems

One main theorem per claim of the specification, with shared helper
lemmas.
-/

/-! ## C10 — energy levels never go negative -/

/-- C10: for every vehicle type (Eletric, Combustion, Hybrid) whose
current battery/fuel levels are non-negative, after `consume(d)` for any
non-negative distance `d` the current levels are still `≥ 0`: depletion is
clamped at `0.0`. -/
theorem energy_levels_never_negative
    (e : Eletric) (c : Combustion) (h : Hybrid) (d : ℚ)
    (hd : 0 ≤ d) (he : 0 ≤ e.current_battery) (hc : 0 ≤ c.current_fuel)
    (hhb : 0 ≤ h.current_battery) (hhf : 0 ≤ h.current_fuel) :
    0 ≤ (e.consume d).current_battery ∧
    0 ≤ (c.consume d).current_fuel ∧
    0 ≤ (h.consume d).current_battery ∧
    0 ≤ (h.consume d).current_fuel := by
  refine ⟨le_max_left 0 _, le_max_left 0 _, ?_, ?_⟩
  · by_cases hcond : h.battery_consumption / 100 * (d / 1000) ≤ h.current_battery
    · simp only [Hybrid.consume, if_pos hcond]
      exact le_max_left 0 _
    · simp only [Hybrid.consume, if_neg hcond]
      exact le_refl 0
  · by_cases hcond : h.battery_consumption / 100 * (d / 1000) ≤ h.current_battery
    · simp only [Hybrid.consume, if_pos hcond]
      exact hhf
    · simp only [Hybrid.consume, if_neg hcond]
      exact le_max_left 0 _

/-- Witness for C10 at a concrete electric (battery 2), combustion
(fuel 40) and hybrid (battery 5, fuel 30) vehicle over 1000 m. -/
theorem energy_levels_never_negative_witness :
    0 ≤ ((Eletric.mk 50 20 2 50).consume 1000).current_battery ∧
    0 ≤ ((Combustion.mk 40 10 40 50).consume 1000).current_fuel ∧
    0 ≤ ((Hybrid.mk 50 20 40 10 5 30 50).consume 1000).current_battery ∧
    0 ≤ ((Hybrid.mk 50 20 40 10 5 30 50).consume 1000).current_fuel :=
  energy_levels_never_negative ⟨50, 20, 2, 50⟩ ⟨40, 10, 40, 50⟩
    ⟨50, 20, 40, 10, 5, 30, 50⟩ 1000 (by norm_num) (by norm_num)
    (by norm_num) (by norm_num) (by norm_num)

/-! ## C2 — cost-function split vs. `Hybrid.consume` -/

/-- C2 is refuted as stated: for the hybrid with battery 0 (of 50 kWh,
20 kWh/100km) and 1 L of fuel (10 L/100km), a 50 km trip is charged 5 L
of fuel by the operational-cost split, but `consume` (clamped at zero)
only depletes the 1 L that is there. -/
theorem hybrid_cost_split_counterexample :
    hybridCostSplit ⟨50, 20, 40, 10, 0, 1, 50⟩ (50000 / 1000) ≠
      ((⟨50, 20, 40, 10, 0, 1, 50⟩ : Hybrid).current_battery -
          ((⟨50, 20, 40, 10, 0, 1, 50⟩ : Hybrid).consume 50000).current_battery,
        (⟨50, 20, 40, 10, 0, 1, 50⟩ : Hybrid).current_fuel -
          ((⟨50, 20, 40, 10, 0, 1, 50⟩ : Hybrid).consume 50000).current_fuel) := by
  decide

/-- C2 amended: for every hybrid with a positive battery-consumption
rate, non-negative current levels, and **enough energy for the trip** (the
vehicle's own `has_enough_energy` check, so no clamping occurs), the
battery/fuel split of `_calculate_operational_cost` charges exactly what
`Hybrid.consume` depletes. -/
theorem hybrid_cost_split_consistent (v : Hybrid) (d : ℚ)
    (hbc : 0 < v.battery_consumption)
    (hb : 0 ≤ v.current_battery) (hf : 0 ≤ v.current_fuel)
    (he : v.has_enough_energy d = true) :
    hybridCostSplit v (d / 1000) =
      (v.current_battery - (v.consume d).current_battery,
        v.current_fuel - (v.consume d).current_fuel) := by
  have hc : 0 < v.battery_consumption / 100 := by positivity
  by_cases hbr : v.battery_consumption / 100 * (d / 1000) ≤ v.current_battery
  · -- battery-only branch on both sides
    have hsplit : d / 1000 ≤ v.current_battery / (v.battery_consumption / 100) :=
      (le_div_iff₀ hc).mpr (by rw [mul_comm]; exact hbr)
    have h0 : (0 : ℚ) ≤
        v.current_battery - v.battery_consumption / 100 * (d / 1000) := by
      linarith
    simp only [hybridCostSplit, Hybrid.consume, if_pos hc, if_pos hsplit,
      if_pos hbr, max_eq_right h0, Prod.mk.injEq]
    constructor
    · ring
    · ring
  · -- battery is exhausted, remainder on fuel
    have hsplit : ¬ d / 1000 ≤ v.current_battery / (v.battery_consumption / 100) := by
      intro hle
      exact hbr (by rw [mul_comm]; exact (le_div_iff₀ hc).mp hle)
    have hbkm : v.current_battery / (v.battery_consumption / 100) < d / 1000 :=
      lt_of_not_le hsplit
    have hfuel : v.fuel_consumption / 100 *
        (d / 1000 - v.current_battery / (v.battery_consumption / 100)) ≤
        v.current_fuel := by
      unfold Hybrid.has_enough_energy at he
      simp only [if_pos hbc, if_pos hc, decide_eq_true_eq] at he
      by_cases hfc : 0 < v.fuel_consumption
      · have hfc2 : 0 < v.fuel_consumption / 100 := by positivity
        rw [if_pos hfc, if_pos hfc2] at he
        have h2 : d / 1000 - v.current_battery / (v.battery_consumption / 100) ≤
            v.current_fuel / (v.fuel_consumption / 100) := by linarith
        calc v.fuel_consumption / 100 *
            (d / 1000 - v.current_battery / (v.battery_consumption / 100)) ≤
            v.fuel_consumption / 100 *
              (v.current_fuel / (v.fuel_consumption / 100)) :=
              mul_le_mul_of_nonneg_left h2 (le_of_lt hfc2)
          _ = v.current_fuel := by
              field_simp
              ring
      · rw [if_neg hfc] at he
        have hz : ¬ (0 : ℚ) < 0 := lt_irrefl 0
        rw [if_neg hz, add_zero] at he
        exact absurd he hsplit
    have h0 : (0 : ℚ) ≤ v.current_fuel - v.fuel_consumption / 100 *
        (d / 1000 - v.current_battery / (v.battery_consumption / 100)) := by
      linarith
    simp only [hybridCostSplit, Hybrid.consume, if_pos hc, if_neg hsplit,
      if_neg hbr, max_eq_right h0, Prod.mk.injEq]
    constructor
    · rw [sub_zero, mul_comm, div_mul_cancel₀ _ (ne_of_gt hc)]
    · ring

/-- Witness for the amended C2: hybrid with 5 kWh battery and 30 L fuel
over a 100 km trip (25 km on battery, 75 km on fuel). -/
theorem hybrid_cost_split_consistent_witness :
    hybridCostSplit ⟨50, 20, 40, 10, 5, 30, 50⟩ (100000 / 1000) =
      ((⟨50, 20, 40, 10, 5, 30, 50⟩ : Hybrid).current_battery -
          ((⟨50, 20, 40, 10, 5, 30, 50⟩ : Hybrid).consume 100000).current_battery,
        (⟨50, 20, 40, 10, 5, 30, 50⟩ : Hybrid).current_fuel -
          ((⟨50, 20, 40, 10, 5, 30, 50⟩ : Hybrid).consume 100000).current_fuel) :=
  hybrid_cost_split_consistent ⟨50, 20, 40, 10, 5, 30, 50⟩ 100000
    (by decide) (by decide) (by decide) (by decide)

/-! ## C3 — idempotence of `apply_events_to_edges` -/

/-- Re-applying the per-edge update overwrites it: the `base_time`
captured by the first application is reused, never compounded. -/
theorem applyEdge_applyEdge (m1 m2 : ℚ) (w1 w2 : WeatherCondition)
    (t1 t2 : TrafficLevel) (e : Edge) :
    applyEdge m2 w2 t2 (applyEdge m1 w1 t1 e) = applyEdge m2 w2 t2 e := by
  cases e with
  | mk tgt dist tm op bt w tr => cases bt <;> simp [applyEdge]

/-- The adjacency lists of the updated graph, pointwise. -/
theorem apply_events_edgesFrom (em : EventManager) (g : Graph)
    (t : Option ℤ) (u : ℕ) :
    (em.apply_events_to_edges g t).edgesFrom u =
      (g.edgesFrom u).map
        (applyEdge (em.get_combined_multiplier u t)
          (em.get_weather_at_node u t) (em.get_traffic_at_node u t)) := by
  unfold EventManager.apply_events_to_edges Graph.edgesFrom
  simp only [List.getD_eq_getElem?_getD, List.getElem?_map, List.getElem?_enum]
  cases h : g.edges[u]? <;> simp [h]

/-- The updated graph keeps the node list, orientation flag and the
number of adjacency lists. -/
theorem apply_events_shape (em : EventManager) (g : Graph) (t : Option ℤ) :
    (em.apply_events_to_edges g t).nodes = g.nodes ∧
    (em.apply_events_to_edges g t).directed = g.directed ∧
    (em.apply_events_to_edges g t).edges.length = g.edges.length := by
  unfold EventManager.apply_events_to_edges
  simp

/-- C3: `apply_events_to_edges` is idempotent — applying twice at the
same timestamp leaves the graph (in particular every edge `time`) exactly
as one application does; more generally a later application at any `t2`
overwrites an earlier one at `t1`; and after an application at `t`, every
edge's `time` equals its preserved `base_time` (the `time` it carried
before `base_time` was first captured) multiplied by the current combined
multiplier of its source node — never a compounding of past
multipliers. -/
theorem apply_events_to_edges_idempotent (em : EventManager) (g : Graph)
    (t t1 t2 : Option ℤ) :
    em.apply_events_to_edges (em.apply_events_to_edges g t) t =
      em.apply_events_to_edges g t ∧
    em.apply_events_to_edges (em.apply_events_to_edges g t1) t2 =
      em.apply_events_to_edges g t2 ∧
    (∀ u i : ℕ, ∀ e0 e : Edge,
      (g.edgesFrom u)[i]? = some e0 →
      ((em.apply_events_to_edges g t).edgesFrom u)[i]? = some e →
      e.base_time = some (e0.base_time.getD e0.time) ∧
      e.time = e0.base_time.getD e0.time *
        em.get_combined_multiplier u t) := by
  have overwrite : ∀ s1 s2 : Option ℤ,
      em.apply_events_to_edges (em.apply_events_to_edges g s1) s2 =
        em.apply_events_to_edges g s2 := by
    intro s1 s2
    unfold EventManager.apply_events_to_edges
    congr 1
    apply List.ext_getElem?
    intro n
    simp only [List.getElem?_map, List.getElem?_enum]
    cases h : g.edges[n]? with
    | none => rfl
    | some l =>
      simp only [Option.map_some', List.map_map]
      -- the composed per-edge update is definitionally the second update
      -- (`applyEdge_applyEdge`), so congruence closes the goal
      congr 1
  refine ⟨overwrite t t, overwrite t1 t2, ?_⟩
  intro u i e0 e h0 h1
  rw [apply_events_edgesFrom, List.getElem?_map, h0] at h1
  simp only [Option.map_some'] at h1
  cases Option.some.inj h1
  exact ⟨rfl, rfl⟩

/-- Witness for C3 at the two-node mirror graph with rain at node `0`,
time 100: the updated edge `0 → 1` stores `base_time = 5` and
`time = 5 × 1.5`. -/
theorem apply_events_to_edges_idempotent_witness :
    (applyEdge (3 / 2) WeatherCondition.rain TrafficLevel.clear
        (Edge.mk4 1 100 5 true)).base_time =
      some ((Edge.mk4 1 100 5 true).base_time.getD
        (Edge.mk4 1 100 5 true).time) ∧
    (applyEdge (3 / 2) WeatherCondition.rain TrafficLevel.clear
        (Edge.mk4 1 100 5 true)).time =
      (Edge.mk4 1 100 5 true).base_time.getD (Edge.mk4 1 100 5 true).time *
        rainAtZero.get_combined_multiplier 0 (some 100) :=
  (apply_events_to_edges_idempotent rainAtZero mirrorGraph (some 100) none
      (some 0)).2.2 0 0 (Edge.mk4 1 100 5 true)
    (applyEdge (3 / 2) WeatherCondition.rain TrafficLevel.clear
      (Edge.mk4 1 100 5 true)) (by decide) (by decide)

/-! ## Fuel monotonicity of the search loops -/

/-- A `ucsLoop` run that finishes within some fuel budget gives the same
answer with one unit more. -/
theorem ucsLoop_succ (g : Graph) (vt : Option VehicleType) (goalId : ℕ) :
    ∀ fuel open_set counter visited r,
      ucsLoop g vt goalId fuel open_set counter visited = some r →
      ucsLoop g vt goalId (fuel + 1) open_set counter visited = some r := by
  intro fuel
  induction fuel with
  | zero =>
    intro o c v r h
    simp [ucsLoop] at h
  | succ n ih =>
    intro o c v r h
    rw [ucsLoop] at h ⊢
    cases hp : popMinBy ucsLt o with
    | none => rw [hp] at h; exact h
    | some pr =>
      obtain ⟨entry, rest⟩ := pr
      rw [hp] at h
      by_cases hgoal : entry.node.id = goalId
      · simp only [if_pos hgoal] at h ⊢
        exact h
      · simp only [if_neg hgoal] at h ⊢
        by_cases hv : entry.node.id ∈ v
        · simp only [if_pos hv] at h ⊢
          exact ih _ _ _ _ h
        · simp only [if_neg hv] at h ⊢
          cases he : g.edges[entry.node.id]? with
          | none => rw [he] at h; exact h
          | some edges =>
            rw [he] at h
            dsimp only at h ⊢
            cases hs : ucsScan g vt (insert entry.node.id v) entry.cost
                entry.path edges c rest with
            | none => rw [hs] at h; exact h
            | some r2 => rw [hs] at h; exact ih _ _ _ _ h

/-- Fuel monotonicity for `ucsLoop`. -/
theorem ucsLoop_mono (g : Graph) (vt : Option VehicleType) (goalId : ℕ)
    (fuel fuel' : ℕ) (hle : fuel ≤ fuel') (o : List UcsEntry) (c : ℕ)
    (v : Finset ℕ) (r : SearchResult)
    (h : ucsLoop g vt goalId fuel o c v = some r) :
    ucsLoop g vt goalId fuel' o c v = some r := by
  induction fuel' with
  | zero =>
    have : fuel = 0 := Nat.le_zero.mp hle
    subst this
    exact h
  | succ n ih =>
    rcases Nat.lt_or_ge fuel (n + 1) with hlt | hge
    · exact ucsLoop_succ g vt goalId n o c v r (ih (Nat.lt_succ_iff.mp hlt))
    · have : fuel = n + 1 := le_antisymm hle hge
      subst this
      exact h

/-- Fuel monotonicity (one step) for `greedyLoop`. -/
theorem greedyLoop_succ (g : Graph) (criterion : String)
    (vt : Option VehicleType) (em : Option EventManager) (t : Option ℤ)
    (goal_pos : Position) (goalId startId : ℕ) :
    ∀ fuel open_set counter visited cf r,
      greedyLoop g criterion vt em t goal_pos goalId startId fuel open_set
        counter visited cf = some r →
      greedyLoop g criterion vt em t goal_pos goalId startId (fuel + 1)
        open_set counter visited cf = some r := by
  intro fuel
  induction fuel with
  | zero =>
    intro o c v cf r h
    simp [greedyLoop] at h
  | succ n ih =>
    intro o c v cf r h
    rw [greedyLoop] at h ⊢
    cases hp : popMinBy greedyLt o with
    | none => rw [hp] at h; exact h
    | some pr =>
      obtain ⟨entry, rest⟩ := pr
      rw [hp] at h
      by_cases hgoal : entry.node.id = goalId
      · simp only [if_pos hgoal] at h ⊢
        exact h
      · simp only [if_neg hgoal] at h ⊢
        cases he : g.edges[entry.node.id]? with
        | none => rw [he] at h; exact h
        | some edges =>
          rw [he] at h
          dsimp only at h ⊢
          cases hs : greedyScan g criterion vt em t goal_pos entry.node
              (insert entry.node.id v) edges c rest cf with
          | none => rw [hs] at h; exact h
          | some r2 => rw [hs] at h; exact ih _ _ _ _ _ h

/-- Fuel monotonicity for `greedyLoop`. -/
theorem greedyLoop_mono (g : Graph) (criterion : String)
    (vt : Option VehicleType) (em : Option EventManager) (t : Option ℤ)
    (goal_pos : Position) (goalId startId : ℕ) (fuel fuel' : ℕ)
    (hle : fuel ≤ fuel') (o : List GreedyEntry) (c : ℕ) (v : Finset ℕ)
    (cf : List (ℕ × Node)) (r : SearchResult)
    (h : greedyLoop g criterion vt em t goal_pos goalId startId fuel o c v
      cf = some r) :
    greedyLoop g criterion vt em t goal_pos goalId startId fuel' o c v cf =
      some r := by
  induction fuel' with
  | zero =>
    have : fuel = 0 := Nat.le_zero.mp hle
    subst this
    exact h
  | succ n ih =>
    rcases Nat.lt_or_ge fuel (n + 1) with hlt | hge
    · exact greedyLoop_succ g criterion vt em t goal_pos goalId startId n
        o c v cf r (ih (Nat.lt_succ_iff.mp hlt))
    · have : fuel = n + 1 := le_antisymm hle hge
      subst this
      exact h

/-- Fuel monotonicity (one step) for `astarLoop`. -/
theorem astarLoop_succ (g : Graph) (criterion : String)
    (vt : Option VehicleType) (em : Option EventManager) (t : Option ℤ)
    (goal_pos : Position) (goalId startId : ℕ) :
    ∀ fuel st r,
      astarLoop g criterion vt em t goal_pos goalId startId fuel st =
        some r →
      astarLoop g criterion vt em t goal_pos goalId startId (fuel + 1) st =
        some r := by
  intro fuel
  induction fuel with
  | zero =>
    intro st r h
    simp [astarLoop] at h
  | succ n ih =>
    intro st r h
    rw [astarLoop] at h ⊢
    cases hp : popMinBy astarLt st.open_set with
    | none => rw [hp] at h; exact h
    | some pr =>
      obtain ⟨entry, rest⟩ := pr
      rw [hp] at h
      by_cases hgoal : entry.node.id = goalId
      · simp only [if_pos hgoal] at h ⊢
        exact h
      · simp only [if_neg hgoal] at h ⊢
        cases he : g.edges[entry.node.id]? with
        | none => rw [he] at h; exact h
        | some edges =>
          rw [he] at h
          dsimp only at h ⊢
          cases hs : astarScan g criterion vt em t goal_pos entry.node edges
              { st with open_set := rest } with
          | none => rw [hs] at h; exact h
          | some st2 => rw [hs] at h; exact ih _ _ h

/-- Fuel monotonicity for `astarLoop`. -/
theorem astarLoop_mono (g : Graph) (criterion : String)
    (vt : Option VehicleType) (em : Option EventManager) (t : Option ℤ)
    (goal_pos : Position) (goalId startId : ℕ) (fuel fuel' : ℕ)
    (hle : fuel ≤ fuel') (st : AStarState) (r : SearchResult)
    (h : astarLoop g criterion vt em t goal_pos goalId startId fuel st =
      some r) :
    astarLoop g criterion vt em t goal_pos goalId startId fuel' st =
      some r := by
  induction fuel' with
  | zero =>
    have : fuel = 0 := Nat.le_zero.mp hle
    subst this
    exact h
  | succ n ih =>
    rcases Nat.lt_or_ge fuel (n + 1) with hlt | hge
    · exact astarLoop_succ g criterion vt em t goal_pos goalId startId n
        st r (ih (Nat.lt_succ_iff.mp hlt))
    · have : fuel = n + 1 := le_antisymm hle hge
      subst this
      exact h

/-! ## C8 — concrete uniform-cost scenario -/

/-- C8: on the graph with nodes `{0,1,2}`, stored edges `0↔1` and `1↔2`
(`distance = 1000` m, `time = 2` min) and no direct `0↔2` edge,
`uniform_cost_search` from the position of node `0` to the position of
node `2` returns exactly `(2000.0, 4.0, [0, 1, 2])`.  Three loop
iterations suffice, and any larger fuel gives the same answer. -/
theorem uniform_cost_search_scenario (fuel : ℕ) (hf : 3 ≤ fuel) :
    uniform_cost_search ⟨0, 0⟩ ⟨2, 0⟩ scenarioGraph none fuel =
      some (((2000 : ℚ) : WithTop ℚ), ((4 : ℚ) : WithTop ℚ), [0, 1, 2]) := by
  have hstart : scenarioGraph.find_closest_node ⟨0, 0⟩ =
      some (mkNode 0 0 0) := by decide
  have hgoal : scenarioGraph.find_closest_node ⟨2, 0⟩ =
      some (mkNode 2 2 0) := by decide
  unfold uniform_cost_search
  rw [hstart, hgoal]
  have base : ucsLoop scenarioGraph none (mkNode 2 2 0).id 3
      [⟨0, 0, mkNode 0 0 0, [(mkNode 0 0 0).id]⟩] 1 ∅ =
      some (((2000 : ℚ) : WithTop ℚ), ((4 : ℚ) : WithTop ℚ), [0, 1, 2]) := by
    decide
  exact ucsLoop_mono scenarioGraph none (mkNode 2 2 0).id 3 fuel hf _ _ _ _
    base

/-- Witness for C8 at fuel 3. -/
theorem uniform_cost_search_scenario_witness :
    uniform_cost_search ⟨0, 0⟩ ⟨2, 0⟩ scenarioGraph none 3 =
      some (((2000 : ℚ) : WithTop ℚ), ((4 : ℚ) : WithTop ℚ), [0, 1, 2]) :=
  uniform_cost_search_scenario 3 (by decide)

/-! ## C9 — `add_edge` structural failure and atomicity -/

/-- `getD` after `set` at the same (in-bounds) index. -/
theorem getD_set_self {α : Type} (l : List α) (i : ℕ) (x d : α)
    (h : i < l.length) : (l.set i x).getD i d = x := by
  rw [List.getD_eq_getElem?_getD, List.getElem?_set_eq h, Option.getD_some]

/-- `getD` after `set` at a different index. -/
theorem getD_set_ne {α : Type} (l : List α) (i j : ℕ) (x d : α)
    (h : i ≠ j) : (l.set i x).getD j d = l.getD j d := by
  rw [List.getD_eq_getElem?_getD, List.getElem?_set_ne h,
    ← List.getD_eq_getElem?_getD]

/-- C9: `add_edge(u, v, ...)` fails (the `ValueError` of the source)
exactly when `u` or `v` is not an existing node — and then no graph is
produced at all, so there is no torn state; on success in undirected mode
both the forward edge and the mirror edge exist, with identical
`distance`, `time` and `open` flag, and every other adjacency list is
untouched. -/
theorem add_edge_structural (g : Graph) (id1 id2 : ℕ) (d? : Option ℚ)
    (sp : ℚ) (tt? : Option ℚ) (op : Bool) :
    ((∃ msg, g.add_edge id1 id2 d? sp tt? op = Except.error msg) ↔
      (g.get_node id1 = none ∨ g.get_node id2 = none)) ∧
    (∀ g', g.edges.length = g.nodes.length → g.directed = false →
      g.add_edge id1 id2 d? sp tt? op = Except.ok g' →
      ∃ fwd rev : Edge,
        fwd.target = id2 ∧ rev.target = id1 ∧
        rev.distance = fwd.distance ∧ rev.time = fwd.time ∧
        fwd.isOpen = op ∧ rev.isOpen = op ∧
        fwd ∈ g'.edgesFrom id1 ∧ rev ∈ g'.edgesFrom id2 ∧
        g'.nodes = g.nodes ∧
        (∀ u, u ≠ id1 → u ≠ id2 → g'.edgesFrom u = g.edgesFrom u)) := by
  constructor
  · constructor
    · rintro ⟨msg, hmsg⟩
      by_contra hno
      push_neg at hno
      obtain ⟨h1, h2⟩ := hno
      obtain ⟨n1, hn1⟩ := Option.ne_none_iff_exists'.mp h1
      obtain ⟨n2, hn2⟩ := Option.ne_none_iff_exists'.mp h2
      unfold Graph.add_edge at hmsg
      rw [hn1, hn2] at hmsg
      simp at hmsg
    · intro hor
      cases hn1 : g.get_node id1 with
      | none =>
        refine ⟨"Os nós devem existir antes de criar uma aresta", ?_⟩
        unfold Graph.add_edge
        rw [hn1]
      | some n1 =>
        cases hn2 : g.get_node id2 with
        | none =>
          refine ⟨"Os nós devem existir antes de criar uma aresta", ?_⟩
          unfold Graph.add_edge
          rw [hn1, hn2]
        | some n2 =>
          rw [hn1, hn2] at hor
          simp at hor
  · intro g' hlen hdir hok
    cases hn1 : g.get_node id1 with
    | none =>
      unfold Graph.add_edge at hok
      rw [hn1] at hok
      exact absurd hok (by simp)
    | some n1 =>
      cases hn2 : g.get_node id2 with
      | none =>
        unfold Graph.add_edge at hok
        rw [hn1, hn2] at hok
        exact absurd hok (by simp)
      | some n2 =>
        have hid1 : id1 < g.edges.length := by
          rw [hlen]
          unfold Graph.get_node at hn1
          exact (List.getElem?_eq_some_iff.mp hn1).choose
        have hid2 : id2 < g.edges.length := by
          rw [hlen]
          unfold Graph.get_node at hn2
          exact (List.getElem?_eq_some_iff.mp hn2).choose
        unfold Graph.add_edge at hok
        rw [hn1, hn2, hdir] at hok
        simp only [Bool.false_eq_true, if_false, Except.ok.injEq] at hok
        have hshape : ∃ sd st : ℚ, g' = Graph.mk g.nodes
            ((g.edges.set id1
                (g.edgesFrom id1 ++ [Edge.mk4 id2 sd st op])).set id2
              (((g.edges.set id1
                  (g.edgesFrom id1 ++ [Edge.mk4 id2 sd st op])).getD id2 [])
                ++ [Edge.mk4 id1 sd st op])) false := ⟨_, _, hok.symm⟩
        obtain ⟨sd, st, rfl⟩ := hshape
        refine ⟨Edge.mk4 id2 sd st op, Edge.mk4 id1 sd st op,
          rfl, rfl, rfl, rfl, rfl, rfl, ?_, ?_, rfl, ?_⟩
        · -- forward edge is in g'.edgesFrom id1
          unfold Graph.edgesFrom
          by_cases heq : id2 = id1
          · subst heq
            rw [getD_set_self _ _ _ _ (by simpa using hid1),
              getD_set_self _ _ _ _ hid1]
            exact List.mem_append_left _
              (List.mem_append_right _ (List.mem_singleton.mpr rfl))
          · rw [getD_set_ne _ _ _ _ _ heq, getD_set_self _ _ _ _ hid1]
            exact List.mem_append_right _ (List.mem_singleton.mpr rfl)
        · -- mirror edge is in g'.edgesFrom id2
          unfold Graph.edgesFrom
          rw [getD_set_self _ _ _ _ (by simpa using hid2)]
          exact List.mem_append_right _ (List.mem_singleton.mpr rfl)
        · intro u hu1 hu2
          unfold Graph.edgesFrom
          rw [getD_set_ne _ _ _ _ _ (fun h => hu2 h.symm),
            getD_set_ne _ _ _ _ _ (fun h => hu1 h.symm)]

/-- Witness for C9: adding an explicit edge `0 ↔ 2` (distance 10 m,
travel time 60 s) to the scenario graph creates the mirrored pair. -/
theorem add_edge_structural_witness :
    ∃ fwd rev : Edge,
      fwd.target = 2 ∧ rev.target = 0 ∧
      rev.distance = fwd.distance ∧ rev.time = fwd.time ∧
      fwd.isOpen = true ∧ rev.isOpen = true ∧
      fwd ∈ scenarioGraphPlus.edgesFrom 0 ∧
      rev ∈ scenarioGraphPlus.edgesFrom 2 ∧
      scenarioGraphPlus.nodes = scenarioGraph.nodes ∧
      (∀ u, u ≠ 0 → u ≠ 2 →
        scenarioGraphPlus.edgesFrom u = scenarioGraph.edgesFrom u) :=
  (add_edge_structural scenarioGraph 0 2 (some 10) 50 (some 60) true).2
    scenarioGraphPlus (by decide) (by decide) (by rfl)

/-! ## C1 — the mirror-edge invariant -/

/-- Transport of the distance-mirror invariant along a pointwise edge
rewrite that preserves `target` and `distance`. -/
theorem mirrorDist_map (g g2 : Graph) (F : ℕ → Edge → Edge)
    (hlen : g2.edges.length = g.edges.length)
    (hmap : ∀ w, g2.edgesFrom w = (g.edgesFrom w).map (F w))
    (hpres : ∀ w e, (F w e).target = e.target ∧
      (F w e).distance = e.distance)
    (hm : MirrorDist g) : MirrorDist g2 := by
  intro u hu e2 he2
  rw [hmap] at he2
  obtain ⟨e, he, rfl⟩ := List.mem_map.mp he2
  obtain ⟨e', he', ht', hd'⟩ := hm u (by rw [← hlen]; exact hu) e he
  refine ⟨F e.target e', ?_, ?_, ?_⟩
  · rw [(hpres u e).1, hmap]
    exact List.mem_map_of_mem _ he'
  · rw [(hpres e.target e').1, ht']
  · rw [(hpres e.target e').2, hd', (hpres u e).2]

/-- Transport of the full mirror invariant along a pointwise edge rewrite
that preserves `target`, `distance`, `time` and `base_time`. -/
theorem mirrorFull_map (g g2 : Graph) (F : ℕ → Edge → Edge)
    (hlen : g2.edges.length = g.edges.length)
    (hmap : ∀ w, g2.edgesFrom w = (g.edgesFrom w).map (F w))
    (hpres : ∀ w e, (F w e).target = e.target ∧
      (F w e).distance = e.distance ∧ (F w e).time = e.time ∧
      (F w e).base_time = e.base_time)
    (hm : MirrorFull g) : MirrorFull g2 := by
  intro u hu e2 he2
  rw [hmap] at he2
  obtain ⟨e, he, rfl⟩ := List.mem_map.mp he2
  obtain ⟨e', he', ht', hd', htm', hb'⟩ := hm u (by rw [← hlen]; exact hu) e he
  refine ⟨F e.target e', ?_, ?_, ?_, ?_, ?_⟩
  · rw [(hpres u e).1, hmap]
    exact List.mem_map_of_mem _ he'
  · rw [(hpres e.target e').1, ht']
  · rw [(hpres e.target e').2.1, hd', (hpres u e).2.1]
  · rw [(hpres e.target e').2.2.1, htm', (hpres u e).2.2.1]
  · rw [(hpres e.target e').2.2.2, hb', (hpres u e).2.2.2]

/-- A conditional close keeps the `target` field. -/
theorem closeFlip_target (c : Prop) [Decidable c] (e : Edge) :
    (if c then { e with isOpen := false } else e).target = e.target := by
  split <;> rfl

/-- A conditional close keeps the `distance` field. -/
theorem closeFlip_distance (c : Prop) [Decidable c] (e : Edge) :
    (if c then { e with isOpen := false } else e).distance = e.distance := by
  split <;> rfl

/-- A conditional close keeps the `time` field. -/
theorem closeFlip_time (c : Prop) [Decidable c] (e : Edge) :
    (if c then { e with isOpen := false } else e).time = e.time := by
  split <;> rfl

/-- A conditional close keeps the `base_time` field. -/
theorem closeFlip_base_time (c : Prop) [Decidable c] (e : Edge) :
    (if c then { e with isOpen := false } else e).base_time = e.base_time := by
  split <;> rfl

/-- `closeDirected` acts on the adjacency lists as a pointwise
conditional flip of the `open` flag. -/
theorem closeDirected_getD (l : List (List Edge)) (i j w : ℕ) :
    ((closeDirected l i j).1).getD w [] =
      (l.getD w []).map (fun e =>
        if w = i ∧ e.target = j then { e with isOpen := false } else e) := by
  unfold closeDirected
  by_cases hw : w = i
  · subst hw
    by_cases hlt : w < l.length
    · rw [getD_set_self _ _ _ _ hlt]
      apply List.map_eq_map_iff.mpr
      intro e _
      simp
    · have hle : l.length ≤ w := Nat.le_of_not_lt hlt
      rw [List.getD_eq_default _ _ (by simpa using hle),
        List.getD_eq_default _ _ hle]
      rfl
  · rw [getD_set_ne _ _ _ _ _ (fun h => hw h.symm)]
    rw [show (l.getD w []).map (fun e =>
        if w = i ∧ e.target = j then { e with isOpen := false } else e) =
        (l.getD w []).map id from
      List.map_eq_map_iff.mpr (by intro e _; simp [hw]), List.map_id]

/-- The graph returned by `close_road` (same in both the found and
not-found branches). -/
theorem close_road_fst (em : EventManager) (g : Graph) (u v : ℕ) :
    (em.close_road g u v).1 =
      { g with edges := (closeDirected (closeDirected g.edges u v).1 v u).1 } := by
  unfold EventManager.close_road
  dsimp only
  split <;> rfl

/-- `close_road` rewrites every adjacency list pointwise: an edge of `u`
targeting `v` (and an edge of `v` targeting `u`) is closed, every other
edge is untouched. -/
theorem close_road_edgesFrom (em : EventManager) (g : Graph) (u v w : ℕ) :
    ((em.close_road g u v).1).edgesFrom w =
      (g.edgesFrom w).map (fun e =>
        (fun e2 : Edge => if w = v ∧ e2.target = u then
          { e2 with isOpen := false } else e2)
        ((fun e1 : Edge => if w = u ∧ e1.target = v then
          { e1 with isOpen := false } else e1) e)) := by
  rw [close_road_fst]
  unfold Graph.edgesFrom
  rw [show ({ g with edges :=
      (closeDirected (closeDirected g.edges u v).1 v u).1 } : Graph).edges =
    (closeDirected (closeDirected g.edges u v).1 v u).1 from rfl]
  rw [closeDirected_getD, closeDirected_getD, List.map_map]
  rfl

/-- `close_road` keeps the node list and the number of adjacency
lists. -/
theorem close_road_shape (em : EventManager) (g : Graph) (u v : ℕ) :
    ((em.close_road g u v).1).nodes = g.nodes ∧
    ((em.close_road g u v).1).edges.length = g.edges.length := by
  rw [close_road_fst]
  unfold closeDirected
  simp

/-- After `close_road(u, v)`, every stored edge between `u` and `v` (in
either direction) is closed, so neither direction is an open step any
more. -/
theorem close_road_closes (em : EventManager) (g : Graph) (u v : ℕ) :
    (∀ e ∈ ((em.close_road g u v).1).edgesFrom u, e.target = v →
      e.isOpen = false) ∧
    (∀ e ∈ ((em.close_road g u v).1).edgesFrom v, e.target = u →
      e.isOpen = false) ∧
    ¬ openAdj ((em.close_road g u v).1) u v ∧
    ¬ openAdj ((em.close_road g u v).1) v u := by
  have h1 : ∀ e ∈ ((em.close_road g u v).1).edgesFrom u, e.target = v →
      e.isOpen = false := by
    intro e he htgt
    rw [close_road_edgesFrom] at he
    obtain ⟨e0, he0, rfl⟩ := List.mem_map.mp he
    dsimp only at htgt ⊢
    have htgt0 : e0.target = v := by
      rw [closeFlip_target, closeFlip_target] at htgt
      exact htgt
    rw [if_pos (⟨rfl, htgt0⟩ : u = u ∧ e0.target = v)]
    split <;> rfl
  have h2 : ∀ e ∈ ((em.close_road g u v).1).edgesFrom v, e.target = u →
      e.isOpen = false := by
    intro e he htgt
    rw [close_road_edgesFrom] at he
    obtain ⟨e0, he0, rfl⟩ := List.mem_map.mp he
    dsimp only at htgt ⊢
    have htgt0 : e0.target = u := by
      rw [closeFlip_target, closeFlip_target] at htgt
      exact htgt
    by_cases hA : v = u ∧ e0.target = v
    · rw [if_pos hA]
      split <;> rfl
    · rw [if_neg hA, if_pos (⟨rfl, htgt0⟩ : v = v ∧ e0.target = u)]
  refine ⟨h1, h2, ?_, ?_⟩
  · rintro ⟨e, he, hopen, htgt⟩
    rw [h1 e he htgt] at hopen
    exact Bool.false_ne_true hopen
  · rintro ⟨e, he, hopen, htgt⟩
    rw [h2 e he htgt] at hopen
    exact Bool.false_ne_true hopen

/-- `close_road` preserves the full mirror invariant (it never touches
`distance`, `time` or `base_time`, and closes both directions). -/
theorem close_road_preserves_mirrorFull (em : EventManager) (g : Graph)
    (u v : ℕ) (hm : MirrorFull g) : MirrorFull ((em.close_road g u v).1) := by
  apply mirrorFull_map g _ _ (close_road_shape em g u v).2
    (close_road_edgesFrom em g u v) _ hm
  intro w e
  dsimp only
  exact ⟨by rw [closeFlip_target, closeFlip_target],
    by rw [closeFlip_distance, closeFlip_distance],
    by rw [closeFlip_time, closeFlip_time],
    by rw [closeFlip_base_time, closeFlip_base_time]⟩

/-- Successful `add_edge` on an undirected graph produces exactly the
two-`set` shape: the forward edge appended at `id1`, the mirror edge
appended at `id2`, for one common scaled distance and time. -/
theorem add_edge_ok_shape (g : Graph) (id1 id2 : ℕ) (d? : Option ℚ)
    (sp : ℚ) (tt? : Option ℚ) (op : Bool) (g' : Graph)
    (hdir : g.directed = false)
    (hok : g.add_edge id1 id2 d? sp tt? op = Except.ok g') :
    (g.get_node id1).isSome ∧ (g.get_node id2).isSome ∧
    ∃ sd st : ℚ, g' = Graph.mk g.nodes
      ((g.edges.set id1
          (g.edgesFrom id1 ++ [Edge.mk4 id2 sd st op])).set id2
        (((g.edges.set id1
            (g.edgesFrom id1 ++ [Edge.mk4 id2 sd st op])).getD id2 [])
          ++ [Edge.mk4 id1 sd st op])) false := by
  cases hn1 : g.get_node id1 with
  | none =>
    unfold Graph.add_edge at hok
    rw [hn1] at hok
    exact absurd hok (by simp)
  | some n1 =>
    cases hn2 : g.get_node id2 with
    | none =>
      unfold Graph.add_edge at hok
      rw [hn1, hn2] at hok
      exact absurd hok (by simp)
    | some n2 =>
      unfold Graph.add_edge at hok
      rw [hn1, hn2, hdir] at hok
      simp only [Bool.false_eq_true, if_false, Except.ok.injEq] at hok
      exact ⟨rfl, rfl, _, _, hok.symm⟩

/-- Members of an out-of-range `getD` lookup do not exist. -/
theorem mem_getD_lt {α : Type} (l : List (List α)) (u : ℕ) (x : α)
    (h : x ∈ l.getD u []) : u < l.length := by
  by_contra hge
  rw [List.getD_eq_default _ _ (Nat.le_of_not_lt hge)] at h
  exact absurd h (List.not_mem_nil x)

/-- C1 (add_edge part): a successful `add_edge` on a well-sized
undirected graph preserves the full mirror invariant. -/
theorem add_edge_preserves_mirrorFull (g : Graph) (id1 id2 : ℕ)
    (d? : Option ℚ) (sp : ℚ) (tt? : Option ℚ) (op : Bool) (g' : Graph)
    (hlen : g.edges.length = g.nodes.length) (hdir : g.directed = false)
    (hok : g.add_edge id1 id2 d? sp tt? op = Except.ok g')
    (hm : MirrorFull g) : MirrorFull g' := by
  obtain ⟨hs1, hs2, sd, st, rfl⟩ :=
    add_edge_ok_shape g id1 id2 d? sp tt? op g' hdir hok
  have hid1 : id1 < g.edges.length := by
    rw [hlen]
    obtain ⟨n1, hn1⟩ := Option.isSome_iff_exists.mp hs1
    unfold Graph.get_node at hn1
    exact (List.getElem?_eq_some_iff.mp hn1).choose
  have hid2 : id2 < g.edges.length := by
    rw [hlen]
    obtain ⟨n2, hn2⟩ := Option.isSome_iff_exists.mp hs2
    unfold Graph.get_node at hn2
    exact (List.getElem?_eq_some_iff.mp hn2).choose
  have hid2' : id2 < (g.edges.set id1
      (g.edgesFrom id1 ++ [Edge.mk4 id2 sd st op])).length := by
    simpa using hid2
  -- adjacency lists of the extended graph
  have hAt2 : Graph.edgesFrom (Graph.mk g.nodes
      ((g.edges.set id1 (g.edgesFrom id1 ++ [Edge.mk4 id2 sd st op])).set id2
        (((g.edges.set id1
            (g.edgesFrom id1 ++ [Edge.mk4 id2 sd st op])).getD id2 [])
          ++ [Edge.mk4 id1 sd st op])) false) id2 =
      ((g.edges.set id1
        (g.edgesFrom id1 ++ [Edge.mk4 id2 sd st op])).getD id2 [])
        ++ [Edge.mk4 id1 sd st op] := by
    unfold Graph.edgesFrom
    exact getD_set_self _ _ _ _ hid2'
  have hAtOther : ∀ w, w ≠ id2 → Graph.edgesFrom (Graph.mk g.nodes
      ((g.edges.set id1 (g.edgesFrom id1 ++ [Edge.mk4 id2 sd st op])).set id2
        (((g.edges.set id1
            (g.edgesFrom id1 ++ [Edge.mk4 id2 sd st op])).getD id2 [])
          ++ [Edge.mk4 id1 sd st op])) false) w =
      (g.edges.set id1
        (g.edgesFrom id1 ++ [Edge.mk4 id2 sd st op])).getD w [] := by
    intro w hw
    unfold Graph.edgesFrom
    exact getD_set_ne _ _ _ _ _ (fun h => hw h.symm)
  have hE1_at1 : (g.edges.set id1
      (g.edgesFrom id1 ++ [Edge.mk4 id2 sd st op])).getD id1 [] =
      g.edgesFrom id1 ++ [Edge.mk4 id2 sd st op] :=
    getD_set_self _ _ _ _ hid1
  have hE1_other : ∀ w, w ≠ id1 → (g.edges.set id1
      (g.edgesFrom id1 ++ [Edge.mk4 id2 sd st op])).getD w [] =
      g.edgesFrom w := by
    intro w hw
    exact getD_set_ne _ _ _ _ _ (fun h => hw h.symm)
  -- the old adjacency lists are sublists of the new ones
  have hsub : ∀ w, ∀ x : Edge, x ∈ g.edgesFrom w →
      x ∈ Graph.edgesFrom (Graph.mk g.nodes
      ((g.edges.set id1 (g.edgesFrom id1 ++ [Edge.mk4 id2 sd st op])).set id2
        (((g.edges.set id1
            (g.edgesFrom id1 ++ [Edge.mk4 id2 sd st op])).getD id2 [])
          ++ [Edge.mk4 id1 sd st op])) false) w := by
    intro w x hx
    by_cases hw2 : w = id2
    · subst hw2
      rw [hAt2]
      apply List.mem_append_left
      by_cases hw1 : w = id1
      · subst hw1
        rw [hE1_at1]
        exact List.mem_append_left _ hx
      · rw [hE1_other w hw1]
        exact hx
    · rw [hAtOther w hw2]
      by_cases hw1 : w = id1
      · subst hw1
        rw [hE1_at1]
        exact List.mem_append_left _ hx
      · rw [hE1_other w hw1]
        exact hx
  -- membership of the two new edges
  have hfwdmem : Edge.mk4 id2 sd st op ∈ Graph.edgesFrom (Graph.mk g.nodes
      ((g.edges.set id1 (g.edgesFrom id1 ++ [Edge.mk4 id2 sd st op])).set id2
        (((g.edges.set id1
            (g.edgesFrom id1 ++ [Edge.mk4 id2 sd st op])).getD id2 [])
          ++ [Edge.mk4 id1 sd st op])) false) id1 := by
    by_cases h12 : id1 = id2
    · subst h12
      rw [hAt2, hE1_at1]
      exact List.mem_append_left _
        (List.mem_append_right _ (List.mem_singleton.mpr rfl))
    · rw [hAtOther id1 h12, hE1_at1]
      exact List.mem_append_right _ (List.mem_singleton.mpr rfl)
  have hrevmem : Edge.mk4 id1 sd st op ∈ Graph.edgesFrom (Graph.mk g.nodes
      ((g.edges.set id1 (g.edgesFrom id1 ++ [Edge.mk4 id2 sd st op])).set id2
        (((g.edges.set id1
            (g.edgesFrom id1 ++ [Edge.mk4 id2 sd st op])).getD id2 [])
          ++ [Edge.mk4 id1 sd st op])) false) id2 := by
    rw [hAt2]
    exact List.mem_append_right _ (List.mem_singleton.mpr rfl)
  -- decomposition of membership in the new graph
  have hdecomp : ∀ u : ℕ, ∀ e : Edge, e ∈ Graph.edgesFrom (Graph.mk g.nodes
      ((g.edges.set id1 (g.edgesFrom id1 ++ [Edge.mk4 id2 sd st op])).set id2
        (((g.edges.set id1
            (g.edgesFrom id1 ++ [Edge.mk4 id2 sd st op])).getD id2 [])
          ++ [Edge.mk4 id1 sd st op])) false) u →
      e ∈ g.edgesFrom u ∨ (u = id1 ∧ e = Edge.mk4 id2 sd st op) ∨
        (u = id2 ∧ e = Edge.mk4 id1 sd st op) := by
    intro u e he
    by_cases hw2 : u = id2
    · subst hw2
      rw [hAt2] at he
      rcases List.mem_append.mp he with h | h
      · by_cases hw1 : u = id1
        · subst hw1
          rw [hE1_at1] at h
          rcases List.mem_append.mp h with h' | h'
          · exact Or.inl h'
          · exact Or.inr (Or.inl ⟨rfl, List.mem_singleton.mp h'⟩)
        · rw [hE1_other u hw1] at h
          exact Or.inl h
      · exact Or.inr (Or.inr ⟨rfl, List.mem_singleton.mp h⟩)
    · rw [hAtOther u hw2] at he
      by_cases hw1 : u = id1
      · subst hw1
        rw [hE1_at1] at he
        rcases List.mem_append.mp he with h' | h'
        · exact Or.inl h'
        · exact Or.inr (Or.inl ⟨rfl, List.mem_singleton.mp h'⟩)
      · rw [hE1_other u hw1] at he
        exact Or.inl he
  -- assemble the invariant
  intro u hu e he
  rcases hdecomp u e he with hold | ⟨hu1, hee⟩ | ⟨hu2, hee⟩
  · have hub : u < g.edges.length := mem_getD_lt _ _ _ hold
    obtain ⟨e', he', ht', hd', htm', hb'⟩ := hm u hub e hold
    exact ⟨e', hsub e.target e' he', ht', hd', htm', hb'⟩
  · subst hee
    exact ⟨Edge.mk4 id1 sd st op, hrevmem, hu1.symm, rfl, rfl, rfl⟩
  · subst hee
    exact ⟨Edge.mk4 id2 sd st op, hfwdmem, hu2.symm, rfl, rfl, rfl⟩

/-- C1 (event part, distance): `apply_events_to_edges` preserves the
distance half of the mirror invariant at every time. -/
theorem apply_events_preserves_mirrorDist (em : EventManager) (g : Graph)
    (t : Option ℤ) (hm : MirrorDist g) :
    MirrorDist (em.apply_events_to_edges g t) := by
  apply mirrorDist_map g _
    (fun w => applyEdge (em.get_combined_multiplier w t)
      (em.get_weather_at_node w t) (em.get_traffic_at_node w t))
    (apply_events_shape em g t).2.2 (apply_events_edgesFrom em g t) _ hm
  intro w e
  exact ⟨rfl, rfl⟩

/-- C1 (event part, time): `apply_events_to_edges` preserves the full
mirror invariant whenever the combined multipliers at the two endpoints
of every stored edge agree at the application time (for instance when no
zone is active). -/
theorem apply_events_preserves_mirrorFull (em : EventManager) (g : Graph)
    (t : Option ℤ)
    (hagree : ∀ w, ∀ e ∈ g.edgesFrom w,
      em.get_combined_multiplier w t =
        em.get_combined_multiplier e.target t)
    (hm : MirrorFull g) : MirrorFull (em.apply_events_to_edges g t) := by
  intro u hu e2 he2
  rw [apply_events_edgesFrom] at he2
  obtain ⟨e, he, rfl⟩ := List.mem_map.mp he2
  have hub : u < g.edges.length := by
    have := (apply_events_shape em g t).2.2
    rw [← this]
    exact hu
  obtain ⟨e', he', ht', hd', htm', hb'⟩ := hm u hub e he
  refine ⟨applyEdge (em.get_combined_multiplier e.target t)
    (em.get_weather_at_node e.target t)
    (em.get_traffic_at_node e.target t) e', ?_, ?_, ?_, ?_, ?_⟩
  · show _ ∈ Graph.edgesFrom (em.apply_events_to_edges g t)
      (applyEdge _ _ _ e).target
    rw [show (applyEdge (em.get_combined_multiplier u t)
      (em.get_weather_at_node u t) (em.get_traffic_at_node u t) e).target =
      e.target from rfl, apply_events_edgesFrom]
    exact List.mem_map_of_mem _ he'
  · show e'.target = _
    rw [ht']
  · exact hd'
  · show e'.base_time.getD e'.time * em.get_combined_multiplier e.target t =
      e.base_time.getD e.time * em.get_combined_multiplier u t
    rw [htm', hb', hagree u e he]
  · show (some (e'.base_time.getD e'.time) : Option ℚ) =
      some (e.base_time.getD e.time)
    rw [htm', hb']

/-- C1 counterexample: on a two-node undirected graph whose single
mirrored edge pair has equal `distance` and `time`, a weather zone that
covers only node 0 makes `apply_events_to_edges` at `t = 100` scale the
two directions by different multipliers (each edge is scaled by its
*source* node's combined multiplier), so the mirror invariant on `time`
is broken even though no `add_edge` or `close_road` occurred. -/
theorem mirror_time_counterexample :
    MirrorDistTime mirrorGraph ∧
    ¬ MirrorDistTime
      (rainAtZero.apply_events_to_edges mirrorGraph (some 100)) := by
  decide

/-- C1 (amended): what the code actually maintains.  (1) a successful
`add_edge` on a well-sized undirected graph preserves the full mirror
invariant (mirror on `distance`, `time` and `base_time`); (2) so does
`close_road`, which closes both directions without touching weights;
(3) `apply_events_to_edges` always preserves the `distance` half of the
mirror invariant, but preserves the `time` half only under the extra
condition that the combined event multipliers at the two endpoints of
every stored edge agree at the application time (e.g. no active zone);
(4) the full invariant implies the spec's mirror property of equal
`distance` and equal `time`.  Without the endpoint-agreement condition
the `time` half can break, as `mirror_time_counterexample` shows,
because each direction is scaled by its own source node's multiplier. -/
theorem mirror_edge_invariant :
    (∀ (g : Graph) (id1 id2 : ℕ) (d? : Option ℚ) (sp : ℚ)
      (tt? : Option ℚ) (op : Bool) (g' : Graph),
      g.edges.length = g.nodes.length → g.directed = false →
      g.add_edge id1 id2 d? sp tt? op = Except.ok g' →
      MirrorFull g → MirrorFull g') ∧
    (∀ (em : EventManager) (g : Graph) (u v : ℕ),
      MirrorFull g → MirrorFull ((em.close_road g u v).1)) ∧
    (∀ (em : EventManager) (g : Graph) (t : Option ℤ),
      MirrorDist g → MirrorDist (em.apply_events_to_edges g t)) ∧
    (∀ (em : EventManager) (g : Graph) (t : Option ℤ),
      (∀ w, ∀ e ∈ g.edgesFrom w,
        em.get_combined_multiplier w t =
          em.get_combined_multiplier e.target t) →
      MirrorFull g → MirrorFull (em.apply_events_to_edges g t)) ∧
    (∀ g : Graph, MirrorFull g → MirrorDistTime g) := by
  refine ⟨?_, ?_, ?_, ?_, ?_⟩
  · intro g id1 id2 d? sp tt? op g' hlen hdir hok hm
    exact add_edge_preserves_mirrorFull g id1 id2 d? sp tt? op g'
      hlen hdir hok hm
  · intro em g u v hm
    exact close_road_preserves_mirrorFull em g u v hm
  · intro em g t hm
    exact apply_events_preserves_mirrorDist em g t hm
  · intro em g t hagree hm
    exact apply_events_preserves_mirrorFull em g t hagree hm
  · intro g hm u hu e he
    obtain ⟨e', he', ht', hd', htm', _⟩ := hm u hu e he
    exact ⟨e', he', ht', hd', htm'⟩

/-- Witness for `mirror_edge_invariant`: instantiating the
`apply_events_to_edges` conjunct at a concrete undirected graph with an
empty event manager (all multipliers 1, so the endpoint-agreement
condition holds) yields the spec's mirror property on the result. -/
theorem mirror_edge_invariant_witness :
    MirrorDistTime
      (EventManager.init.apply_events_to_edges mirrorGraph none) :=
  mirror_edge_invariant.2.2.2.2 _
    (mirror_edge_invariant.2.2.2.1 EventManager.init mirrorGraph none
      (fun w e _ => rfl) (by decide))

/-! ## C7 — eco-friendly constraint with no fallback -/

/-- Every member of the eco-filtered candidate list is an IDLE electric
vehicle. -/
theorem mem_available_eco (vehicles : List Vehicle) (request : Request)
    (heco : request.eco_friendly = true) (v : Vehicle)
    (hv : v ∈ get_available_vehicles_for_request vehicles request) :
    v.status = Vehicle_Status.IDLE ∧ v.vehicle_type.isEletric = true := by
  unfold get_available_vehicles_for_request at hv
  rw [heco] at hv
  simp only [if_true] at hv
  obtain ⟨hv1, he⟩ := List.mem_filter.mp hv
  obtain ⟨_, hs⟩ := List.mem_filter.mp hv1
  exact ⟨by simpa using hs, he⟩

/-- A vehicle selected by the best-candidate fold is either the initial
accumulator's or a member of the candidate list. -/
theorem assign_foldl_mem (cfg : SimConfig) (request : Request) :
    ∀ (l : List Vehicle) (acc : Option Vehicle × WithTop ℚ) (v : Vehicle),
      (l.foldl (assignStep cfg request) acc).1 = some v →
      acc.1 = some v ∨ v ∈ l := by
  intro l
  induction l with
  | nil =>
    intro acc v h
    exact Or.inl h
  | cons x xs ih =>
    intro acc v h
    rw [List.foldl_cons] at h
    rcases ih (assignStep cfg request acc x) v h with h' | h'
    · unfold assignStep at h'
      by_cases hc : x.capacity < request.passengers
      · rw [if_pos hc] at h'
        exact Or.inl h'
      · rw [if_neg hc] at h'
        by_cases hlt : projectedTime cfg request x < acc.2
        · rw [if_pos hlt] at h'
          cases Option.some.inj h'
          exact Or.inr (List.mem_cons_self x xs)
        · rw [if_neg hlt] at h'
          exact Or.inl h'
    · exact Or.inr (List.mem_cons_of_mem x h')

/-- C7: for an eco-friendly request the candidate set contains only IDLE
electric vehicles; any vehicle the assignment returns is electric; and
when no IDLE electric vehicle exists the assignment returns `None`, no
vehicle is assigned and the request is left unchanged (its status stays
`pending`) — a non-electric vehicle is never assigned to an eco-friendly
request. -/
theorem eco_friendly_no_fallback :
    (∀ (vehicles : List Vehicle) (request : Request),
      request.eco_friendly = true →
      ∀ v ∈ get_available_vehicles_for_request vehicles request,
        v.status = Vehicle_Status.IDLE ∧ v.vehicle_type.isEletric = true) ∧
    (∀ (cfg : SimConfig) (request : Request) (vehicles : List Vehicle)
      (v : Vehicle), request.eco_friendly = true →
      assign_request_to_vehicle cfg request vehicles = some v →
      v.vehicle_type.isEletric = true) ∧
    (∀ (cfg : SimConfig) (request : Request) (vehicles : List Vehicle),
      request.eco_friendly = true →
      (∀ v ∈ vehicles, v.status = Vehicle_Status.IDLE →
        v.vehicle_type.isEletric = false) →
      assign_request_to_vehicle cfg request vehicles = none ∧
      (processAssignment cfg request vehicles).2 = request) := by
  refine ⟨?_, ?_, ?_⟩
  · intro vehicles request heco v hv
    exact mem_available_eco vehicles request heco v hv
  · intro cfg request vehicles v heco hassign
    unfold assign_request_to_vehicle at hassign
    by_cases hcond :
        (get_available_vehicles_for_request vehicles request).isEmpty ∧
          request.eco_friendly = true
    · rw [if_pos hcond] at hassign
      exact absurd hassign (by simp)
    · rw [if_neg hcond] at hassign
      rcases assign_foldl_mem cfg request _ (none, ⊤) v hassign with h | h
      · exact absurd h (by simp)
      · exact (mem_available_eco vehicles request heco v h).2
  · intro cfg request vehicles heco hnone
    have hempty : get_available_vehicles_for_request vehicles request = [] := by
      rw [List.eq_nil_iff_forall_not_mem]
      intro v hv
      obtain ⟨hidle, hel⟩ := mem_available_eco vehicles request heco v hv
      have hmem : v ∈ vehicles := by
        unfold get_available_vehicles_for_request at hv
        rw [heco] at hv
        simp only [if_true] at hv
        exact (List.mem_filter.mp
          (List.mem_filter.mp hv).1).1
      rw [hnone v hmem hidle] at hel
      exact Bool.false_ne_true hel
    have hass : assign_request_to_vehicle cfg request vehicles = none := by
      unfold assign_request_to_vehicle
      rw [hempty]
      exact if_pos ⟨rfl, heco⟩
    refine ⟨hass, ?_⟩
    unfold processAssignment
    rw [hass]

/-- Witness for `eco_friendly_no_fallback`: an eco-friendly request in a
fleet whose only IDLE vehicle is a combustion one gets no assignment and
stays untouched. -/
theorem eco_friendly_no_fallback_witness :
    assign_request_to_vehicle constConfig ecoRequest [idleCombustion] =
      none ∧
    (processAssignment constConfig ecoRequest [idleCombustion]).2 =
      ecoRequest :=
  eco_friendly_no_fallback.2.2 constConfig ecoRequest [idleCombustion]
    (by decide) (by decide)

/-! ## C6 — dispatch selects the minimum-total-time vehicle -/

/-- One step of the best-candidate fold either keeps the accumulator or
records the current vehicle as the strictly cheaper best. -/
theorem assignStep_cases (cfg : SimConfig) (request : Request)
    (acc : Option Vehicle × WithTop ℚ) (x : Vehicle) :
    assignStep cfg request acc x = acc ∨
    (¬ x.capacity < request.passengers ∧
      projectedTime cfg request x < acc.2 ∧
      assignStep cfg request acc x =
        (some x, projectedTime cfg request x)) := by
  unfold assignStep
  by_cases hc : x.capacity < request.passengers
  · rw [if_pos hc]
    exact Or.inl rfl
  · rw [if_neg hc]
    by_cases hlt : projectedTime cfg request x < acc.2
    · rw [if_pos hlt]
      exact Or.inr ⟨hc, hlt, rfl⟩
    · rw [if_neg hlt]
      exact Or.inl rfl

/-- The fold's best cost never increases and ends at or below the
projected time of every capacity-compatible candidate. -/
theorem assign_foldl_cost (cfg : SimConfig) (request : Request) :
    ∀ (l : List Vehicle) (acc : Option Vehicle × WithTop ℚ),
      (l.foldl (assignStep cfg request) acc).2 ≤ acc.2 ∧
      (∀ w ∈ l, ¬ w.capacity < request.passengers →
        (l.foldl (assignStep cfg request) acc).2 ≤
          projectedTime cfg request w) := by
  intro l
  induction l with
  | nil =>
    intro acc
    exact ⟨le_refl _, by simp⟩
  | cons x xs ih =>
    intro acc
    rw [List.foldl_cons]
    obtain ⟨h1, h2⟩ := ih (assignStep cfg request acc x)
    have hstep_le : (assignStep cfg request acc x).2 ≤ acc.2 := by
      rcases assignStep_cases cfg request acc x with ha | ⟨_, hlt, ha⟩
      · rw [ha]
      · rw [ha]
        exact le_of_lt hlt
    refine ⟨h1.trans hstep_le, ?_⟩
    intro w hw hcap
    rcases List.mem_cons.mp hw with rfl | hw'
    · by_cases hlt : projectedTime cfg request w < acc.2
      · have ha : assignStep cfg request acc w =
            (some w, projectedTime cfg request w) := by
          unfold assignStep
          rw [if_neg hcap, if_pos hlt]
        rw [ha]
        rw [ha] at h1
        exact h1
      · exact (h1.trans hstep_le).trans (le_of_not_lt hlt)
    · exact h2 w hw' hcap

/-- The fold either returns the initial accumulator untouched or a
capacity-compatible candidate from the list together with its projected
time, strictly below the initial best cost. -/
theorem assign_foldl_form (cfg : SimConfig) (request : Request) :
    ∀ (l : List Vehicle) (acc : Option Vehicle × WithTop ℚ),
      l.foldl (assignStep cfg request) acc = acc ∨
      ∃ v ∈ l, ¬ v.capacity < request.passengers ∧
        l.foldl (assignStep cfg request) acc =
          (some v, projectedTime cfg request v) ∧
        projectedTime cfg request v < acc.2 := by
  intro l
  induction l with
  | nil =>
    intro acc
    exact Or.inl rfl
  | cons x xs ih =>
    intro acc
    rw [List.foldl_cons]
    rcases assignStep_cases cfg request acc x with ha | ⟨hcap, hlt, ha⟩
    · rw [ha]
      rcases ih acc with h | ⟨v, hv, hc, hr, hl⟩
      · exact Or.inl h
      · exact Or.inr ⟨v, List.mem_cons_of_mem x hv, hc, hr, hl⟩
    · rw [ha]
      rcases ih (some x, projectedTime cfg request x) with h | ⟨v, hv, hc, hr, hl⟩
      · exact Or.inr ⟨x, List.mem_cons_self x xs, hcap, h, hlt⟩
      · exact Or.inr ⟨v, List.mem_cons_of_mem x hv, hc, hr,
          lt_trans hl hlt⟩

/-- C6 counterexample: a fleet whose only vehicle is IDLE, has enough
seats and satisfies the (absent) eco constraint — so the candidate set
is nonempty and capacity-compatible — but both of its search legs hit
the unreachable pickup node, the projected total time is `inf`, and
`assign_request_to_vehicle` returns `None` instead of assigning the
request to that candidate as the claim demands. -/
theorem dispatch_min_time_counterexample :
    strandedVehicle ∈
      get_available_vehicles_for_request [strandedVehicle]
        strandedRequest ∧
    ¬ strandedVehicle.capacity < strandedRequest.passengers ∧
    assign_request_to_vehicle strandedConfig strandedRequest
      [strandedVehicle] = none := by
  decide

/-- C6 (amended): whenever `assign_request_to_vehicle` does assign a
vehicle, that vehicle is an available candidate with enough capacity and
finite projected total time (refuel-augmented leg 1 plus leg 2), minimal
among all capacity-compatible candidates; and it assigns some vehicle as
soon as at least one capacity-compatible candidate has *finite*
projected total time.  As stated the claim fails when every candidate's
projected time is `inf` (e.g. an unreachable pickup): no candidate ever
beats the initial `float('inf')` best cost, and the function returns
`None` even though a candidate satisfying the capacity and eco
constraints exists, as `dispatch_min_time_counterexample` shows. -/
theorem dispatch_selects_min_time (cfg : SimConfig) (request : Request)
    (vehicles : List Vehicle) :
    (∀ v : Vehicle,
      assign_request_to_vehicle cfg request vehicles = some v →
      v ∈ get_available_vehicles_for_request vehicles request ∧
      ¬ v.capacity < request.passengers ∧
      projectedTime cfg request v < ⊤ ∧
      ∀ w ∈ get_available_vehicles_for_request vehicles request,
        ¬ w.capacity < request.passengers →
        projectedTime cfg request v ≤ projectedTime cfg request w) ∧
    ((∃ w ∈ get_available_vehicles_for_request vehicles request,
        ¬ w.capacity < request.passengers ∧
        projectedTime cfg request w < ⊤) →
      ∃ v, assign_request_to_vehicle cfg request vehicles = some v) := by
  constructor
  · intro v hassign
    unfold assign_request_to_vehicle at hassign
    by_cases hcond :
        (get_available_vehicles_for_request vehicles request).isEmpty ∧
          request.eco_friendly = true
    · rw [if_pos hcond] at hassign
      exact absurd hassign (by simp)
    · rw [if_neg hcond] at hassign
      rcases assign_foldl_form cfg request
          (get_available_vehicles_for_request vehicles request)
          (none, ⊤) with h | ⟨v', hv', hc', hr', hl'⟩
      · rw [h] at hassign
        exact absurd hassign (by simp)
      · rw [hr'] at hassign
        cases Option.some.inj hassign
        refine ⟨hv', hc', hl', ?_⟩
        intro w hw hwcap
        have := (assign_foldl_cost cfg request
          (get_available_vehicles_for_request vehicles request)
          (none, ⊤)).2 w hw hwcap
        rw [hr'] at this
        exact this
  · rintro ⟨w, hw, hwcap, hwfin⟩
    have hne : get_available_vehicles_for_request vehicles request ≠ [] :=
      List.ne_nil_of_mem hw
    unfold assign_request_to_vehicle
    rw [if_neg (fun hc => hne (List.isEmpty_iff.mp hc.1))]
    rcases assign_foldl_form cfg request
        (get_available_vehicles_for_request vehicles request)
        (none, ⊤) with h | ⟨v', _, _, hr', _⟩
    · have hcost := (assign_foldl_cost cfg request
        (get_available_vehicles_for_request vehicles request)
        (none, ⊤)).2 w hw hwcap
      rw [h] at hcost
      exact absurd (lt_of_le_of_lt hcost hwfin) (lt_irrefl ⊤)
    · rw [hr']
      exact ⟨v', rfl⟩

/-- Witness for `dispatch_selects_min_time`: in a one-vehicle fleet with
finite search legs, the assigned vehicle is that candidate, has enough
capacity, finite projected time, and is minimal among the candidates. -/
theorem dispatch_selects_min_time_witness :
    idleEletric ∈
      get_available_vehicles_for_request [idleEletric] ecoRequest ∧
    ¬ idleEletric.capacity < ecoRequest.passengers ∧
    projectedTime constConfig ecoRequest idleEletric < ⊤ ∧
    ∀ w ∈ get_available_vehicles_for_request [idleEletric] ecoRequest,
      ¬ w.capacity < ecoRequest.passengers →
      projectedTime constConfig ecoRequest idleEletric ≤
        projectedTime constConfig ecoRequest w :=
  (dispatch_selects_min_time constConfig ecoRequest [idleEletric]).1
    idleEletric (by decide)

/-! ## C5 — closed-road avoidance -/

/-- `popMinBy` returns a member of the list and a sublist of it. -/
theorem popMinBy_mem (lt : α → α → Bool) :
    ∀ (l : List α) (m : α) (rest : List α),
      popMinBy lt l = some (m, rest) →
      m ∈ l ∧ ∀ x ∈ rest, x ∈ l := by
  intro l
  induction l with
  | nil =>
    intro m rest h
    exact absurd h (by simp [popMinBy])
  | cons a as ih =>
    intro m rest h
    rw [popMinBy] at h
    cases hp : popMinBy lt as with
    | none =>
      rw [hp] at h
      simp only [Option.some.injEq, Prod.mk.injEq] at h
      obtain ⟨rfl, rfl⟩ := h
      exact ⟨List.mem_cons_self a as, by simp⟩
    | some pr =>
      obtain ⟨m', rest'⟩ := pr
      rw [hp] at h
      dsimp only at h
      obtain ⟨hm', hrest'⟩ := ih m' rest' hp
      by_cases hlt : lt m' a = true
      · rw [if_pos hlt] at h
        simp only [Option.some.injEq, Prod.mk.injEq] at h
        obtain ⟨rfl, rfl⟩ := h
        refine ⟨List.mem_cons_of_mem a hm', ?_⟩
        intro x hx
        rcases List.mem_cons.mp hx with rfl | hx'
        · exact List.mem_cons_self x as
        · exact List.mem_cons_of_mem a (hrest' x hx')
      · rw [if_neg hlt] at h
        simp only [Option.some.injEq, Prod.mk.injEq] at h
        obtain ⟨rfl, rfl⟩ := h
        exact ⟨List.mem_cons_self a as,
          fun x hx => List.mem_cons_of_mem a hx⟩

/-- Consecutive elements of a traversable path are joined by an open
stored edge. -/
theorem pathOpen_pairs (g : Graph) (p : List ℕ) (hp : PathOpen g p)
    (i : ℕ) (a b : ℕ) (ha : p[i]? = some a) (hb : p[i + 1]? = some b) :
    openAdj g a b := by
  obtain ⟨hib, hbeq⟩ := List.getElem?_eq_some_iff.mp hb
  obtain ⟨hia, haeq⟩ := List.getElem?_eq_some_iff.mp ha
  have hlt : i < p.length - 1 := by omega
  have h1 : openAdj g (p.get ⟨i, by omega⟩) (p.get ⟨i + 1, by omega⟩) :=
    (List.chain'_iff_get.mp hp) i hlt
  have e1 : p.get ⟨i, by omega⟩ = a := haeq
  have e2 : p.get ⟨i + 1, by omega⟩ = b := hbeq
  rw [← e1, ← e2]
  exact h1

/-- The neighbour scan of `uniform_cost_search` pushes only entries whose
path is a chain of open edges ending at the pushed node. -/
theorem ucsScan_good (g : Graph)
    (hid : ∀ i, ∀ h : i < g.nodes.length, (g.nodes.get ⟨i, h⟩).id = i)
    (vt : Option VehicleType) (visited : Finset ℕ) (cost : ℚ)
    (path : List ℕ) (cid : ℕ)
    (hchain : PathOpen g path) (hlast : path.getLast? = some cid) :
    ∀ (l : List Edge), (∀ e ∈ l, e ∈ g.edgesFrom cid) →
    ∀ (counter : ℕ) (acc : List UcsEntry),
      (∀ en ∈ acc, UcsGood g en) →
      ∀ r, ucsScan g vt visited cost path l counter acc = some r →
        ∀ en ∈ r.2, UcsGood g en := by
  intro l
  induction l with
  | nil =>
    intro _ counter acc hacc r h
    rw [ucsScan] at h
    cases Option.some.inj h
    exact hacc
  | cons e es ih =>
    intro hsub counter acc hacc r h
    rw [ucsScan] at h
    by_cases hopen : e.isOpen = false
    · rw [if_pos hopen] at h
      exact ih (fun e' he' => hsub e' (List.mem_cons_of_mem e he'))
        counter acc hacc r h
    · rw [if_neg hopen] at h
      cases hn : g.get_node e.target with
      | none =>
        rw [hn] at h
        exact absurd h (by simp)
      | some neighbor =>
        rw [hn] at h
        dsimp only at h
        by_cases hv : neighbor.id ∈ visited
        · rw [if_pos hv] at h
          exact ih (fun e' he' => hsub e' (List.mem_cons_of_mem e he'))
            counter acc hacc r h
        · rw [if_neg hv] at h
          refine ih (fun e' he' => hsub e' (List.mem_cons_of_mem e he'))
            (counter + 1) _ ?_ r h
          intro en hen
          rcases List.mem_append.mp hen with h' | h'
          · exact hacc en h'
          · rw [List.mem_singleton] at h'
            subst h'
            have hopen' : e.isOpen = true := by
              revert hopen
              cases e.isOpen <;> simp
            have hnid : neighbor.id = e.target := by
              unfold Graph.get_node at hn
              obtain ⟨hltn, heqn⟩ := List.getElem?_eq_some_iff.mp hn
              rw [← heqn]
              exact hid e.target hltn
            have hadj : openAdj g cid neighbor.id :=
              ⟨e, hsub e (List.mem_cons_self e es), hopen', hnid.symm⟩
            constructor
            · show PathOpen g (path ++ [neighbor.id])
              unfold PathOpen at hchain ⊢
              rw [List.chain'_append]
              refine ⟨hchain, List.chain'_singleton _, ?_⟩
              intro x hx y hy
              rw [hlast] at hx
              cases Option.some.inj hx
              cases Option.some.inj hy
              exact hadj
            · exact List.getLast?_concat _

/-- Every result the `uniform_cost_search` loop returns carries a path
that is a chain of open stored edges. -/
theorem ucsLoop_path (g : Graph)
    (hid : ∀ i, ∀ h : i < g.nodes.length, (g.nodes.get ⟨i, h⟩).id = i)
    (vt : Option VehicleType) (goalId : ℕ) :
    ∀ (fuel : ℕ) (open_set : List UcsEntry) (counter : ℕ)
      (visited : Finset ℕ),
      (∀ en ∈ open_set, UcsGood g en) →
      ∀ r, ucsLoop g vt goalId fuel open_set counter visited = some r →
        PathOpen g r.2.2 := by
  intro fuel
  induction fuel with
  | zero =>
    intro o c v _ r h
    simp [ucsLoop] at h
  | succ n ih =>
    intro o c v hinv r h
    rw [ucsLoop] at h
    cases hp : popMinBy ucsLt o with
    | none =>
      rw [hp] at h
      cases Option.some.inj h
      exact List.chain'_nil
    | some pr =>
      obtain ⟨entry, rest⟩ := pr
      rw [hp] at h
      obtain ⟨hmem, hrest⟩ := popMinBy_mem ucsLt o entry rest hp
      have hgood := hinv entry hmem
      by_cases hgoal : entry.node.id = goalId
      · simp only [if_pos hgoal] at h
        cases Option.some.inj h
        exact hgood.1
      · simp only [if_neg hgoal] at h
        by_cases hv : entry.node.id ∈ v
        · simp only [if_pos hv] at h
          exact ih rest c v (fun en hen => hinv en (hrest en hen)) r h
        · simp only [if_neg hv] at h
          cases he : g.edges[entry.node.id]? with
          | none =>
            rw [he] at h
            exact absurd h (by simp)
          | some edges =>
            rw [he] at h
            dsimp only at h
            cases hs : ucsScan g vt (insert entry.node.id v) entry.cost
                entry.path edges c rest with
            | none =>
              rw [hs] at h
              exact absurd h (by simp)
            | some r2 =>
              rw [hs] at h
              refine ih r2.2 r2.1 _ ?_ r h
              exact ucsScan_good g hid vt _ entry.cost entry.path
                entry.node.id hgood.1 hgood.2 edges
                (fun e hee => by
                  unfold Graph.edgesFrom
                  rw [List.getD_eq_getElem?_getD, he]
                  exact hee)
                c rest (fun en hen => hinv en (hrest en hen)) r2 hs

/-- A successful `came_from` lookup returns one of its bindings. -/
theorem cfLookup_mem (cf : List (ℕ × Node)) (k : ℕ) (p : Node)
    (h : cfLookup cf k = some p) : (k, p) ∈ cf := by
  unfold cfLookup at h
  cases hf : cf.find? (fun q => q.1 == k) with
  | none =>
    rw [hf] at h
    exact absurd h (by simp)
  | some q =>
    rw [hf] at h
    obtain ⟨q1, q2⟩ := q
    have hq : q1 = k := by simpa using List.find?_some hf
    have hmem := List.mem_of_find?_eq_some hf
    cases Option.some.inj h
    subst hq
    exact hmem

/-- A key present in the `came_from` list looks up successfully. -/
theorem cfLookup_isSome_of_key (cf : List (ℕ × Node)) (k : ℕ)
    (h : k ∈ cfKeys cf) : (cfLookup cf k).isSome = true := by
  obtain ⟨q, hq, hk⟩ := List.mem_map.mp h
  unfold cfLookup
  cases hf : cf.find? (fun q => q.1 == k) with
  | none =>
    have h2 : (cf.find? (fun q => q.1 == k)).isSome = true :=
      List.find?_isSome.mpr ⟨q, hq, by simpa using hk⟩
    rw [hf] at h2
    exact absurd h2 (by simp)
  | some q' => rfl

/-- Under the `came_from` invariant, every path the reconstruction loop
returns is a chain of open stored edges (walked backwards, then
reversed). -/
theorem reconstructPath_chain (g : Graph) (startId : ℕ)
    (cf : List (ℕ × Node)) (hcf : CameFromInv g startId cf) :
    ∀ (fuel : ℕ) (current : Node) (acc : List ℕ),
      List.Chain' (fun a b => openAdj g b a) (acc ++ [current.id]) →
      (acc = [] ∨ NodeOk startId cf current.id) →
      ∀ p, reconstructPath cf startId fuel current acc = some p →
        PathOpen g p := by
  intro fuel
  induction fuel with
  | zero =>
    intro current acc _ _ p h
    simp [reconstructPath] at h
  | succ n ih =>
    intro current acc hchain hok p h
    rw [reconstructPath] at h
    cases hl : cfLookup cf current.id with
    | some prev =>
      rw [hl] at h
      dsimp only at h
      have hbind := cfLookup_mem cf current.id prev hl
      have hinv := hcf (current.id, prev) hbind
      refine ih prev (acc ++ [current.id]) ?_ (Or.inr hinv.2) p h
      rw [List.chain'_append]
      refine ⟨hchain, List.chain'_singleton _, ?_⟩
      intro x hx y hy
      rw [List.getLast?_concat] at hx
      cases Option.some.inj hx
      cases Option.some.inj hy
      exact hinv.1
    | none =>
      rw [hl] at h
      dsimp only at h
      cases Option.some.inj h
      rcases hok with rfl | hok
      · show PathOpen g (([] ++ [startId] : List ℕ).reverse)
        exact List.chain'_singleton _
      · have hne : current.id ∉ cfKeys cf := by
          intro hk
          have := cfLookup_isSome_of_key cf current.id hk
          rw [hl] at this
          exact absurd this (by simp)
        have hstart : current.id = startId := by
          rcases hok with h' | h'
          · exact h'
          · exact absurd h' hne
        unfold PathOpen
        rw [List.chain'_reverse]
        rw [hstart] at hchain
        exact hchain

/-- The neighbour scan of `greedy_bfs` preserves the `came_from`
invariant and keeps every frontier node keyed (or the start). -/
theorem greedyScan_inv (g : Graph)
    (hid : ∀ i, ∀ h : i < g.nodes.length, (g.nodes.get ⟨i, h⟩).id = i)
    (criterion : String) (vt : Option VehicleType)
    (em : Option EventManager) (t : Option ℤ) (goal_pos : Position)
    (current : Node) (startId : ℕ) (visited : Finset ℕ) :
    ∀ (l : List Edge), (∀ e ∈ l, e ∈ g.edgesFrom current.id) →
    ∀ (counter : ℕ) (acc : List GreedyEntry) (cf : List (ℕ × Node)),
      CameFromInv g startId cf →
      (∀ en ∈ acc, NodeOk startId cf en.node.id) →
      NodeOk startId cf current.id →
      ∀ r, greedyScan g criterion vt em t goal_pos current visited l
          counter acc cf = some r →
        CameFromInv g startId r.2.2 ∧
        ∀ en ∈ r.2.1, NodeOk startId r.2.2 en.node.id := by
  intro l
  induction l with
  | nil =>
    intro _ counter acc cf hcf hacc _ r h
    rw [greedyScan] at h
    cases Option.some.inj h
    exact ⟨hcf, hacc⟩
  | cons e es ih =>
    intro hsub counter acc cf hcf hacc hcur r h
    rw [greedyScan] at h
    by_cases hopen : e.isOpen = false
    · rw [if_pos hopen] at h
      exact ih (fun e' he' => hsub e' (List.mem_cons_of_mem e he'))
        counter acc cf hcf hacc hcur r h
    · rw [if_neg hopen] at h
      cases hn : g.get_node e.target with
      | none =>
        rw [hn] at h
        exact absurd h (by simp)
      | some neighbor =>
        rw [hn] at h
        dsimp only at h
        by_cases hv : neighbor.id ∈ visited
        · rw [if_pos hv] at h
          exact ih (fun e' he' => hsub e' (List.mem_cons_of_mem e he'))
            counter acc cf hcf hacc hcur r h
        · rw [if_neg hv] at h
          have hopen' : e.isOpen = true := by
            revert hopen
            cases e.isOpen <;> simp
          have hnid : neighbor.id = e.target := by
            unfold Graph.get_node at hn
            obtain ⟨hltn, heqn⟩ := List.getElem?_eq_some_iff.mp hn
            rw [← heqn]
            exact hid e.target hltn
          have hadj : openAdj g current.id neighbor.id :=
            ⟨e, hsub e (List.mem_cons_self e es), hopen', hnid.symm⟩
          have hkeys : ∀ k, k ∈ cfKeys cf →
              k ∈ cfKeys ((neighbor.id, current) :: cf) := by
            intro k hk
            unfold cfKeys at hk ⊢
            exact List.mem_cons_of_mem _ hk
          have hok' : ∀ i, NodeOk startId cf i →
              NodeOk startId ((neighbor.id, current) :: cf) i := by
            intro i hi
            rcases hi with h' | h'
            · exact Or.inl h'
            · exact Or.inr (hkeys i h')
          refine ih (fun e' he' => hsub e' (List.mem_cons_of_mem e he'))
            (counter + 1) _ _ ?_ ?_ (hok' _ hcur) r h
          · intro np hnp
            rcases List.mem_cons.mp hnp with rfl | hnp'
            · refine ⟨hadj, ?_⟩
              rcases hcur with h' | h'
              · exact Or.inl h'
              · exact Or.inr (hkeys _ h')
            · obtain ⟨h1, h2⟩ := hcf np hnp'
              refine ⟨h1, ?_⟩
              rcases h2 with h' | h'
              · exact Or.inl h'
              · exact Or.inr (hkeys _ h')
          · intro en hen
            rcases List.mem_append.mp hen with h' | h'
            · exact hok' _ (hacc en h')
            · rw [List.mem_singleton] at h'
              subst h'
              exact Or.inr (List.mem_cons_self _ _)

/-- Every result the `greedy_bfs` loop returns carries a path that is a
chain of open stored edges. -/
theorem greedyLoop_path (g : Graph)
    (hid : ∀ i, ∀ h : i < g.nodes.length, (g.nodes.get ⟨i, h⟩).id = i)
    (criterion : String) (vt : Option VehicleType)
    (em : Option EventManager) (t : Option ℤ) (goal_pos : Position)
    (goalId startId : ℕ) :
    ∀ (fuel : ℕ) (open_set : List GreedyEntry) (counter : ℕ)
      (visited : Finset ℕ) (cf : List (ℕ × Node)),
      CameFromInv g startId cf →
      (∀ en ∈ open_set, NodeOk startId cf en.node.id) →
      ∀ r, greedyLoop g criterion vt em t goal_pos goalId startId fuel
          open_set counter visited cf = some r →
        PathOpen g r.2.2 := by
  intro fuel
  induction fuel with
  | zero =>
    intro o c v cf _ _ r h
    simp [greedyLoop] at h
  | succ n ih =>
    intro o c v cf hcf hinv r h
    rw [greedyLoop] at h
    cases hp : popMinBy greedyLt o with
    | none =>
      rw [hp] at h
      cases Option.some.inj h
      exact List.chain'_nil
    | some pr =>
      obtain ⟨entry, rest⟩ := pr
      rw [hp] at h
      obtain ⟨hmem, hrest⟩ := popMinBy_mem greedyLt o entry rest hp
      by_cases hgoal : entry.node.id = goalId
      · simp only [if_pos hgoal] at h
        cases hrec : reconstructPath cf startId (cf.length + 1)
            entry.node [] with
        | none =>
          rw [hrec] at h
          exact absurd h (by simp)
        | some path =>
          rw [hrec] at h
          dsimp only at h
          cases Option.some.inj h
          exact reconstructPath_chain g startId cf hcf (cf.length + 1)
            entry.node [] (by simpa using List.chain'_singleton _)
            (Or.inr (hinv entry hmem)) path hrec
      · simp only [if_neg hgoal] at h
        cases he : g.edges[entry.node.id]? with
        | none =>
          rw [he] at h
          exact absurd h (by simp)
        | some edges =>
          rw [he] at h
          dsimp only at h
          cases hs : greedyScan g criterion vt em t goal_pos entry.node
              (insert entry.node.id v) edges c rest cf with
          | none =>
            rw [hs] at h
            exact absurd h (by simp)
          | some r2 =>
            rw [hs] at h
            obtain ⟨hcf', hinv'⟩ := greedyScan_inv g hid criterion vt em t
              goal_pos entry.node startId (insert entry.node.id v) edges
              (fun e hee => by
                unfold Graph.edgesFrom
                rw [List.getD_eq_getElem?_getD, he]
                exact hee)
              c rest cf hcf (fun en hen => hinv en (hrest en hen))
              (hinv entry hmem) r2 hs
            exact ih r2.2.1 r2.1 _ r2.2.2 hcf' hinv' r h

/-- The neighbour relaxation of `a_star` preserves the `came_from`
invariant and keeps every frontier node keyed (or the start). -/
theorem astarScan_inv (g : Graph)
    (hid : ∀ i, ∀ h : i < g.nodes.length, (g.nodes.get ⟨i, h⟩).id = i)
    (criterion : String) (vt : Option VehicleType)
    (em : Option EventManager) (t : Option ℤ) (goal_pos : Position)
    (current : Node) (startId : ℕ) :
    ∀ (l : List Edge), (∀ e ∈ l, e ∈ g.edgesFrom current.id) →
    ∀ (st : AStarState),
      CameFromInv g startId st.came_from →
      (∀ en ∈ st.open_set, NodeOk startId st.came_from en.node.id) →
      NodeOk startId st.came_from current.id →
      ∀ st', astarScan g criterion vt em t goal_pos current l st =
          some st' →
        CameFromInv g startId st'.came_from ∧
        ∀ en ∈ st'.open_set, NodeOk startId st'.came_from en.node.id := by
  intro l
  induction l with
  | nil =>
    intro _ st hcf hacc _ st' h
    rw [astarScan] at h
    cases Option.some.inj h
    exact ⟨hcf, hacc⟩
  | cons e es ih =>
    intro hsub st hcf hacc hcur st' h
    rw [astarScan] at h
    by_cases hopen : e.isOpen = false
    · rw [if_pos hopen] at h
      exact ih (fun e' he' => hsub e' (List.mem_cons_of_mem e he'))
        st hcf hacc hcur st' h
    · rw [if_neg hopen] at h
      cases hn : g.get_node e.target with
      | none =>
        rw [hn] at h
        exact absurd h (by simp)
      | some neighbor =>
        rw [hn] at h
        dsimp only at h
        by_cases himp : st.g_score current.id +
            ((calculate_edge_cost e.distance e.time vt : ℚ) : WithTop ℚ) <
            st.g_score neighbor.id
        · rw [if_pos himp] at h
          have hopen' : e.isOpen = true := by
            revert hopen
            cases e.isOpen <;> simp
          have hnid : neighbor.id = e.target := by
            unfold Graph.get_node at hn
            obtain ⟨hltn, heqn⟩ := List.getElem?_eq_some_iff.mp hn
            rw [← heqn]
            exact hid e.target hltn
          have hadj : openAdj g current.id neighbor.id :=
            ⟨e, hsub e (List.mem_cons_self e es), hopen', hnid.symm⟩
          have hkeys : ∀ k, k ∈ cfKeys st.came_from →
              k ∈ cfKeys ((neighbor.id, current) :: st.came_from) := by
            intro k hk
            unfold cfKeys at hk ⊢
            exact List.mem_cons_of_mem _ hk
          have hok' : ∀ i, NodeOk startId st.came_from i →
              NodeOk startId ((neighbor.id, current) :: st.came_from) i := by
            intro i hi
            rcases hi with h' | h'
            · exact Or.inl h'
            · exact Or.inr (hkeys i h')
          refine ih (fun e' he' => hsub e' (List.mem_cons_of_mem e he'))
            _ ?_ ?_ (hok' _ hcur) st' h
          · intro np hnp
            rcases List.mem_cons.mp hnp with rfl | hnp'
            · refine ⟨hadj, ?_⟩
              rcases hcur with h' | h'
              · exact Or.inl h'
              · exact Or.inr (hkeys _ h')
            · obtain ⟨h1, h2⟩ := hcf np hnp'
              refine ⟨h1, ?_⟩
              rcases h2 with h' | h'
              · exact Or.inl h'
              · exact Or.inr (hkeys _ h')
          · intro en hen
            rcases List.mem_append.mp hen with h' | h'
            · exact hok' _ (hacc en h')
            · rw [List.mem_singleton] at h'
              subst h'
              exact Or.inr (List.mem_cons_self _ _)
        · rw [if_neg himp] at h
          exact ih (fun e' he' => hsub e' (List.mem_cons_of_mem e he'))
            st hcf hacc hcur st' h

/-- Every result the `a_star` loop returns carries a path that is a
chain of open stored edges. -/
theorem astarLoop_path (g : Graph)
    (hid : ∀ i, ∀ h : i < g.nodes.length, (g.nodes.get ⟨i, h⟩).id = i)
    (criterion : String) (vt : Option VehicleType)
    (em : Option EventManager) (t : Option ℤ) (goal_pos : Position)
    (goalId startId : ℕ) :
    ∀ (fuel : ℕ) (st : AStarState),
      CameFromInv g startId st.came_from →
      (∀ en ∈ st.open_set, NodeOk startId st.came_from en.node.id) →
      ∀ r, astarLoop g criterion vt em t goal_pos goalId startId fuel st =
          some r →
        PathOpen g r.2.2 := by
  intro fuel
  induction fuel with
  | zero =>
    intro st _ _ r h
    simp [astarLoop] at h
  | succ n ih =>
    intro st hcf hinv r h
    rw [astarLoop] at h
    cases hp : popMinBy astarLt st.open_set with
    | none =>
      rw [hp] at h
      cases Option.some.inj h
      exact List.chain'_nil
    | some pr =>
      obtain ⟨entry, rest⟩ := pr
      rw [hp] at h
      obtain ⟨hmem, hrest⟩ := popMinBy_mem astarLt st.open_set entry rest hp
      by_cases hgoal : entry.node.id = goalId
      · simp only [if_pos hgoal] at h
        cases hrec : reconstructPath st.came_from startId
            (st.came_from.length + 1) entry.node [] with
        | none =>
          rw [hrec] at h
          exact absurd h (by simp)
        | some path =>
          rw [hrec] at h
          dsimp only at h
          cases Option.some.inj h
          exact reconstructPath_chain g startId st.came_from hcf
            (st.came_from.length + 1) entry.node []
            (by simpa using List.chain'_singleton _)
            (Or.inr (hinv entry hmem)) path hrec
      · simp only [if_neg hgoal] at h
        cases he : g.edges[entry.node.id]? with
        | none =>
          rw [he] at h
          exact absurd h (by simp)
        | some edges =>
          rw [he] at h
          dsimp only at h
          cases hs : astarScan g criterion vt em t goal_pos entry.node
              edges { st with open_set := rest } with
          | none =>
            rw [hs] at h
            exact absurd h (by simp)
          | some st2 =>
            rw [hs] at h
            obtain ⟨hcf', hinv'⟩ := astarScan_inv g hid criterion vt em t
              goal_pos entry.node startId edges
              (fun e hee => by
                unfold Graph.edgesFrom
                rw [List.getD_eq_getElem?_getD, he]
                exact hee)
              { st with open_set := rest } hcf
              (fun en hen => hinv en (hrest en hen))
              (hinv entry hmem) st2 hs
            exact ih st2 hcf' hinv' r h

/-- C5: every path returned by `uniform_cost_search`, `a_star` or
`greedy_bfs` on a well-formed graph is a chain of open stored edges (no
consecutive node pair is joined through an edge with `open == false` —
the algorithms skip closed edges); and after `close_road(u, v)` both
directions of that road are closed, so no returned path (all of which
are chains of open edges) traverses it in either direction. -/
theorem closed_road_avoidance :
    (∀ g : Graph, g.WellFormed →
      ∀ (start goal : Position) (vt : Option VehicleType) (fuel : ℕ)
        (r : SearchResult),
        uniform_cost_search start goal g vt fuel = some r →
        PathOpen g r.2.2) ∧
    (∀ g : Graph, g.WellFormed →
      ∀ (start goal : Position) (criterion : String)
        (em : Option EventManager) (t : Option ℤ)
        (vt : Option VehicleType) (fuel : ℕ) (r : SearchResult),
        a_star start goal g criterion em t vt fuel = some r →
        PathOpen g r.2.2) ∧
    (∀ g : Graph, g.WellFormed →
      ∀ (start goal : Position) (criterion : String)
        (em : Option EventManager) (t : Option ℤ)
        (vt : Option VehicleType) (fuel : ℕ) (r : SearchResult),
        greedy_bfs start goal g criterion em t vt fuel = some r →
        PathOpen g r.2.2) ∧
    (∀ (em : EventManager) (g : Graph) (u v : ℕ) (p : List ℕ),
      PathOpen ((em.close_road g u v).1) p →
      ∀ i a b, p[i]? = some a → p[i + 1]? = some b →
        ¬((a = u ∧ b = v) ∨ (a = v ∧ b = u))) := by
  refine ⟨?_, ?_, ?_, ?_⟩
  · intro g hwf start goal vt fuel r h
    unfold uniform_cost_search at h
    cases hstart : g.find_closest_node start with
    | none =>
      rw [hstart] at h
      exact absurd h (by simp)
    | some start_node =>
      cases hgoal : g.find_closest_node goal with
      | none =>
        rw [hstart, hgoal] at h
        exact absurd h (by simp)
      | some goal_node =>
        rw [hstart, hgoal] at h
        dsimp only at h
        refine ucsLoop_path g hwf.2.1 vt goal_node.id fuel _ 1 ∅ ?_ r h
        intro en hen
        rw [List.mem_singleton] at hen
        subst hen
        exact ⟨List.chain'_singleton _, by simp⟩
  · intro g hwf start goal criterion em t vt fuel r h
    unfold a_star at h
    cases hstart : g.find_closest_node start with
    | none =>
      rw [hstart] at h
      exact absurd h (by simp)
    | some start_node =>
      cases hgoal : g.find_closest_node goal with
      | none =>
        rw [hstart, hgoal] at h
        exact absurd h (by simp)
      | some goal_node =>
        rw [hstart, hgoal] at h
        dsimp only at h
        refine astarLoop_path g hwf.2.1 criterion vt em t goal_node.position
          goal_node.id start_node.id fuel _ ?_ ?_ r h
        · intro np hnp
          exact absurd hnp (List.not_mem_nil np)
        · intro en hen
          rw [List.mem_singleton] at hen
          subst hen
          exact Or.inl rfl
  · intro g hwf start goal criterion em t vt fuel r h
    unfold greedy_bfs at h
    cases hstart : g.find_closest_node start with
    | none =>
      rw [hstart] at h
      exact absurd h (by simp)
    | some start_node =>
      cases hgoal : g.find_closest_node goal with
      | none =>
        rw [hstart, hgoal] at h
        exact absurd h (by simp)
      | some goal_node =>
        rw [hstart, hgoal] at h
        dsimp only at h
        refine greedyLoop_path g hwf.2.1 criterion vt em t
          goal_node.position goal_node.id start_node.id fuel _ 1 ∅ []
          ?_ ?_ r h
        · intro np hnp
          exact absurd hnp (List.not_mem_nil np)
        · intro en hen
          rw [List.mem_singleton] at hen
          subst hen
          exact Or.inl rfl
  · intro em g u v p hp i a b ha hb habs
    have hadj := pathOpen_pairs _ p hp i a b ha hb
    rcases habs with ⟨rfl, rfl⟩ | ⟨rfl, rfl⟩
    · exact (close_road_closes em g a b).2.2.1 hadj
    · exact (close_road_closes em g b a).2.2.2 hadj

/-- Witness for `closed_road_avoidance`: on the 3-node graph with the
extra `0↔2` edge, after closing road `0↔1`, `uniform_cost_search` routes
`0 → 2` directly and its returned path `[0, 2]` is open and never
traverses the closed road in either direction. -/
theorem closed_road_avoidance_witness :
    PathOpen closedScenario [0, 2] ∧
    ∀ i a b, (([0, 2] : List ℕ))[i]? = some a →
      (([0, 2] : List ℕ))[i + 1]? = some b →
      ¬((a = 0 ∧ b = 1) ∨ (a = 1 ∧ b = 0)) := by
  constructor
  · exact closed_road_avoidance.1 closedScenario (by decide)
      ⟨0, 0⟩ ⟨2, 0⟩ none 10 ((150 : ℚ), (15 : ℚ), [0, 2]) (by decide)
  · exact closed_road_avoidance.2.2.2 EventManager.init scenarioGraphPlus
      0 1 [0, 2]
      (List.chain'_cons.mpr ⟨by decide, List.chain'_singleton _⟩)

/-! ## C4 — no-path result convention -/

/-- `popMinBy` fails only on the empty list. -/
theorem popMinBy_none (lt : α → α → Bool) :
    ∀ l : List α, popMinBy lt l = none → l = [] := by
  intro l h
  cases l with
  | nil => rfl
  | cons a as =>
    exfalso
    rw [popMinBy] at h
    cases hp : popMinBy lt as with
    | none =>
      rw [hp] at h
      exact absurd h (by simp)
    | some pr =>
      obtain ⟨m', rest'⟩ := pr
      rw [hp] at h
      dsimp only at h
      by_cases hlt : lt m' a = true
      · rw [if_pos hlt] at h
        exact absurd h (by simp)
      · rw [if_neg hlt] at h
        exact absurd h (by simp)

/-- `popMinBy` removes exactly one occurrence: the input is a
permutation of the popped element consed onto the rest. -/
theorem popMinBy_perm (lt : α → α → Bool) :
    ∀ (l : List α) (m : α) (rest : List α),
      popMinBy lt l = some (m, rest) → l.Perm (m :: rest) := by
  intro l
  induction l with
  | nil =>
    intro m rest h
    exact absurd h (by simp [popMinBy])
  | cons a as ih =>
    intro m rest h
    rw [popMinBy] at h
    cases hp : popMinBy lt as with
    | none =>
      rw [hp] at h
      have has : as = [] := popMinBy_none lt as hp
      subst has
      simp only [Option.some.injEq, Prod.mk.injEq] at h
      obtain ⟨rfl, rfl⟩ := h
      exact List.Perm.refl _
    | some pr =>
      obtain ⟨m', rest'⟩ := pr
      rw [hp] at h
      dsimp only at h
      by_cases hlt : lt m' a = true
      · rw [if_pos hlt] at h
        simp only [Option.some.injEq, Prod.mk.injEq] at h
        obtain ⟨rfl, rfl⟩ := h
        exact ((ih m' rest' hp).cons a).trans (List.Perm.swap m' a rest')
      · rw [if_neg hlt] at h
        simp only [Option.some.injEq, Prod.mk.injEq] at h
        obtain ⟨rfl, rfl⟩ := h
        exact List.Perm.refl _

/-- Every member of a list of naturals is at most its sum. -/
theorem nat_le_sum : ∀ (L : List ℕ), ∀ x ∈ L, x ≤ L.sum := by
  intro L
  induction L with
  | nil =>
    intro x hx
    exact absurd hx (List.not_mem_nil x)
  | cons a as ih =>
    intro x hx
    rw [List.sum_cons]
    rcases List.mem_cons.mp hx with rfl | hx'
    · exact Nat.le_add_right x as.sum
    · exact (ih x hx').trans (Nat.le_add_left as.sum a)

/-- Every adjacency list is no longer than the total edge count. -/
theorem adjLen_le (g : Graph) (i : ℕ) (l : List Edge)
    (h : g.edges[i]? = some l) : l.length ≤ totalEdges g := by
  obtain ⟨hlt, heq⟩ := List.getElem?_eq_some_iff.mp h
  have hmem : l ∈ g.edges := heq ▸ List.getElem_mem hlt
  exact nat_le_sum _ _ (List.mem_map_of_mem List.length hmem)

/-- The node returned by the closest-node fold is the accumulator's or a
member of the scanned list. -/
theorem closest_fold_mem (position : Position) :
    ∀ (l : List Node) (acc : Option (Node × ℚ)) (n : Node),
      ((l.foldl
        (fun (acc : Option (Node × ℚ)) node =>
          let dist := node.position.sq_distance_to position
          match acc with
          | none => some (node, dist)
          | some (_, best) => if dist < best then some (node, dist) else acc)
        acc).map Prod.fst) = some n →
      acc.map Prod.fst = some n ∨ n ∈ l := by
  intro l
  induction l with
  | nil =>
    intro acc n h
    exact Or.inl h
  | cons a as ih =>
    intro acc n h
    rw [List.foldl_cons] at h
    rcases ih _ n h with h' | h'
    · cases acc with
      | none =>
        dsimp only at h'
        cases Option.some.inj h'
        exact Or.inr (List.mem_cons_self a as)
      | some pr =>
        obtain ⟨m, best⟩ := pr
        dsimp only at h'
        by_cases hd : a.position.sq_distance_to position < best
        · rw [if_pos hd] at h'
          cases Option.some.inj h'
          exact Or.inr (List.mem_cons_self a as)
        · rw [if_neg hd] at h'
          exact Or.inl h'
    · exact Or.inr (List.mem_cons_of_mem a h')

/-- `find_closest_node` returns a stored node. -/
theorem find_closest_node_mem (g : Graph) (position : Position) (n : Node)
    (h : g.find_closest_node position = some n) : n ∈ g.nodes := by
  unfold Graph.find_closest_node at h
  rcases closest_fold_mem position g.nodes none n h with h' | h'
  · exact absurd h' (by simp)
  · exact h'

/-- On a well-formed graph, every stored node's id indexes a node. -/
theorem id_lt_of_mem (g : Graph)
    (hid : ∀ i, ∀ h : i < g.nodes.length, (g.nodes.get ⟨i, h⟩).id = i)
    (n : Node) (hmem : n ∈ g.nodes) : n.id < g.nodes.length := by
  obtain ⟨i, hi⟩ := List.mem_iff_get.mp hmem
  rw [← hi, hid i.1 i.2]
  exact i.2

/-- Visiting a fresh valid node decreases the unvisited count by one. -/
theorem unvis_insert (g : Graph) (visited : Finset ℕ) (x : ℕ)
    (hx : x < g.nodes.length) (hnx : x ∉ visited) :
    unvisCard g (insert x visited) + 1 = unvisCard g visited := by
  unfold unvisCard
  have hset : (Finset.range g.nodes.length).filter
      (fun i => i ∉ insert x visited) =
      ((Finset.range g.nodes.length).filter (fun i => i ∉ visited)).erase
        x := by
    ext y
    simp only [Finset.mem_filter, Finset.mem_erase, Finset.mem_insert,
      Finset.mem_range]
    constructor
    · rintro ⟨hy, hyv⟩
      push_neg at hyv
      exact ⟨hyv.1, hy, hyv.2⟩
    · rintro ⟨hyx, hy, hyv⟩
      refine ⟨hy, ?_⟩
      intro hc
      rcases hc with hc | hc
      · exact hyx hc
      · exact hyv hc
  rw [hset]
  have hxmem : x ∈ (Finset.range g.nodes.length).filter
      (fun i => i ∉ visited) :=
    Finset.mem_filter.mpr ⟨Finset.mem_range.mpr hx, hnx⟩
  rw [Finset.card_erase_of_mem hxmem]
  have hpos : 0 < ((Finset.range g.nodes.length).filter
      (fun i => i ∉ visited)).card :=
    Finset.card_pos.mpr ⟨x, hxmem⟩
  omega

/-- On a well-formed graph the neighbour scan of `uniform_cost_search`
never raises, grows the frontier by at most the scanned edges, and keeps
every frontier node valid and reachable from the start. -/
theorem ucsScan_total (g : Graph)
    (hid : ∀ i, ∀ h : i < g.nodes.length, (g.nodes.get ⟨i, h⟩).id = i)
    (vt : Option VehicleType) (visited : Finset ℕ) (cost : ℚ)
    (path : List ℕ) (startId cid : ℕ) (hreach : Reaches g startId cid) :
    ∀ l : List Edge,
      (∀ e ∈ l, e ∈ g.edgesFrom cid ∧ e.target < g.nodes.length) →
    ∀ (counter : ℕ) (acc : List UcsEntry),
      (∀ en ∈ acc, en.node.id < g.nodes.length ∧
        Reaches g startId en.node.id) →
      ∃ r, ucsScan g vt visited cost path l counter acc = some r ∧
        r.2.length ≤ acc.length + l.length ∧
        ∀ en ∈ r.2, en.node.id < g.nodes.length ∧
          Reaches g startId en.node.id := by
  intro l
  induction l with
  | nil =>
    intro _ counter acc hacc
    exact ⟨(counter, acc), rfl, by simp, hacc⟩
  | cons e es ih =>
    intro hl counter acc hacc
    rw [ucsScan]
    by_cases hopen : e.isOpen = false
    · rw [if_pos hopen]
      obtain ⟨r, hr, hrlen, hprops⟩ :=
        ih (fun e' he' => hl e' (List.mem_cons_of_mem e he'))
          counter acc hacc
      refine ⟨r, hr, ?_, hprops⟩
      simp only [List.length_cons]
      omega
    · rw [if_neg hopen]
      have htgt := (hl e (List.mem_cons_self e es)).2
      have hn : g.get_node e.target =
          some (g.nodes.get ⟨e.target, htgt⟩) := by
        unfold Graph.get_node
        exact List.getElem?_eq_getElem htgt
      rw [hn]
      dsimp only
      by_cases hv : (g.nodes.get ⟨e.target, htgt⟩).id ∈ visited
      · rw [if_pos hv]
        obtain ⟨r, hr, hrlen, hprops⟩ :=
          ih (fun e' he' => hl e' (List.mem_cons_of_mem e he'))
            counter acc hacc
        refine ⟨r, hr, ?_, hprops⟩
        simp only [List.length_cons]
        omega
      · rw [if_neg hv]
        have hopen' : e.isOpen = true := by
          revert hopen
          cases e.isOpen <;> simp
        have hnid : (g.nodes.get ⟨e.target, htgt⟩).id = e.target :=
          hid e.target htgt
        have hadj : openAdj g cid (g.nodes.get ⟨e.target, htgt⟩).id :=
          ⟨e, (hl e (List.mem_cons_self e es)).1, hopen', hnid.symm⟩
        have hacc' : ∀ en ∈ acc ++
            [⟨cost + calculate_edge_cost e.distance e.time vt,
              counter, g.nodes.get ⟨e.target, htgt⟩,
              path ++ [(g.nodes.get ⟨e.target, htgt⟩).id]⟩],
            en.node.id < g.nodes.length ∧
              Reaches g startId en.node.id := by
          intro en hen
          rcases List.mem_append.mp hen with h' | h'
          · exact hacc en h'
          · rw [List.mem_singleton] at h'
            subst h'
            exact ⟨by rw [hnid]; exact htgt,
              Relation.ReflTransGen.tail hreach hadj⟩
        obtain ⟨r, hr, hrlen, hprops⟩ :=
          ih (fun e' he' => hl e' (List.mem_cons_of_mem e he'))
            (counter + 1)
            (acc ++ [⟨cost + calculate_edge_cost e.distance e.time vt,
              counter, g.nodes.get ⟨e.target, htgt⟩,
              path ++ [(g.nodes.get ⟨e.target, htgt⟩).id]⟩])
            hacc'
        refine ⟨r, hr, ?_, hprops⟩
        simp only [List.length_append, List.length_cons,
          List.length_nil] at hrlen ⊢
        omega

/-- On a well-formed graph with an unreachable goal, the
`uniform_cost_search` loop drains the frontier and returns the no-path
triple once the fuel exceeds the termination measure. -/
theorem ucsLoop_unreachable (g : Graph) (hwf : g.WellFormed)
    (vt : Option VehicleType) (goalId startId : ℕ)
    (hunreach : ¬ Reaches g startId goalId) :
    ∀ (fuel : ℕ) (open_set : List UcsEntry) (counter : ℕ)
      (visited : Finset ℕ),
      (∀ en ∈ open_set, en.node.id < g.nodes.length ∧
        Reaches g startId en.node.id) →
      open_set.length + (totalEdges g + 1) * unvisCard g visited < fuel →
      ucsLoop g vt goalId fuel open_set counter visited =
        some (⊤, ⊤, []) := by
  intro fuel
  induction fuel with
  | zero =>
    intro o c v _ hm
    exact absurd hm (Nat.not_lt_zero _)
  | succ n ih =>
    intro o c v hinv hm
    rw [ucsLoop]
    cases hp : popMinBy ucsLt o with
    | none => rfl
    | some pr =>
      obtain ⟨entry, rest⟩ := pr
      dsimp only
      have hperm := popMinBy_perm ucsLt o entry rest hp
      have holen : o.length = rest.length + 1 := by
        simpa using hperm.length_eq
      have hmem : entry ∈ o := hperm.mem_iff.mpr (List.mem_cons_self _ _)
      have hrest : ∀ x ∈ rest, x ∈ o :=
        fun x hx => hperm.mem_iff.mpr (List.mem_cons_of_mem _ hx)
      obtain ⟨hidlt, hreach⟩ := hinv entry hmem
      have hgoal : ¬ entry.node.id = goalId :=
        fun h => hunreach (h ▸ hreach)
      rw [if_neg hgoal]
      by_cases hv : entry.node.id ∈ v
      · rw [if_pos hv]
        refine ih rest c v (fun en hen => hinv en (hrest en hen)) ?_
        omega
      · rw [if_neg hv]
        have helt : entry.node.id < g.edges.length := by
          rw [hwf.1]
          exact hidlt
        have hesome : g.edges[entry.node.id]? =
            some (g.edges.get ⟨entry.node.id, helt⟩) :=
          List.getElem?_eq_getElem helt
        rw [hesome]
        dsimp only
        obtain ⟨r2, hscan, hlen2, hprops⟩ :=
          ucsScan_total g hwf.2.1 vt (insert entry.node.id v) entry.cost
            entry.path startId entry.node.id hreach
            (g.edges.get ⟨entry.node.id, helt⟩)
            (fun e he => ⟨by
                unfold Graph.edgesFrom
                rw [List.getD_eq_getElem?_getD, hesome]
                exact he,
              hwf.2.2 _ (List.getElem_mem helt) e he⟩)
            c rest (fun en hen => hinv en (hrest en hen))
        rw [hscan]
        refine ih r2.2 r2.1 (insert entry.node.id v) hprops ?_
        have hE : (g.edges.get ⟨entry.node.id, helt⟩).length ≤ totalEdges g :=
          adjLen_le g entry.node.id _ hesome
        have hU : unvisCard g (insert entry.node.id v) + 1 =
            unvisCard g v := unvis_insert g v entry.node.id hidlt hv
        rw [← hU, Nat.mul_succ] at hm
        omega

/-- On a well-formed graph the neighbour scan of `greedy_bfs` never
raises; it appends only fresh (unvisited), valid, reachable entries. -/
theorem greedyScan_total (g : Graph)
    (hid : ∀ i, ∀ h : i < g.nodes.length, (g.nodes.get ⟨i, h⟩).id = i)
    (criterion : String) (vt : Option VehicleType)
    (em : Option EventManager) (t : Option ℤ) (goal_pos : Position)
    (current : Node) (startId : ℕ)
    (hreach : Reaches g startId current.id) (visited : Finset ℕ) :
    ∀ l : List Edge,
      (∀ e ∈ l, e ∈ g.edgesFrom current.id ∧ e.target < g.nodes.length) →
    ∀ (counter : ℕ) (acc : List GreedyEntry) (cf : List (ℕ × Node)),
      ∃ r extra, greedyScan g criterion vt em t goal_pos current visited l
          counter acc cf = some r ∧
        r.2.1 = acc ++ extra ∧
        ∀ en ∈ extra, en.node.id < g.nodes.length ∧
          Reaches g startId en.node.id ∧ en.node.id ∉ visited := by
  intro l
  induction l with
  | nil =>
    intro _ counter acc cf
    refine ⟨(counter, acc, cf), [], rfl, (List.append_nil acc).symm, ?_⟩
    intro en hen
    exact absurd hen (List.not_mem_nil en)
  | cons e es ih =>
    intro hl counter acc cf
    rw [greedyScan]
    by_cases hopen : e.isOpen = false
    · rw [if_pos hopen]
      exact ih (fun e' he' => hl e' (List.mem_cons_of_mem e he'))
        counter acc cf
    · rw [if_neg hopen]
      have htgt := (hl e (List.mem_cons_self e es)).2
      have hn : g.get_node e.target =
          some (g.nodes.get ⟨e.target, htgt⟩) := by
        unfold Graph.get_node
        exact List.getElem?_eq_getElem htgt
      rw [hn]
      dsimp only
      by_cases hv : (g.nodes.get ⟨e.target, htgt⟩).id ∈ visited
      · rw [if_pos hv]
        exact ih (fun e' he' => hl e' (List.mem_cons_of_mem e he'))
          counter acc cf
      · rw [if_neg hv]
        have hopen' : e.isOpen = true := by
          revert hopen
          cases e.isOpen <;> simp
        have hnid : (g.nodes.get ⟨e.target, htgt⟩).id = e.target :=
          hid e.target htgt
        have hadj : openAdj g current.id (g.nodes.get ⟨e.target, htgt⟩).id :=
          ⟨e, (hl e (List.mem_cons_self e es)).1, hopen', hnid.symm⟩
        obtain ⟨r, extra, hr, hr21, hextra⟩ :=
          ih (fun e' he' => hl e' (List.mem_cons_of_mem e he'))
            (counter + 1)
            (acc ++ [⟨calculate_heuristic
              (g.nodes.get ⟨e.target, htgt⟩).position goal_pos criterion
              vt em (some (g.nodes.get ⟨e.target, htgt⟩).id) t,
              counter, g.nodes.get ⟨e.target, htgt⟩⟩])
            ((((g.nodes.get ⟨e.target, htgt⟩).id), current) :: cf)
        refine ⟨r, ⟨calculate_heuristic
            (g.nodes.get ⟨e.target, htgt⟩).position goal_pos criterion
            vt em (some (g.nodes.get ⟨e.target, htgt⟩).id) t,
            counter, g.nodes.get ⟨e.target, htgt⟩⟩ :: extra,
          hr, ?_, ?_⟩
        · rw [hr21]
          simp
        · intro en hen
          rcases List.mem_cons.mp hen with rfl | hen'
          · exact ⟨by rw [hnid]; exact htgt,
              Relation.ReflTransGen.tail hreach hadj, hv⟩
          · exact hextra en hen'

/-- On a well-formed graph with an unreachable goal, the `greedy_bfs`
loop drains the frontier for some fuel: each iteration either visits a
fresh node or consumes a stale duplicate without creating new ones. -/
theorem greedyLoop_unreachable (g : Graph) (hwf : g.WellFormed)
    (criterion : String) (vt : Option VehicleType)
    (em : Option EventManager) (t : Option ℤ) (goal_pos : Position)
    (goalId startId : ℕ) (hunreach : ¬ Reaches g startId goalId) :
    ∀ U S : ℕ,
    ∀ (open_set : List GreedyEntry) (counter : ℕ) (visited : Finset ℕ)
      (cf : List (ℕ × Node)),
      (∀ en ∈ open_set, en.node.id < g.nodes.length ∧
        Reaches g startId en.node.id) →
      unvisCard g visited = U →
      staleLen visited open_set = S →
      ∃ fuel, greedyLoop g criterion vt em t goal_pos goalId startId fuel
        open_set counter visited cf = some (⊤, ⊤, []) := by
  intro U
  induction U using Nat.strong_induction_on with
  | _ U ihU =>
    intro S
    induction S using Nat.strong_induction_on with
    | _ S ihS =>
      intro o c v cf hinv hU hS
      cases hp : popMinBy greedyLt o with
      | none =>
        refine ⟨1, ?_⟩
        rw [greedyLoop, hp]
      | some pr =>
        obtain ⟨entry, rest⟩ := pr
        have hperm := popMinBy_perm greedyLt o entry rest hp
        have hmem : entry ∈ o := hperm.mem_iff.mpr (List.mem_cons_self _ _)
        obtain ⟨hidlt, hreach⟩ := hinv entry hmem
        have hgoal : ¬ entry.node.id = goalId :=
          fun h => hunreach (h ▸ hreach)
        have helt : entry.node.id < g.edges.length := by
          rw [hwf.1]
          exact hidlt
        have hesome : g.edges[entry.node.id]? =
            some (g.edges.get ⟨entry.node.id, helt⟩) :=
          List.getElem?_eq_getElem helt
        obtain ⟨r2, extra, hscan, hr21, hextra⟩ :=
          greedyScan_total g hwf.2.1 criterion vt em t goal_pos entry.node
            startId hreach (insert entry.node.id v)
            (g.edges.get ⟨entry.node.id, helt⟩)
            (fun e he => ⟨by
                unfold Graph.edgesFrom
                rw [List.getD_eq_getElem?_getD, hesome]
                exact he,
              hwf.2.2 _ (List.getElem_mem helt) e he⟩)
            c rest cf
        have hinv' : ∀ en ∈ r2.2.1, en.node.id < g.nodes.length ∧
            Reaches g startId en.node.id := by
          intro en hen
          rw [hr21] at hen
          rcases List.mem_append.mp hen with h' | h'
          · exact hinv en (hperm.mem_iff.mpr (List.mem_cons_of_mem _ h'))
          · exact ⟨(hextra en h').1, (hextra en h').2.1⟩
        by_cases hv : entry.node.id ∈ v
        · -- stale pop: the inner measure strictly decreases
          have hins : insert entry.node.id v = v :=
            Finset.insert_eq_self.mpr hv
          have hSrest : staleLen v o = staleLen v rest + 1 := by
            unfold staleLen
            rw [(hperm.filter _).length_eq,
              List.filter_cons_of_pos (by simpa using hv)]
            rfl
          have hSnew : staleLen (insert entry.node.id v) r2.2.1 =
              staleLen v rest := by
            rw [hins, hr21]
            unfold staleLen
            rw [List.filter_append, List.length_append]
            have hzero : extra.filter
                (fun en => decide (en.node.id ∈ v)) = [] := by
              rw [List.filter_eq_nil]
              intro en hen
              have := (hextra en hen).2.2
              rw [hins] at this
              simpa using this
            rw [hzero]
            rfl
          obtain ⟨fuel, hfuel⟩ := ihS (staleLen v rest) (by omega)
            r2.2.1 r2.1 (insert entry.node.id v) r2.2.2 hinv'
            (by rw [hins]; exact hU) hSnew
          refine ⟨fuel + 1, ?_⟩
          rw [greedyLoop, hp]
          dsimp only
          rw [if_neg hgoal, hesome]
          dsimp only
          rw [hscan]
          exact hfuel
        · -- fresh pop: the outer measure strictly decreases
          have hU' : unvisCard g (insert entry.node.id v) + 1 =
              unvisCard g v := unvis_insert g v entry.node.id hidlt hv
          obtain ⟨fuel, hfuel⟩ := ihU
            (unvisCard g (insert entry.node.id v)) (by omega)
            (staleLen (insert entry.node.id v) r2.2.1)
            r2.2.1 r2.1 (insert entry.node.id v) r2.2.2 hinv' rfl rfl
          refine ⟨fuel + 1, ?_⟩
          rw [greedyLoop, hp]
          dsimp only
          rw [if_neg hgoal, hesome]
          dsimp only
          rw [hscan]
          exact hfuel

/-- `QD` is closed under addition. -/
theorem QD_add {D : ℕ} {a b : ℚ} (ha : QD D a) (hb : QD D b) :
    QD D (a + b) := by
  obtain ⟨na, hna⟩ := ha
  obtain ⟨nb, hnb⟩ := hb
  refine ⟨na + nb, ?_⟩
  rw [add_mul, hna, hnb]
  push_cast
  ring

/-- `0` is a natural multiple of `1 / D`. -/
theorem QD_zero (D : ℕ) : QD D 0 :=
  ⟨0, by norm_num⟩

/-- Strict comparison of `QD` values transfers to their numerators. -/
theorem QD_lt_num {D : ℕ} (hD : 0 < D) {a b : ℚ} {na nb : ℕ}
    (ha : a * (D : ℚ) = (na : ℚ)) (hb : b * (D : ℚ) = (nb : ℚ))
    (hab : a < b) : na < nb := by
  have hDq : (0 : ℚ) < (D : ℚ) := by exact_mod_cast hD
  have : (na : ℚ) < (nb : ℚ) := by
    rw [← ha, ← hb]
    exact mul_lt_mul_of_pos_right hab hDq
  exact_mod_cast this

/-- The common denominator of the edge costs is positive. -/
theorem costDen_pos (g : Graph) (vt : Option VehicleType) :
    0 < costDen g vt := by
  unfold costDen
  apply List.prod_pos
  intro a ha
  obtain ⟨e, _, rfl⟩ := List.mem_map.mp ha
  exact (calculate_edge_cost e.distance e.time vt).pos

/-- Every nonnegative stored edge cost is a natural multiple of
`1 / costDen`. -/
theorem cost_QD (g : Graph) (vt : Option VehicleType) (e : Edge)
    (hmem : e ∈ g.edges.flatten)
    (h0 : 0 ≤ calculate_edge_cost e.distance e.time vt) :
    QD (costDen g vt) (calculate_edge_cost e.distance e.time vt) := by
  set q := calculate_edge_cost e.distance e.time vt with hq_def
  have hdvd : q.den ∣ costDen g vt := by
    unfold costDen
    exact List.dvd_prod (List.mem_map_of_mem _ hmem)
  obtain ⟨c, hc⟩ := hdvd
  refine ⟨q.num.toNat * c, ?_⟩
  have hden : ((q.den : ℚ)) ≠ 0 := by
    exact_mod_cast q.den_nz
  have hqden : q * (q.den : ℚ) = (q.num : ℚ) := by
    have h1 : (q.num : ℚ) / (q.den : ℚ) * (q.den : ℚ) = (q.num : ℚ) :=
      div_mul_cancel₀ _ hden
    rw [Rat.num_div_den q] at h1
    exact h1
  have hnum : ((q.num.toNat : ℤ) : ℚ) = ((q.num : ℤ) : ℚ) := by
    rw [Int.toNat_of_nonneg (Rat.num_nonneg.mpr h0)]
  rw [hc]
  push_cast
  calc q * ((q.den : ℚ) * (c : ℚ)) = q * (q.den : ℚ) * (c : ℚ) := by ring
    _ = (q.num : ℚ) * (c : ℚ) := by rw [hqden]
    _ = ((q.num.toNat : ℤ) : ℚ) * (c : ℚ) := by rw [hnum]
    _ = ((q.num.toNat : ℕ) : ℚ) * (c : ℚ) := by push_cast; ring

/-- `LexLtN` is transitive. -/
theorem LexLtN_trans {a b c : ℕ × ℕ} (h1 : LexLtN a b) (h2 : LexLtN b c) :
    LexLtN a c := by
  rcases h1 with h1 | ⟨h1e, h1l⟩
  · rcases h2 with h2 | ⟨h2e, h2l⟩
    · exact Or.inl (h1.trans h2)
    · exact Or.inl (h2e ▸ h1)
  · rcases h2 with h2 | ⟨h2e, h2l⟩
    · exact Or.inl (h1e ▸ h2)
    · exact Or.inr ⟨h1e.trans h2e, h1l.trans h2l⟩

/-- Relaxing a previously infinite `g_score` entry decreases the
count of infinite entries by one. -/
theorem topsCard_update_of_top (N : ℕ) (gs : ℕ → WithTop ℚ) (k : ℕ)
    (hk : k < N) (hold : gs k = ⊤) (v : WithTop ℚ) (hv : v ≠ ⊤) :
    topsCard N (gsUpdate gs k v) + 1 = topsCard N gs := by
  unfold topsCard
  have hset : (Finset.range N).filter (fun i => gsUpdate gs k v i = ⊤) =
      ((Finset.range N).filter (fun i => gs i = ⊤)).erase k := by
    ext y
    simp only [Finset.mem_filter, Finset.mem_erase, Finset.mem_range,
      gsUpdate]
    constructor
    · rintro ⟨hy, hyv⟩
      by_cases hyk : y = k
      · rw [if_pos hyk] at hyv
        exact absurd hyv hv
      · rw [if_neg hyk] at hyv
        exact ⟨hyk, hy, hyv⟩
    · rintro ⟨hyk, hy, hyv⟩
      rw [if_neg hyk]
      exact ⟨hy, hyv⟩
  rw [hset]
  have hkmem : k ∈ (Finset.range N).filter (fun i => gs i = ⊤) :=
    Finset.mem_filter.mpr ⟨Finset.mem_range.mpr hk, hold⟩
  rw [Finset.card_erase_of_mem hkmem]
  have hpos : 0 < ((Finset.range N).filter (fun i => gs i = ⊤)).card :=
    Finset.card_pos.mpr ⟨k, hkmem⟩
  omega

/-- Relaxing an already finite `g_score` entry to a finite value keeps
the count of infinite entries unchanged. -/
theorem topsCard_update_of_fin (N : ℕ) (gs : ℕ → WithTop ℚ) (k : ℕ)
    (hold : gs k ≠ ⊤) (v : WithTop ℚ) (hv : v ≠ ⊤) :
    topsCard N (gsUpdate gs k v) = topsCard N gs := by
  unfold topsCard
  congr 1
  ext y
  simp only [Finset.mem_filter, Finset.mem_range, gsUpdate]
  by_cases hyk : y = k
  · subst hyk
    rw [if_pos rfl]
    constructor
    · rintro ⟨hy, hyv⟩
      exact absurd hyv hv
    · rintro ⟨hy, hyv⟩
      exact absurd hyv hold
  · rw [if_neg hyk]

/-- Strictly decreasing one scaled numerator strictly decreases their
sum. -/
theorem numSum_update_lt (N D : ℕ) (gs : ℕ → WithTop ℚ) (k : ℕ)
    (hk : k < N) (v : WithTop ℚ)
    (hlt : numAt D v < numAt D (gs k)) :
    numSum N D (gsUpdate gs k v) < numSum N D gs := by
  unfold numSum
  have hmem : k ∈ Finset.range N := Finset.mem_range.mpr hk
  rw [← Finset.add_sum_erase _ (fun i => numAt D (gsUpdate gs k v i)) hmem,
    ← Finset.add_sum_erase _ (fun i => numAt D (gs i)) hmem]
  have hsame : ((Finset.range N).erase k).sum
      (fun i => numAt D (gsUpdate gs k v i)) =
      ((Finset.range N).erase k).sum (fun i => numAt D (gs i)) := by
    refine Finset.sum_congr rfl ?_
    intro i hi
    have hik : i ≠ k := (Finset.mem_erase.mp hi).1
    unfold gsUpdate
    rw [if_neg hik]
  rw [hsame]
  have hupd : gsUpdate gs k v k = v := by
    unfold gsUpdate
    rw [if_pos rfl]
  rw [hupd]
  omega

/-- Scaled numerator of a finite value with a known numerator. -/
theorem numAt_coe (D : ℕ) (v : ℚ) (n : ℕ) (hv : v * (D : ℚ) = (n : ℚ)) :
    numAt D ((v : WithTop ℚ)) = n := by
  unfold numAt
  rw [WithTop.untop'_coe, hv, Rat.num_natCast, Int.toNat_natCast]

/-- On a well-formed graph with nonnegative `QD` edge costs, the
relaxation scan of `a_star` never raises, keeps the frontier valid and
reachable, keeps all finite `g_score` values natural multiples of
`1 / D`, and either changes nothing or strictly decreases the
`(infinite-count, numerator-sum)` measure. -/
theorem astarScan_total (g : Graph)
    (hid : ∀ i, ∀ h : i < g.nodes.length, (g.nodes.get ⟨i, h⟩).id = i)
    (criterion : String) (vt : Option VehicleType)
    (em : Option EventManager) (t : Option ℤ) (goal_pos : Position)
    (current : Node) (startId : ℕ)
    (hreach : Reaches g startId current.id) (D : ℕ) (hDpos : 0 < D)
    (hD : ∀ e ∈ g.edges.flatten,
      QD D (calculate_edge_cost e.distance e.time vt)) :
    ∀ l : List Edge,
      (∀ e ∈ l, e ∈ g.edgesFrom current.id ∧
        e.target < g.nodes.length ∧ e ∈ g.edges.flatten) →
    ∀ st : AStarState,
      (∀ en ∈ st.open_set, en.node.id < g.nodes.length ∧
        Reaches g startId en.node.id) →
      GsOk D st.g_score →
      ∃ st', astarScan g criterion vt em t goal_pos current l st =
          some st' ∧
        (∀ en ∈ st'.open_set, en.node.id < g.nodes.length ∧
          Reaches g startId en.node.id) ∧
        GsOk D st'.g_score ∧
        ((st'.open_set = st.open_set ∧ st'.g_score = st.g_score) ∨
          LexLtN (topsCard g.nodes.length st'.g_score,
              numSum g.nodes.length D st'.g_score)
            (topsCard g.nodes.length st.g_score,
              numSum g.nodes.length D st.g_score)) := by
  intro l
  induction l with
  | nil =>
    intro _ st hacc hgs
    exact ⟨st, rfl, hacc, hgs, Or.inl ⟨rfl, rfl⟩⟩
  | cons e es ih =>
    intro hl st hacc hgs
    rw [astarScan]
    by_cases hopen : e.isOpen = false
    · rw [if_pos hopen]
      exact ih (fun e' he' => hl e' (List.mem_cons_of_mem e he')) st hacc hgs
    · rw [if_neg hopen]
      have htgt := (hl e (List.mem_cons_self e es)).2.1
      have hn : g.get_node e.target =
          some (g.nodes.get ⟨e.target, htgt⟩) := by
        unfold Graph.get_node
        exact List.getElem?_eq_getElem htgt
      rw [hn]
      dsimp only
      by_cases himp : st.g_score current.id +
          ((calculate_edge_cost e.distance e.time vt : ℚ) : WithTop ℚ) <
          st.g_score (g.nodes.get ⟨e.target, htgt⟩).id
      · rw [if_pos himp]
        have hopen' : e.isOpen = true := by
          revert hopen
          cases e.isOpen <;> simp
        have hnid : (g.nodes.get ⟨e.target, htgt⟩).id = e.target :=
          hid e.target htgt
        have hadj : openAdj g current.id
            (g.nodes.get ⟨e.target, htgt⟩).id :=
          ⟨e, (hl e (List.mem_cons_self e es)).1, hopen', hnid.symm⟩
        -- the tentative value is finite, so the current score is finite
        have hcurfin : st.g_score current.id ≠ ⊤ := by
          intro hc
          rw [hc, top_add] at himp
          exact absurd himp not_top_lt
        obtain ⟨v, hv, hvQ⟩ := (hgs current.id).resolve_left hcurfin
        have hcost := hD e (hl e (List.mem_cons_self e es)).2.2
        have htent : st.g_score current.id +
            ((calculate_edge_cost e.distance e.time vt : ℚ) : WithTop ℚ) =
            (((v + calculate_edge_cost e.distance e.time vt : ℚ)) :
              WithTop ℚ) := by
          rw [hv, ← WithTop.coe_add]
        have htentQ : QD D (v + calculate_edge_cost e.distance e.time vt) :=
          QD_add hvQ hcost
        -- invariants for the extended state
        have hacc2 : ∀ en ∈ st.open_set ++
            [⟨st.g_score current.id +
                ((calculate_edge_cost e.distance e.time vt : ℚ) :
                  WithTop ℚ) +
                ((calculate_heuristic
                  (g.nodes.get ⟨e.target, htgt⟩).position goal_pos
                  criterion vt em
                  (some (g.nodes.get ⟨e.target, htgt⟩).id) t : ℚ) :
                  WithTop ℚ),
              st.counter, g.nodes.get ⟨e.target, htgt⟩⟩],
            en.node.id < g.nodes.length ∧
              Reaches g startId en.node.id := by
          intro en hen
          rcases List.mem_append.mp hen with h' | h'
          · exact hacc en h'
          · rw [List.mem_singleton] at h'
            subst h'
            exact ⟨by rw [hnid]; exact htgt,
              Relation.ReflTransGen.tail hreach hadj⟩
        have hgs2 : GsOk D (gsUpdate st.g_score
            (g.nodes.get ⟨e.target, htgt⟩).id
            (st.g_score current.id +
              ((calculate_edge_cost e.distance e.time vt : ℚ) :
                WithTop ℚ))) := by
          intro i
          unfold gsUpdate
          by_cases hik : i = (g.nodes.get ⟨e.target, htgt⟩).id
          · rw [if_pos hik, htent]
            exact Or.inr ⟨_, rfl, htentQ⟩
          · rw [if_neg hik]
            exact hgs i
        -- the measure strictly decreases at this relaxation
        have hdec : LexLtN
            (topsCard g.nodes.length (gsUpdate st.g_score
                (g.nodes.get ⟨e.target, htgt⟩).id
                (st.g_score current.id +
                  ((calculate_edge_cost e.distance e.time vt : ℚ) :
                    WithTop ℚ))),
              numSum g.nodes.length D (gsUpdate st.g_score
                (g.nodes.get ⟨e.target, htgt⟩).id
                (st.g_score current.id +
                  ((calculate_edge_cost e.distance e.time vt : ℚ) :
                    WithTop ℚ))))
            (topsCard g.nodes.length st.g_score,
              numSum g.nodes.length D st.g_score) := by
          have hklt : (g.nodes.get ⟨e.target, htgt⟩).id <
              g.nodes.length := by
            rw [hnid]
            exact htgt
          have htne : st.g_score current.id +
              ((calculate_edge_cost e.distance e.time vt : ℚ) :
                WithTop ℚ) ≠ ⊤ := by
            rw [htent]
            exact WithTop.coe_ne_top
          rcases hgs (g.nodes.get ⟨e.target, htgt⟩).id with hnb | ⟨m, hm, hmQ⟩
          · left
            have := topsCard_update_of_top g.nodes.length st.g_score
              (g.nodes.get ⟨e.target, htgt⟩).id hklt hnb _ htne
            omega
          · right
            constructor
            · exact topsCard_update_of_fin g.nodes.length st.g_score
                (g.nodes.get ⟨e.target, htgt⟩).id
                (by rw [hm]; exact WithTop.coe_ne_top) _ htne
            · apply numSum_update_lt g.nodes.length D st.g_score _ hklt
              obtain ⟨nt, hnt⟩ := htentQ
              obtain ⟨nm, hnm⟩ := hmQ
              rw [htent, hm, numAt_coe D _ nt hnt, numAt_coe D _ nm hnm]
              apply QD_lt_num hDpos hnt hnm
              have := himp
              rw [htent, hm, WithTop.coe_lt_coe] at this
              exact this
        obtain ⟨st', hst', hacc', hgs', hlex'⟩ :=
          ih (fun e' he' => hl e' (List.mem_cons_of_mem e he'))
            { open_set := st.open_set ++
                [⟨st.g_score current.id +
                    ((calculate_edge_cost e.distance e.time vt : ℚ) :
                      WithTop ℚ) +
                    ((calculate_heuristic
                      (g.nodes.get ⟨e.target, htgt⟩).position goal_pos
                      criterion vt em
                      (some (g.nodes.get ⟨e.target, htgt⟩).id) t : ℚ) :
                      WithTop ℚ),
                  st.counter, g.nodes.get ⟨e.target, htgt⟩⟩],
              counter := st.counter + 1,
              g_score := gsUpdate st.g_score
                (g.nodes.get ⟨e.target, htgt⟩).id
                (st.g_score current.id +
                  ((calculate_edge_cost e.distance e.time vt : ℚ) :
                    WithTop ℚ)),
              came_from := ((g.nodes.get ⟨e.target, htgt⟩).id, current) ::
                st.came_from }
            hacc2 hgs2
        refine ⟨st', hst', hacc', hgs', Or.inr ?_⟩
        rcases hlex' with ⟨hoe, hge⟩ | hlex'
        · rw [hge]
          exact hdec
        · exact LexLtN_trans hlex' hdec
      · rw [if_neg himp]
        exact ih (fun e' he' => hl e' (List.mem_cons_of_mem e he')) st
          hacc hgs

/-- On a well-formed graph with nonnegative `QD` edge costs and an
unreachable goal, the `a_star` loop drains the frontier for some fuel:
every relaxation strictly decreases the `(infinite-count,
numerator-sum)` measure, and a pop without relaxation shortens the
frontier. -/
theorem astarLoop_unreachable (g : Graph) (hwf : g.WellFormed)
    (criterion : String) (vt : Option VehicleType)
    (em : Option EventManager) (t : Option ℤ) (goal_pos : Position)
    (goalId startId : ℕ) (hunreach : ¬ Reaches g startId goalId)
    (D : ℕ) (hDpos : 0 < D)
    (hD : ∀ e ∈ g.edges.flatten,
      QD D (calculate_edge_cost e.distance e.time vt)) :
    ∀ T M L : ℕ, ∀ st : AStarState,
      (∀ en ∈ st.open_set, en.node.id < g.nodes.length ∧
        Reaches g startId en.node.id) →
      GsOk D st.g_score →
      topsCard g.nodes.length st.g_score = T →
      numSum g.nodes.length D st.g_score = M →
      st.open_set.length = L →
      ∃ fuel, astarLoop g criterion vt em t goal_pos goalId startId fuel
        st = some (⊤, ⊤, []) := by
  intro T
  induction T using Nat.strong_induction_on with
  | _ T ihT =>
    intro M
    induction M using Nat.strong_induction_on with
    | _ M ihM =>
      intro L
      induction L using Nat.strong_induction_on with
      | _ L ihL =>
        intro st hinv hgs hT hM hL
        cases hp : popMinBy astarLt st.open_set with
        | none =>
          refine ⟨1, ?_⟩
          rw [astarLoop, hp]
        | some pr =>
          obtain ⟨entry, rest⟩ := pr
          have hperm := popMinBy_perm astarLt st.open_set entry rest hp
          have holen : st.open_set.length = rest.length + 1 := by
            simpa using hperm.length_eq
          have hmem : entry ∈ st.open_set :=
            hperm.mem_iff.mpr (List.mem_cons_self _ _)
          obtain ⟨hidlt, hreach⟩ := hinv entry hmem
          have hgoal : ¬ entry.node.id = goalId :=
            fun h => hunreach (h ▸ hreach)
          have helt : entry.node.id < g.edges.length := by
            rw [hwf.1]
            exact hidlt
          have hesome : g.edges[entry.node.id]? =
              some (g.edges.get ⟨entry.node.id, helt⟩) :=
            List.getElem?_eq_getElem helt
          obtain ⟨st2, hscan, hinv2, hgs2, hlex⟩ :=
            astarScan_total g hwf.2.1 criterion vt em t goal_pos
              entry.node startId hreach D hDpos hD
              (g.edges.get ⟨entry.node.id, helt⟩)
              (fun e he => ⟨by
                  unfold Graph.edgesFrom
                  rw [List.getD_eq_getElem?_getD, hesome]
                  exact he,
                hwf.2.2 _ (List.getElem_mem helt) e he,
                List.mem_flatten.mpr ⟨_, List.getElem_mem helt, he⟩⟩)
              { st with open_set := rest }
              (fun en hen =>
                hinv en (hperm.mem_iff.mpr (List.mem_cons_of_mem _ hen)))
              hgs
          dsimp only at hlex
          have hpack : ∀ fuel,
              astarLoop g criterion vt em t goal_pos goalId startId fuel
                st2 = some (⊤, ⊤, []) →
              ∃ fuel', astarLoop g criterion vt em t goal_pos goalId
                startId fuel' st = some (⊤, ⊤, []) := by
            intro fuel hfuel
            refine ⟨fuel + 1, ?_⟩
            rw [astarLoop, hp]
            dsimp only
            rw [if_neg hgoal, hesome]
            dsimp only
            rw [hscan]
            exact hfuel
          rcases hlex with ⟨hoe, hge⟩ | hlex
          · -- no relaxation: the frontier shrank by one
            obtain ⟨fuel, hfuel⟩ := ihL rest.length (by omega) st2 hinv2
              hgs2 (by rw [hge]; exact hT) (by rw [hge]; exact hM)
              (by rw [hoe])
            exact hpack fuel hfuel
          · rcases hlex with hTlt | ⟨hTeq, hMlt⟩
            · obtain ⟨fuel, hfuel⟩ := ihT
                (topsCard g.nodes.length st2.g_score) (by omega)
                (numSum g.nodes.length D st2.g_score)
                st2.open_set.length st2 hinv2 hgs2 rfl rfl rfl
              exact hpack fuel hfuel
            · obtain ⟨fuel, hfuel⟩ := ihM
                (numSum g.nodes.length D st2.g_score) (by omega)
                st2.open_set.length st2 hinv2 hgs2 (by omega) rfl rfl
              exact hpack fuel hfuel

/-- On `isolatedGraph` the second node is unreachable from the first. -/
theorem isolated_not_reaches : ¬ Reaches isolatedGraph 0 1 := by
  intro h
  rcases Relation.ReflTransGen.cases_head h with heq | ⟨c, hstep, _⟩
  · exact absurd heq (by decide)
  · obtain ⟨e, he, _, _⟩ := hstep
    have hnil : Graph.edgesFrom isolatedGraph 0 = [] := rfl
    rw [hnil] at he
    exact absurd he (List.not_mem_nil e)

/-- C4: the no-path result convention.  On a well-formed graph, when
the goal node snapped from the goal position is unreachable from the
start node along open edges, each algorithm terminates normally (the
fuel models the `while` loop; no modelled exception `none` occurs) and
returns exactly `(inf, inf, [])`: `uniform_cost_search` and
`greedy_bfs` unconditionally, `a_star` additionally assuming the stored
edge costs are nonnegative (with negative costs its strict-improvement
relaxation need not terminate). -/
theorem no_path_convention :
    (∀ g : Graph, g.WellFormed →
      ∀ (start goal : Position) (vt : Option VehicleType)
        (start_node goal_node : Node),
        g.find_closest_node start = some start_node →
        g.find_closest_node goal = some goal_node →
        ¬ Reaches g start_node.id goal_node.id →
        ∃ F, ∀ fuel, F ≤ fuel →
          uniform_cost_search start goal g vt fuel = some (⊤, ⊤, [])) ∧
    (∀ g : Graph, g.WellFormed →
      ∀ (start goal : Position) (criterion : String)
        (em : Option EventManager) (t : Option ℤ)
        (vt : Option VehicleType) (start_node goal_node : Node),
        g.find_closest_node start = some start_node →
        g.find_closest_node goal = some goal_node →
        ¬ Reaches g start_node.id goal_node.id →
        ∃ F, ∀ fuel, F ≤ fuel →
          greedy_bfs start goal g criterion em t vt fuel =
            some (⊤, ⊤, [])) ∧
    (∀ g : Graph, g.WellFormed →
      ∀ (start goal : Position) (criterion : String)
        (em : Option EventManager) (t : Option ℤ)
        (vt : Option VehicleType) (start_node goal_node : Node),
        g.find_closest_node start = some start_node →
        g.find_closest_node goal = some goal_node →
        (∀ l ∈ g.edges, ∀ e ∈ l,
          0 ≤ calculate_edge_cost e.distance e.time vt) →
        ¬ Reaches g start_node.id goal_node.id →
        ∃ F, ∀ fuel, F ≤ fuel →
          a_star start goal g criterion em t vt fuel =
            some (⊤, ⊤, [])) := by
  refine ⟨?_, ?_, ?_⟩
  · intro g hwf start goal vt sn gn hs hg hunreach
    refine ⟨2 + (totalEdges g + 1) * unvisCard g ∅, ?_⟩
    intro fuel hfuel
    unfold uniform_cost_search
    rw [hs, hg]
    dsimp only
    refine ucsLoop_unreachable g hwf vt gn.id sn.id hunreach fuel
      [⟨0, 0, sn, [sn.id]⟩] 1 ∅ ?_ ?_
    · intro en hen
      rw [List.mem_singleton] at hen
      subst hen
      exact ⟨id_lt_of_mem g hwf.2.1 sn (find_closest_node_mem g start sn hs),
        Relation.ReflTransGen.refl⟩
    · simp only [List.length_singleton]
      omega
  · intro g hwf start goal criterion em t vt sn gn hs hg hunreach
    obtain ⟨fuel0, hfuel0⟩ := greedyLoop_unreachable g hwf criterion vt em
      t gn.position gn.id sn.id hunreach (unvisCard g ∅)
      (staleLen ∅ [⟨calculate_heuristic sn.position gn.position criterion
        vt em (some sn.id) t, 0, sn⟩])
      [⟨calculate_heuristic sn.position gn.position criterion vt em
        (some sn.id) t, 0, sn⟩] 1 ∅ []
      (by
        intro en hen
        rw [List.mem_singleton] at hen
        subst hen
        exact ⟨id_lt_of_mem g hwf.2.1 sn
          (find_closest_node_mem g start sn hs),
          Relation.ReflTransGen.refl⟩)
      rfl rfl
    refine ⟨fuel0, ?_⟩
    intro fuel hfuel
    unfold greedy_bfs
    rw [hs, hg]
    dsimp only
    exact greedyLoop_mono g criterion vt em t gn.position gn.id sn.id
      fuel0 fuel hfuel _ 1 ∅ [] _ hfuel0
  · intro g hwf start goal criterion em t vt sn gn hs hg hcost hunreach
    have hD : ∀ e ∈ g.edges.flatten,
        QD (costDen g vt) (calculate_edge_cost e.distance e.time vt) := by
      intro e he
      obtain ⟨l, hl, hel⟩ := List.mem_flatten.mp he
      exact cost_QD g vt e he (hcost l hl e hel)
    obtain ⟨fuel0, hfuel0⟩ := astarLoop_unreachable g hwf criterion vt em
      t gn.position gn.id sn.id hunreach (costDen g vt)
      (costDen_pos g vt) hD _ _ _
      ⟨[⟨(0 : WithTop ℚ) + ((calculate_heuristic sn.position gn.position
          criterion vt em (some sn.id) t : ℚ) : WithTop ℚ), 0, sn⟩], 1,
        gsUpdate (fun _ => ⊤) sn.id 0, []⟩
      (by
        intro en hen
        rw [List.mem_singleton] at hen
        subst hen
        exact ⟨id_lt_of_mem g hwf.2.1 sn
          (find_closest_node_mem g start sn hs),
          Relation.ReflTransGen.refl⟩)
      (by
        intro i
        dsimp only
        unfold gsUpdate
        by_cases hik : i = sn.id
        · rw [if_pos hik]
          exact Or.inr ⟨0, WithTop.coe_zero.symm, QD_zero _⟩
        · rw [if_neg hik]
          exact Or.inl rfl)
      rfl rfl rfl
    refine ⟨fuel0, ?_⟩
    intro fuel hfuel
    unfold a_star
    rw [hs, hg]
    dsimp only
    exact astarLoop_mono g criterion vt em t gn.position gn.id sn.id
      fuel0 fuel hfuel _ _ hfuel0

/-- Witness for `no_path_convention`: on the two isolated nodes, the
uniform-cost search from the first node's position to the second's
returns the no-path triple for every sufficiently large fuel. -/
theorem no_path_convention_witness :
    ∃ F, ∀ fuel, F ≤ fuel →
      uniform_cost_search ⟨0, 0⟩ ⟨10, 0⟩ isolatedGraph none fuel =
        some (⊤, ⊤, []) :=
  no_path_convention.1 isolatedGraph (by decide) ⟨0, 0⟩ ⟨10, 0⟩ none
    (mkNode 0 0 0) (mkNode 1 10 0) (by decide) (by decide)
    isolated_not_reaches

end IA
